import Mathlib

/-!
# Verification of the Langbly translate pipeline core

Shallow embedding of the incremental-translation pipeline:
JS strings are modelled as `List Char`, JS objects as ordered
association lists, and each source function is translated into an
executable Lean definition mirroring the TypeScript control flow.
-/

namespace Translate

/-- JS strings, modelled as lists of characters. -/
abbrev Str := List Char

/-- Sum of the lengths of a list of strings (`countCharacters` in `utils.ts`). -/
def countCharacters (strings : List Str) : Nat :=
  strings.foldl (fun sum s => sum + s.length) 0

/-! ## Batch scheduler (`batchStrings` in `src/utils.ts`) -/

/-- Loop state of `batchStrings`: completed batches, the accumulating
batch, and its running character count. -/
structure BatchState where
  batches : List (List Str)
  current : List Str
  chars : Nat
deriving Repr, DecidableEq

/-- One iteration of the `for (const s of strings)` loop in `batchStrings`. -/
def batchStep (maxItems maxChars : Nat) (st : BatchState) (s : Str) : BatchState :=
  let len := s.length
  if len > maxChars then
    -- a single string exceeding maxChars goes in its own batch,
    -- flushing any accumulating batch first
    if st.current.length > 0 then ⟨st.batches ++ [st.current] ++ [[s]], [], 0⟩
    else ⟨st.batches ++ [[s]], [], 0⟩
  else if st.current.length ≥ maxItems ∨ st.chars + len > maxChars then
    ⟨st.batches ++ [st.current], [s], len⟩
  else
    ⟨st.batches, st.current ++ [s], st.chars + len⟩

/-- The final flush after the loop of `batchStrings`:
`if (currentBatch.length > 0) batches.push(currentBatch)`. -/
def finishBatch (st : BatchState) : List (List Str) :=
  if st.current.length > 0 then st.batches ++ [st.current] else st.batches

/-- `batchStrings(strings, maxItems, maxChars)` from `src/utils.ts`:
greedy left-to-right packing by item count and character budget. -/
def batchStrings (strings : List Str) (maxItems : Nat := 50) (maxChars : Nat := 10000) :
    List (List Str) :=
  finishBatch (strings.foldl (batchStep maxItems maxChars) ⟨[], [], 0⟩)

/-- Sum of lengths of the strings in one batch. -/
def batchChars (b : List Str) : Nat := (b.map List.length).sum

/-- The invariant maintained by the `batchStrings` loop. -/
def BatchInv (maxItems maxChars : Nat) (done : List Str) (st : BatchState) : Prop :=
  (∀ b ∈ st.batches, b ≠ [] ∧ b.length ≤ maxItems ∧
      (2 ≤ b.length → batchChars b ≤ maxChars) ∧
      (∀ s ∈ b, maxChars < s.length → b = [s])) ∧
  st.current.length ≤ maxItems ∧
  st.chars = batchChars st.current ∧
  batchChars st.current ≤ maxChars ∧
  (∀ s ∈ st.current, s.length ≤ maxChars) ∧
  st.batches.flatten ++ st.current = done

theorem batchChars_append (a b : List Str) :
    batchChars (a ++ b) = batchChars a + batchChars b := by
  simp [batchChars]

theorem batchStep_inv (maxItems maxChars : Nat) (hm : 1 ≤ maxItems)
    (done : List Str) (st : BatchState) (s : Str)
    (h : BatchInv maxItems maxChars done st) :
    BatchInv maxItems maxChars (done ++ [s]) (batchStep maxItems maxChars st s) := by
  obtain ⟨hb, hlen, hchars, hsum, hsmall, hjoin⟩ := h
  unfold batchStep
  by_cases h1 : s.length > maxChars
  · rw [if_pos h1]
    by_cases h2 : st.current.length > 0
    · rw [if_pos h2]
      refine ⟨?_, by simp, by simp [batchChars], by simp [batchChars], ?_, ?_⟩
      · intro b hbmem
        simp only [List.mem_append, List.mem_singleton] at hbmem
        rcases hbmem with (hbmem | hbmem) | hbmem
        · exact hb b hbmem
        · subst hbmem
          refine ⟨by simpa using List.length_pos.mp h2, hlen, fun h2c => hsum, ?_⟩
          intro t htmem htlen
          exact absurd htlen (by simpa using Nat.not_lt.mpr (hsmall t htmem))
        · subst hbmem
          exact ⟨by simp, by simpa using hm, by simp, by simp⟩
      · simp
      · simp [← hjoin]
    · rw [if_neg h2]
      refine ⟨?_, by simp, by simp [batchChars], by simp [batchChars], by simp, ?_⟩
      · intro b hbmem
        simp only [List.mem_append, List.mem_singleton] at hbmem
        rcases hbmem with hbmem | hbmem
        · exact hb b hbmem
        · subst hbmem
          exact ⟨by simp, by simpa using hm, by simp, by simp⟩
      · have hcur : st.current = [] := by
          cases hc : st.current with
          | nil => rfl
          | cons x xs => exact absurd (by simp [hc]) h2
        simp [← hjoin, hcur]
  · rw [if_neg h1]
    have h1' : s.length ≤ maxChars := Nat.not_lt.mp h1
    by_cases h2 : st.current.length ≥ maxItems ∨ st.chars + s.length > maxChars
    · rw [if_pos h2]
      refine ⟨?_, by simpa using hm, by simp [batchChars], by simpa [batchChars] using h1', ?_, ?_⟩
      · intro b hbmem
        simp only [List.mem_append, List.mem_singleton] at hbmem
        rcases hbmem with hbmem | hbmem
        · exact hb b hbmem
        · subst hbmem
          have hne : st.current ≠ [] := by
            intro hc
            rcases h2 with h2 | h2
            · rw [hc] at h2; simp at h2; omega
            · rw [hchars, hc] at h2; simp [batchChars] at h2; omega
          refine ⟨hne, hlen, fun h2c => hsum, ?_⟩
          intro t htmem htlen
          exact absurd htlen (by simpa using Nat.not_lt.mpr (hsmall t htmem))
      · intro t htmem
        simp only [List.mem_singleton] at htmem
        subst htmem
        exact h1'
      · simp [← hjoin]
    · rw [if_neg h2]
      push_neg at h2
      obtain ⟨h2a, h2b⟩ := h2
      refine ⟨hb, ?_, by simp [batchChars_append, hchars, batchChars], ?_, ?_, ?_⟩
      · simpa using Nat.succ_le_of_lt h2a
      · rw [batchChars_append]
        have : batchChars [s] = s.length := by simp [batchChars]
        rw [this]
        omega
      · intro t htmem
        simp only [List.mem_append, List.mem_singleton] at htmem
        rcases htmem with htmem | htmem
        · exact hsmall t htmem
        · subst htmem; exact h1'
      · simp [← hjoin]

theorem batchFold_inv (maxItems maxChars : Nat) (hm : 1 ≤ maxItems)
    (strings : List Str) (done : List Str) (st : BatchState)
    (h : BatchInv maxItems maxChars done st) :
    BatchInv maxItems maxChars (done ++ strings)
      (strings.foldl (batchStep maxItems maxChars) st) := by
  induction strings generalizing done st with
  | nil => simpa using h
  | cons s rest ih =>
    have step := batchStep_inv maxItems maxChars hm done st s h
    have := ih (done ++ [s]) _ step
    simpa using this

theorem batchStrings_inv (strings : List Str) (maxItems maxChars : Nat)
    (hm : 1 ≤ maxItems) :
    (∀ b ∈ batchStrings strings maxItems maxChars, b ≠ [] ∧ b.length ≤ maxItems ∧
        (2 ≤ b.length → batchChars b ≤ maxChars) ∧
        (∀ s ∈ b, maxChars < s.length → b = [s])) ∧
    (batchStrings strings maxItems maxChars).flatten = strings := by
  have h0 : BatchInv maxItems maxChars [] ⟨[], [], 0⟩ := by
    refine ⟨by simp, by simp, by simp [batchChars], by simp [batchChars], by simp, by simp⟩
  have hfold := batchFold_inv maxItems maxChars hm strings [] _ h0
  simp only [List.nil_append] at hfold
  obtain ⟨hb, hlen, hchars, hsum, hsmall, hjoin⟩ := hfold
  unfold batchStrings finishBatch
  by_cases h2 : (strings.foldl (batchStep maxItems maxChars) ⟨[], [], 0⟩).current.length > 0
  · rw [if_pos h2]
    constructor
    · intro b hbmem
      simp only [List.mem_append, List.mem_singleton] at hbmem
      rcases hbmem with hbmem | hbmem
      · exact hb b hbmem
      · subst hbmem
        refine ⟨by simpa using List.length_pos.mp h2, hlen, fun h2c => hsum, ?_⟩
        intro t htmem htlen
        exact absurd htlen (by simpa using Nat.not_lt.mpr (hsmall t htmem))
    · simpa using hjoin
  · rw [if_neg h2]
    have hcur : (strings.foldl (batchStep maxItems maxChars) ⟨[], [], 0⟩).current = [] := by
      cases hc : (strings.foldl (batchStep maxItems maxChars) ⟨[], [], 0⟩).current with
      | nil => rfl
      | cons x xs => exact absurd (by simp [hc]) h2
    refine ⟨fun b hbmem => hb b hbmem, ?_⟩
    rw [hcur] at hjoin
    simpa using hjoin

/-! ## Markdown codec (`src/formats/markdown.ts`) -/

/-- Whitespace characters removed by JS `String.prototype.trimStart`
(ASCII whitespace and line terminators). -/
def jsWhitespace (c : Char) : Bool :=
  c = ' ' ∨ c = '\t' ∨ c = '\n' ∨ c = '\r' ∨ c = '\x0b' ∨ c = '\x0c'

/-- JS `content.trimStart()`. -/
def trimStart (s : Str) : Str := s.dropWhile jsWhitespace

/-- JS `s.indexOf(pat, start)` for a non-empty pattern: index of the first
occurrence of `pat` at positions `≥ start`, scanning left to right. -/
def indexOfAux (pat : Str) : Str → Nat → Option Nat
  | [], _ => none
  | c :: cs, i => if pat.isPrefixOf (c :: cs) then some i else indexOfAux pat cs (i + 1)

/-- JS `s.indexOf(pat, start)` (`-1` becomes `none`). -/
def indexOfFrom (s pat : Str) (start : Nat) : Option Nat :=
  indexOfAux pat (s.drop start) start

/-- `MarkdownFile` from `src/formats/markdown.ts`. -/
structure MarkdownFile where
  frontmatter : Option Str
  body : Str
deriving Repr, DecidableEq

/-- `splitMarkdown(content)` from `src/formats/markdown.ts`: recognize a
frontmatter block delimited by `---` lines at the start of the (left-trimmed)
content; otherwise the whole content is the body. -/
def splitMarkdown (content : Str) : MarkdownFile :=
  let trimmed := trimStart content
  if ("---".toList.isPrefixOf trimmed) then
    match indexOfFrom trimmed "\n---".toList 3 with
    | none => ⟨none, content⟩
    | some endIndex =>
        ⟨some (trimmed.take (endIndex + 4)), trimmed.drop (endIndex + 4)⟩
  else ⟨none, content⟩

/-- `assembleMarkdown(frontmatter, translatedBody)` from
`src/formats/markdown.ts`. (JS treats the empty string as falsy and returns
the body alone; that coincides with concatenation, so one branch suffices.) -/
def assembleMarkdown (frontmatter : Option Str) (translatedBody : Str) : Str :=
  match frontmatter with
  | none => translatedBody
  | some f => f ++ translatedBody

/-- C4: for every list of strings, `maxItems ≥ 1` and `maxChars ≥ 1`,
`batchStrings` satisfies all four postconditions: every batch has at most
`maxItems` items; the character sum of any batch with at least two items is
at most `maxChars`; any string longer than `maxChars` appears alone in its
own batch; and concatenating the batches in order reproduces the input. -/
theorem batchStrings_postconditions (strings : List Str) (maxItems maxChars : Nat)
    (hm : 1 ≤ maxItems) (_hc : 1 ≤ maxChars) :
    (∀ b ∈ batchStrings strings maxItems maxChars, b.length ≤ maxItems) ∧
    (∀ b ∈ batchStrings strings maxItems maxChars,
        2 ≤ b.length → batchChars b ≤ maxChars) ∧
    (∀ b ∈ batchStrings strings maxItems maxChars,
        ∀ s ∈ b, maxChars < s.length → b = [s]) ∧
    (batchStrings strings maxItems maxChars).flatten = strings := by
  obtain ⟨hb, hjoin⟩ := batchStrings_inv strings maxItems maxChars hm
  exact ⟨fun b hbm => (hb b hbm).2.1, fun b hbm => (hb b hbm).2.2.1,
    fun b hbm => (hb b hbm).2.2.2, hjoin⟩

/-- Witness for C4: the spec scenario `["hello","world","foo"]` with
`maxItems = 50`, `maxChars = 8`. -/
theorem batchStrings_postconditions_witness :
    (1 ≤ 50 ∧ 1 ≤ 8) ∧
    ((∀ b ∈ batchStrings ["hello".toList, "world".toList, "foo".toList] 50 8,
        b.length ≤ 50) ∧
     (∀ b ∈ batchStrings ["hello".toList, "world".toList, "foo".toList] 50 8,
        2 ≤ b.length → batchChars b ≤ 8) ∧
     (∀ b ∈ batchStrings ["hello".toList, "world".toList, "foo".toList] 50 8,
        ∀ s ∈ b, 8 < s.length → b = [s]) ∧
     (batchStrings ["hello".toList, "world".toList, "foo".toList] 50 8).flatten =
        ["hello".toList, "world".toList, "foo".toList]) :=
  ⟨⟨by decide, by decide⟩,
   batchStrings_postconditions ["hello".toList, "world".toList, "foo".toList] 50 8
     (by decide) (by decide)⟩

/-- C2 (counterexample): with leading whitespace before a recognized
frontmatter block, reassembly drops the leading whitespace, so
`assembleMarkdown(splitMarkdown(x)) ≠ x` for this input. -/
theorem assembleMarkdown_splitMarkdown_ne :
    assembleMarkdown (splitMarkdown ('\n' :: "---\nt: a\n---\nbody".toList)).frontmatter
        (splitMarkdown ('\n' :: "---\nt: a\n---\nbody".toList)).body
      ≠ '\n' :: "---\nt: a\n---\nbody".toList := by decide

/-- C2 (amended): reassembling the two parts of `splitMarkdown` gives back
the input exactly whenever no frontmatter is recognized; when a frontmatter
block is recognized it gives back `x.trimStart()`, i.e. the input with any
leading whitespace removed (byte-identical whenever the input does not start
with whitespace). -/
theorem assembleMarkdown_splitMarkdown (x : Str) :
    assembleMarkdown (splitMarkdown x).frontmatter (splitMarkdown x).body =
      if (splitMarkdown x).frontmatter = none then x else trimStart x := by
  unfold splitMarkdown
  by_cases h : ("---".toList.isPrefixOf (trimStart x)) = true
  · rw [if_pos h]
    cases h2 : indexOfFrom (trimStart x) "\n---".toList 3 with
    | none => simp [assembleMarkdown]
    | some endIndex => simp [assembleMarkdown]
  · rw [if_neg h]
    simp [assembleMarkdown]

/-- C10: for every list of strings and every `maxItems ≥ 1` (any `maxChars`),
every batch returned by `batchStrings` is non-empty, so the pipeline never
submits an empty request batch to the translation client. -/
theorem batchStrings_batches_nonempty (strings : List Str) (maxItems maxChars : Nat)
    (hm : 1 ≤ maxItems) :
    ∀ b ∈ batchStrings strings maxItems maxChars, b ≠ [] := by
  obtain ⟨hb, _⟩ := batchStrings_inv strings maxItems maxChars hm
  exact fun b hbm => (hb b hbm).1

/-- Witness for C10: concrete run with an oversized string, an empty input
string and `maxChars = 0`. -/
theorem batchStrings_batches_nonempty_witness :
    1 ≤ 1 ∧ ∀ b ∈ batchStrings ["ab".toList, [], "c".toList] 1 0, b ≠ [] :=
  ⟨by decide, batchStrings_batches_nonempty ["ab".toList, [], "c".toList] 1 0 (by decide)⟩

/-! ## JSON codec (`src/formats/json.ts`)

Hierarchical documents (`Record<string, unknown>` trees) are modelled as a
tagged tree; JS objects become ordered association lists (insertion order),
which matches `Object.entries` / property-assignment order for the
non-numeric keys used by locale files. -/

/-- A JSON value as handled by `flattenJson` / `unflattenJson`. -/
inductive Json where
  | str (s : Str)
  | obj (fields : List (Str × Json))
  | num (n : Int)
  | boolean (b : Bool)
  | null
  | arr (elems : List Json)
deriving Repr

/-- `FlatEntry` from `src/formats/json.ts`. -/
structure FlatEntry where
  key : Str
  value : Str
deriving Repr, DecidableEq

instance : Inhabited Json := ⟨Json.null⟩

/-- `` prefix ? `${prefix}.${k}` : k `` (the empty string is falsy in JS). -/
def dottedKey (pref k : Str) : Str :=
  if pref.isEmpty then k else pref ++ '.' :: k

/-- `flattenJson(obj, prefix)` from `src/formats/json.ts`: depth-first
traversal in object-key order, emitting only string leaves, skipping
arrays, numbers, booleans and null. -/
def flattenJson : List (Str × Json) → Str → List FlatEntry
  | [], _ => []
  | (k, v) :: rest, pref =>
    (match v with
     | .str s => [⟨dottedKey pref k, s⟩]
     | .obj fields => flattenJson fields (dottedKey pref k)
     | _ => []) ++ flattenJson rest pref

/-- JS `key.split(".")`. -/
def splitDots : Str → List Str
  | [] => [[]]
  | c :: cs =>
    if c = '.' then [] :: splitDots cs
    else
      match splitDots cs with
      | h :: t => (c :: h) :: t
      | [] => [[c]]

/-- First value bound to `k` in an association list (JS property lookup). -/
def getKey (fields : List (Str × Json)) (k : Str) : Option Json :=
  match fields.find? (fun f => f.1 == k) with
  | some f => some f.2
  | none => none

/-- JS property assignment `o[k] = v` on an ordered object: an existing key
keeps its position, a new key is appended. -/
def setKey (fields : List (Str × Json)) (k : Str) (v : Json) : List (Str × Json) :=
  match fields with
  | [] => [(k, v)]
  | (k0, v0) :: rest =>
    if k0 = k then (k0, v) :: rest else (k0, v0) :: setKey rest k v

/-- The inner loop of `unflattenJson` for one entry: walk the path parts,
descending into existing nested objects and replacing any missing or
non-object value with a fresh `{}`, then assign the string at the last part.
(In the pipeline the intermediate values are only absent, strings, or
objects previously created here, so the JS `typeof !== "object"` test
coincides with "not a map".) -/
def insertPath (fields : List (Str × Json)) : List Str → Str → List (Str × Json)
  | [], _ => fields
  | [k], value => setKey fields k (.str value)
  | k :: p :: rest, value =>
    let child := match getKey fields k with
      | some (.obj m) => m
      | _ => []
    setKey fields k (.obj (insertPath child (p :: rest) value))

/-- `unflattenJson(entries)` from `src/formats/json.ts`. -/
def unflattenJson (entries : List FlatEntry) : List (Str × Json) :=
  entries.foldl (fun root e => insertPath root (splitDots e.key) e.value) []

/-- `computeDiff(sourceEntries, existingTarget)` from `src/formats/json.ts`. -/
def computeDiff (sourceEntries : List FlatEntry)
    (existingTarget : Option (List (Str × Json))) : List FlatEntry :=
  match existingTarget with
  | none => sourceEntries
  | some tgt =>
    let existingKeys := (flattenJson tgt []).map FlatEntry.key
    sourceEntries.filter (fun entry => !(existingKeys.contains entry.key))

/-- JS `Map.get` on a map built by `new Map(entries)`: the constructor
`set`s the entries in order, so on duplicate keys the LAST entry wins —
lookup scans the reversed entry list. -/
def jsMapGet (entries : List (Str × Str)) (k : Str) : Option Str :=
  match entries.reverse.find? (fun p => p.1 == k) with
  | some p => some p.2
  | none => none

/-- The `existingFlat` map built by `mergeTranslations` (the entry list
passed to the JS `Map` constructor). -/
def existingFlatOf : Option (List (Str × Json)) → List (Str × Str)
  | some tgt => (flattenJson tgt []).map (fun e => (e.key, e.value))
  | none => []

/-- The per-entry value choice of `mergeTranslations`:
`translated.get(key) ?? existingFlat.get(key) ?? entry.value`, with both
maps read under JS `Map` (last-write-wins) semantics. -/
def mergeValue (translated existingFlat : List (Str × Str)) (k v : Str) : Str :=
  match jsMapGet translated k with
  | some w => w
  | none =>
    match jsMapGet existingFlat k with
    | some w => w
    | none => v

/-- `mergeTranslations(sourceEntries, translated, existingTarget)` from
`src/formats/json.ts`; each `Map` is modelled as the entry list it is
built from, read with last-write-wins lookup. -/
def mergeTranslations (sourceEntries : List FlatEntry)
    (translated : List (Str × Str))
    (existingTarget : Option (List (Str × Json))) : List (Str × Json) :=
  let existingFlat := existingFlatOf existingTarget
  let merged := sourceEntries.map (fun entry =>
    FlatEntry.mk entry.key (mergeValue translated existingFlat entry.key entry.value))
  unflattenJson merged

/-- C5: with no existing target, `computeDiff` returns the whole source entry
list unchanged; against an existing target it returns exactly the source
entries, in original order, whose key is absent from the flattened target's
key set (values are never compared); and it is idempotent: diffing the diff
against the same target changes nothing. -/
theorem computeDiff_spec (sourceEntries : List FlatEntry) (tgt : List (Str × Json)) :
    computeDiff sourceEntries none = sourceEntries ∧
    computeDiff sourceEntries (some tgt) =
      sourceEntries.filter
        (fun e => decide (e.key ∉ (flattenJson tgt []).map FlatEntry.key)) ∧
    computeDiff (computeDiff sourceEntries (some tgt)) (some tgt) =
      computeDiff sourceEntries (some tgt) := by
  refine ⟨rfl, ?_, ?_⟩
  · simp only [computeDiff]
    refine List.filter_congr ?_
    intro e _
    simp only [List.contains, List.elem_eq_mem, decide_not]
  · simp only [computeDiff]
    rw [List.filter_filter]
    refine List.filter_congr ?_
    intro e _
    simp

/-! ### Path-level view of the codec

`flattenJson` emits dotted string keys and `unflattenJson` splits them
again; the proofs go through a path-level description of the depth-first
traversal. -/

/-- Inverse of `splitDots`: join path segments with `'.'`. -/
def joinDots : List Str → Str
  | [] => []
  | [s] => s
  | s :: rest => s ++ '.' :: joinDots rest

/-- Modelled from the spec: the depth-first object-key-order traversal of a
document, emitting `(path, value)` for string leaves only and skipping
arrays and non-string scalars. -/
def pathEntries : List (Str × Json) → List (List Str × Str)
  | [] => []
  | (k, v) :: rest =>
    (match v with
     | .str s => [([k], s)]
     | .obj fields => (pathEntries fields).map (fun pe => (k :: pe.1, pe.2))
     | _ => []) ++ pathEntries rest

/-- Look a path up in a document. -/
def getPath (fields : List (Str × Json)) : List Str → Option Json
  | [] => none
  | [k] => getKey fields k
  | k :: p :: rest =>
    match getKey fields k with
    | some (.obj sub) => getPath sub (p :: rest)
    | _ => none

/-- Keys are well formed for dotted-path addressing: non-empty, dot-free,
and unique within each object (the last is automatic for a JS object). -/
def keysOkay : List (Str × Json) → Bool
  | [] => true
  | (k, v) :: rest =>
    !k.isEmpty && !k.contains '.' && rest.all (fun f => !(f.1 == k)) &&
    (match v with
     | .obj sub => keysOkay sub
     | _ => true) &&
    keysOkay rest

/-- Every leaf is a string and every nested map is non-empty. -/
def leavesOkay : List (Str × Json) → Bool
  | [] => true
  | (_, v) :: rest =>
    (match v with
     | .str _ => true
     | .obj sub => !sub.isEmpty && leavesOkay sub
     | _ => false) &&
    leavesOkay rest

/-- A document leaf-value rewrite following the same dotted-key computation
as `flattenJson`; used to describe what `mergeTranslations` builds. -/
def mapValsDoc (f : Str → Str → Str) : List (Str × Json) → Str → List (Str × Json)
  | [], _ => []
  | (k, v) :: rest, pref =>
    (k, match v with
        | .str s => .str (f (dottedKey pref k) s)
        | .obj sub => .obj (mapValsDoc f sub (dottedKey pref k))
        | other => other) :: mapValsDoc f rest pref

/-- Insert a list of path-level entries (the loop body of `unflattenJson`). -/
def insertAll (root : List (Str × Json)) (pes : List (List Str × Str)) :
    List (Str × Json) :=
  pes.foldl (fun r pe => insertPath r pe.1 pe.2) root

/-- A recursion principle matching the traversal pattern of the codec. -/
theorem fieldsRec {motive : List (Str × Json) → Prop} (h0 : motive [])
    (hstr : ∀ k s rest, motive rest → motive ((k, .str s) :: rest))
    (hobj : ∀ k sub rest, motive sub → motive rest → motive ((k, .obj sub) :: rest))
    (hnum : ∀ k n rest, motive rest → motive ((k, .num n) :: rest))
    (hbool : ∀ k b rest, motive rest → motive ((k, .boolean b) :: rest))
    (hnull : ∀ k rest, motive rest → motive ((k, .null) :: rest))
    (harr : ∀ k es rest, motive rest → motive ((k, .arr es) :: rest)) :
    ∀ fields, motive fields
  | [] => h0
  | (k, .str s) :: rest =>
      hstr k s rest (fieldsRec h0 hstr hobj hnum hbool hnull harr rest)
  | (k, .obj sub) :: rest =>
      hobj k sub rest (fieldsRec h0 hstr hobj hnum hbool hnull harr sub)
        (fieldsRec h0 hstr hobj hnum hbool hnull harr rest)
  | (k, .num n) :: rest =>
      hnum k n rest (fieldsRec h0 hstr hobj hnum hbool hnull harr rest)
  | (k, .boolean b) :: rest =>
      hbool k b rest (fieldsRec h0 hstr hobj hnum hbool hnull harr rest)
  | (k, .null) :: rest =>
      hnull k rest (fieldsRec h0 hstr hobj hnum hbool hnull harr rest)
  | (k, .arr es) :: rest =>
      harr k es rest (fieldsRec h0 hstr hobj hnum hbool hnull harr rest)

/-! ### `splitDots` is a left inverse of `joinDots` -/

theorem splitDots_no_dot (s : Str) (h : '.' ∉ s) : splitDots s = [s] := by
  induction s with
  | nil => rfl
  | cons c cs ih =>
    have hc : ¬ c = '.' := fun hc => h (by simp [hc])
    have ih2 := ih (fun hmem => h (by simp [hmem]))
    simp only [splitDots, if_neg hc, ih2]

theorem splitDots_append (s t : Str) (h : '.' ∉ s) :
    splitDots (s ++ '.' :: t) = s :: splitDots t := by
  induction s with
  | nil => simp [splitDots]
  | cons c cs ih =>
    have hc : ¬ c = '.' := fun hc => h (by simp [hc])
    have ih2 := ih (fun hmem => h (by simp [hmem]))
    simp only [List.cons_append, splitDots, if_neg hc, List.append_eq, ih2]

theorem splitDots_joinDots :
    ∀ ps : List Str, ps ≠ [] → (∀ s ∈ ps, '.' ∉ s) →
      splitDots (joinDots ps) = ps
  | [], h, _ => absurd rfl h
  | [s], _, h => by
    simpa [joinDots] using splitDots_no_dot s (h s (by simp))
  | s :: r :: t, _, h => by
    have h1 : joinDots (s :: r :: t) = s ++ '.' :: joinDots (r :: t) := rfl
    rw [h1, splitDots_append s _ (h s (by simp)),
      splitDots_joinDots (r :: t) (by simp) (fun x hx => h x (by simp [hx]))]

/-- Dotted key built from a string prefix and a path suffix. -/
def prefJoin (pref : Str) (p : List Str) : Str :=
  if pref.isEmpty then joinDots p else pref ++ '.' :: joinDots p

theorem prefJoin_single (pref k : Str) : dottedKey pref k = prefJoin pref [k] := by
  simp [dottedKey, prefJoin, joinDots]

theorem prefJoin_cons (pref k : Str) (p : List Str) (hk : k ≠ []) (hp : p ≠ []) :
    prefJoin (dottedKey pref k) p = prefJoin pref (k :: p) := by
  have hjoin : joinDots (k :: p) = k ++ '.' :: joinDots p := by
    cases p with
    | nil => exact absurd rfl hp
    | cons q t => rfl
  by_cases h : pref.isEmpty
  · have hke : ¬ (k.isEmpty = true) := by
      cases k with
      | nil => exact absurd rfl hk
      | cons c cs => simp
    simp [dottedKey, prefJoin, h, hke, hjoin]
  · have hne : ¬ ((pref ++ '.' :: k).isEmpty = true) := by
      cases pref with
      | nil => simp [List.isEmpty] at h
      | cons c cs => simp
    simp [dottedKey, prefJoin, h, hne, hjoin]

/-- Destructured form of `keysOkay` at a cons cell. -/
theorem keysOkay_cons {k : Str} {v : Json} {rest : List (Str × Json)}
    (h : keysOkay ((k, v) :: rest) = true) :
    k ≠ [] ∧ '.' ∉ k ∧ (∀ f ∈ rest, ¬ f.1 = k) ∧ keysOkay rest = true ∧
    (∀ sub, v = .obj sub → keysOkay sub = true) := by
  cases v with
  | obj sub =>
    simp only [keysOkay, Bool.and_eq_true, List.all_eq_true, Bool.not_eq_true',
      beq_eq_false_iff_ne, ne_eq] at h
    obtain ⟨⟨⟨⟨h1, h2⟩, h3⟩, h4⟩, h5⟩ := h
    exact ⟨by simpa using h1, by simpa using h2, h3, h5,
      fun s hs => by cases hs; exact h4⟩
  | str s =>
    simp only [keysOkay, Bool.and_eq_true, Bool.and_true, Bool.true_and,
      List.all_eq_true, Bool.not_eq_true', beq_eq_false_iff_ne, ne_eq] at h
    obtain ⟨⟨⟨h1, h2⟩, h3⟩, h5⟩ := h
    exact ⟨by simpa using h1, by simpa using h2, h3, h5, by intro sub hs; cases hs⟩
  | num n =>
    simp only [keysOkay, Bool.and_eq_true, Bool.and_true, Bool.true_and,
      List.all_eq_true, Bool.not_eq_true', beq_eq_false_iff_ne, ne_eq] at h
    obtain ⟨⟨⟨h1, h2⟩, h3⟩, h5⟩ := h
    exact ⟨by simpa using h1, by simpa using h2, h3, h5, by intro sub hs; cases hs⟩
  | boolean b =>
    simp only [keysOkay, Bool.and_eq_true, Bool.and_true, Bool.true_and,
      List.all_eq_true, Bool.not_eq_true', beq_eq_false_iff_ne, ne_eq] at h
    obtain ⟨⟨⟨h1, h2⟩, h3⟩, h5⟩ := h
    exact ⟨by simpa using h1, by simpa using h2, h3, h5, by intro sub hs; cases hs⟩
  | null =>
    simp only [keysOkay, Bool.and_eq_true, Bool.and_true, Bool.true_and,
      List.all_eq_true, Bool.not_eq_true', beq_eq_false_iff_ne, ne_eq] at h
    obtain ⟨⟨⟨h1, h2⟩, h3⟩, h5⟩ := h
    exact ⟨by simpa using h1, by simpa using h2, h3, h5, by intro sub hs; cases hs⟩
  | arr es =>
    simp only [keysOkay, Bool.and_eq_true, Bool.and_true, Bool.true_and,
      List.all_eq_true, Bool.not_eq_true', beq_eq_false_iff_ne, ne_eq] at h
    obtain ⟨⟨⟨h1, h2⟩, h3⟩, h5⟩ := h
    exact ⟨by simpa using h1, by simpa using h2, h3, h5, by intro sub hs; cases hs⟩

/-- Every path produced by the traversal is non-empty. -/
theorem pathEntries_path_ne_nil (fields : List (Str × Json)) :
    ∀ pe ∈ pathEntries fields, pe.1 ≠ [] := by
  induction fields using fieldsRec with
  | h0 => intro pe hpe; simp [pathEntries] at hpe
  | hstr k s rest ih =>
    intro pe hpe
    simp only [pathEntries, List.mem_append, List.mem_singleton] at hpe
    rcases hpe with hpe | hpe
    · subst hpe; simp
    · exact ih pe hpe
  | hobj k sub rest ihsub ih =>
    intro pe hpe
    simp only [pathEntries, List.mem_append, List.mem_map] at hpe
    rcases hpe with ⟨q, _, hq⟩ | hpe
    · subst hq; simp
    · exact ih pe hpe
  | hnum k n rest ih => intro pe hpe; exact ih pe (by simpa [pathEntries] using hpe)
  | hbool k b rest ih => intro pe hpe; exact ih pe (by simpa [pathEntries] using hpe)
  | hnull k rest ih => intro pe hpe; exact ih pe (by simpa [pathEntries] using hpe)
  | harr k es rest ih => intro pe hpe; exact ih pe (by simpa [pathEntries] using hpe)

/-- `flattenJson` is the dotted-key rendering of the path-level traversal. -/
theorem flatten_pathEntries (fields : List (Str × Json)) :
    keysOkay fields = true → ∀ pref,
      flattenJson fields pref =
        (pathEntries fields).map (fun pe => ⟨prefJoin pref pe.1, pe.2⟩) := by
  induction fields using fieldsRec with
  | h0 => intro _ pref; simp [flattenJson, pathEntries]
  | hstr k s rest ih =>
    intro h pref
    obtain ⟨hk, hdot, hnd, hrest, _⟩ := keysOkay_cons h
    simp only [flattenJson, pathEntries, List.map_append, List.map_cons, List.map_nil,
      ih hrest pref, prefJoin_single]
  | hobj k sub rest ihsub ih =>
    intro h pref
    obtain ⟨hk, hdot, hnd, hrest, hsub⟩ := keysOkay_cons h
    simp only [flattenJson, pathEntries, List.map_append, ih hrest pref,
      ihsub (hsub sub rfl) (dottedKey pref k), List.map_map]
    congr 1
    refine List.map_congr_left ?_
    intro pe hpe
    simp only [Function.comp_apply]
    rw [prefJoin_cons pref k pe.1 hk (pathEntries_path_ne_nil sub pe hpe)]
  | hnum k n rest ih =>
    intro h pref
    obtain ⟨_, _, _, hrest, _⟩ := keysOkay_cons h
    simpa [flattenJson, pathEntries] using ih hrest pref
  | hbool k b rest ih =>
    intro h pref
    obtain ⟨_, _, _, hrest, _⟩ := keysOkay_cons h
    simpa [flattenJson, pathEntries] using ih hrest pref
  | hnull k rest ih =>
    intro h pref
    obtain ⟨_, _, _, hrest, _⟩ := keysOkay_cons h
    simpa [flattenJson, pathEntries] using ih hrest pref
  | harr k es rest ih =>
    intro h pref
    obtain ⟨_, _, _, hrest, _⟩ := keysOkay_cons h
    simpa [flattenJson, pathEntries] using ih hrest pref

/-! ### Ordered-object update lemmas -/

theorem getKey_cons_self (k : Str) (v : Json) (rest : List (Str × Json)) :
    getKey ((k, v) :: rest) k = some v := by
  unfold getKey
  rw [List.find?_cons_of_pos _ (by simp)]

theorem getKey_cons_ne (k0 k : Str) (v : Json) (rest : List (Str × Json))
    (h : k0 ≠ k) : getKey ((k, v) :: rest) k0 = getKey rest k0 := by
  unfold getKey
  rw [List.find?_cons_of_neg _ (by simp [Ne.symm h])]

theorem setKey_absent (fields : List (Str × Json)) (k : Str) (v : Json)
    (h : getKey fields k = none) : setKey fields k v = fields ++ [(k, v)] := by
  induction fields with
  | nil => rfl
  | cons f rest ih =>
    obtain ⟨k0, v0⟩ := f
    by_cases hk : k0 = k
    · subst hk
      rw [getKey_cons_self] at h
      cases h
    · rw [getKey_cons_ne k k0 v0 rest (Ne.symm hk)] at h
      simp only [setKey, if_neg hk, ih h, List.cons_append]

theorem setKey_present (fields : List (Str × Json)) (k : Str) (v : Json)
    (h : getKey fields k = some v) : setKey fields k v = fields := by
  induction fields with
  | nil => cases h
  | cons f rest ih =>
    obtain ⟨k0, v0⟩ := f
    by_cases hk : k0 = k
    · subst hk
      rw [getKey_cons_self] at h
      cases h
      simp [setKey]
    · rw [getKey_cons_ne k k0 v0 rest (Ne.symm hk)] at h
      simp only [setKey, if_neg hk, ih h]

theorem getKey_setKey_self (fields : List (Str × Json)) (k : Str) (v : Json) :
    getKey (setKey fields k v) k = some v := by
  induction fields with
  | nil => simp [setKey, getKey_cons_self]
  | cons f rest ih =>
    obtain ⟨k0, v0⟩ := f
    by_cases hk : k0 = k
    · subst hk
      simp [setKey, getKey_cons_self]
    · simp only [setKey, if_neg hk]
      rw [getKey_cons_ne k k0 v0 _ (Ne.symm hk), ih]

theorem getKey_setKey_ne (fields : List (Str × Json)) (k k0 : Str) (v : Json)
    (h : k0 ≠ k) : getKey (setKey fields k v) k0 = getKey fields k0 := by
  induction fields with
  | nil => simp [setKey, getKey_cons_ne _ _ _ _ h]
  | cons f rest ih =>
    obtain ⟨k1, v1⟩ := f
    by_cases hk : k1 = k
    · subst hk
      rw [show setKey ((k1, v1) :: rest) k1 v = (k1, v) :: rest from by simp [setKey]]
      rw [getKey_cons_ne _ _ _ _ h, getKey_cons_ne _ _ _ _ h]
    · simp only [setKey, if_neg hk]
      by_cases hk0 : k0 = k1
      · subst hk0
        rw [getKey_cons_self, getKey_cons_self]
      · rw [getKey_cons_ne _ _ _ _ hk0, getKey_cons_ne _ _ _ _ hk0, ih]

theorem setKey_setKey (fields : List (Str × Json)) (k : Str) (v1 v2 : Json) :
    setKey (setKey fields k v1) k v2 = setKey fields k v2 := by
  induction fields with
  | nil => simp [setKey]
  | cons f rest ih =>
    obtain ⟨k0, v0⟩ := f
    by_cases hk : k0 = k
    · subst hk
      simp [setKey]
    · simp only [setKey, if_neg hk, ih]

theorem getPath_eq_of_getKey_eq {f1 f2 : List (Str × Json)} (k : Str) (t : List Str)
    (h : getKey f1 k = getKey f2 k) : getPath f1 (k :: t) = getPath f2 (k :: t) := by
  cases t with
  | nil => simpa [getPath] using h
  | cons p rest =>
    have e1 : ∀ f : List (Str × Json), getPath f (k :: p :: rest) =
        (match getKey f k with
         | some (.obj sub) => getPath sub (p :: rest)
         | _ => none) := fun f => rfl
    rw [e1, e1, h]

/-! ### More facts about the path-level traversal -/

theorem pathEntries_head (fields : List (Str × Json)) :
    ∀ pe ∈ pathEntries fields, ∃ k0 ∈ fields.map Prod.fst, ∃ t, pe.1 = k0 :: t := by
  induction fields using fieldsRec with
  | h0 => intro pe hpe; simp [pathEntries] at hpe
  | hstr k s rest ih =>
    intro pe hpe
    simp only [pathEntries, List.mem_append, List.mem_singleton] at hpe
    rcases hpe with hpe | hpe
    · subst hpe
      exact ⟨k, List.mem_map.mpr ⟨(k, .str s), List.mem_cons_self _ _, rfl⟩, [], rfl⟩
    · obtain ⟨k0, hk0, t, ht⟩ := ih pe hpe
      exact ⟨k0, by simp only [List.map_cons, List.mem_cons]; exact Or.inr hk0, t, ht⟩
  | hobj k sub rest ihsub ih =>
    intro pe hpe
    simp only [pathEntries, List.mem_append, List.mem_map] at hpe
    rcases hpe with ⟨q, _, hq⟩ | hpe
    · subst hq
      exact ⟨k, List.mem_map.mpr ⟨(k, .obj sub), List.mem_cons_self _ _, rfl⟩, q.1, rfl⟩
    · obtain ⟨k0, hk0, t, ht⟩ := ih pe hpe
      exact ⟨k0, by simp only [List.map_cons, List.mem_cons]; exact Or.inr hk0, t, ht⟩
  | hnum k n rest ih =>
    intro pe hpe
    obtain ⟨k0, hk0, t, ht⟩ := ih pe (by simpa [pathEntries] using hpe)
    exact ⟨k0, by simp only [List.map_cons, List.mem_cons]; exact Or.inr hk0, t, ht⟩
  | hbool k b rest ih =>
    intro pe hpe
    obtain ⟨k0, hk0, t, ht⟩ := ih pe (by simpa [pathEntries] using hpe)
    exact ⟨k0, by simp only [List.map_cons, List.mem_cons]; exact Or.inr hk0, t, ht⟩
  | hnull k rest ih =>
    intro pe hpe
    obtain ⟨k0, hk0, t, ht⟩ := ih pe (by simpa [pathEntries] using hpe)
    exact ⟨k0, by simp only [List.map_cons, List.mem_cons]; exact Or.inr hk0, t, ht⟩
  | harr k es rest ih =>
    intro pe hpe
    obtain ⟨k0, hk0, t, ht⟩ := ih pe (by simpa [pathEntries] using hpe)
    exact ⟨k0, by simp only [List.map_cons, List.mem_cons]; exact Or.inr hk0, t, ht⟩

theorem pathEntries_getPath (fields : List (Str × Json)) :
    keysOkay fields = true →
      ∀ pe ∈ pathEntries fields, getPath fields pe.1 = some (.str pe.2) := by
  induction fields using fieldsRec with
  | h0 => intro _ pe hpe; simp [pathEntries] at hpe
  | hstr k s rest ih =>
    intro h pe hpe
    obtain ⟨hk, hdot, hnd, hrest, _⟩ := keysOkay_cons h
    simp only [pathEntries, List.mem_append, List.mem_singleton] at hpe
    rcases hpe with hpe | hpe
    · subst hpe
      simp [getPath, getKey_cons_self]
    · obtain ⟨k0, hk0, t, ht⟩ := pathEntries_head rest pe hpe
      have hne : k0 ≠ k := by
        simp only [List.mem_map] at hk0
        obtain ⟨f, hf, hf1⟩ := hk0
        exact hf1 ▸ hnd f hf
      rw [ht, getPath_eq_of_getKey_eq k0 t (getKey_cons_ne k0 k (.str s) rest hne),
        ← ht]
      exact ih hrest pe hpe
  | hobj k sub rest ihsub ih =>
    intro h pe hpe
    obtain ⟨hk, hdot, hnd, hrest, hsub⟩ := keysOkay_cons h
    simp only [pathEntries, List.mem_append, List.mem_map] at hpe
    rcases hpe with ⟨q, hq, hqe⟩ | hpe
    · subst hqe
      have hqne : q.1 ≠ [] := pathEntries_path_ne_nil sub q hq
      cases hq1 : q.1 with
      | nil => exact absurd hq1 hqne
      | cons p t =>
        have := ihsub (hsub sub rfl) q hq
        rw [hq1] at this
        simp only [getPath, getKey_cons_self]
        exact this
    · obtain ⟨k0, hk0, t, ht⟩ := pathEntries_head rest pe hpe
      have hne : k0 ≠ k := by
        simp only [List.mem_map] at hk0
        obtain ⟨f, hf, hf1⟩ := hk0
        exact hf1 ▸ hnd f hf
      rw [ht, getPath_eq_of_getKey_eq k0 t (getKey_cons_ne k0 k (.obj sub) rest hne),
        ← ht]
      exact ih hrest pe hpe
  | hnum k n rest ih =>
    intro h pe hpe
    obtain ⟨hk, hdot, hnd, hrest, _⟩ := keysOkay_cons h
    have hpe2 := (by simpa [pathEntries] using hpe : pe ∈ pathEntries rest)
    obtain ⟨k0, hk0, t, ht⟩ := pathEntries_head rest pe hpe2
    have hne : k0 ≠ k := by
      simp only [List.mem_map] at hk0
      obtain ⟨f, hf, hf1⟩ := hk0
      exact hf1 ▸ hnd f hf
    rw [ht, getPath_eq_of_getKey_eq k0 t (getKey_cons_ne k0 k (.num n) rest hne), ← ht]
    exact ih hrest pe hpe2
  | hbool k b rest ih =>
    intro h pe hpe
    obtain ⟨hk, hdot, hnd, hrest, _⟩ := keysOkay_cons h
    have hpe2 := (by simpa [pathEntries] using hpe : pe ∈ pathEntries rest)
    obtain ⟨k0, hk0, t, ht⟩ := pathEntries_head rest pe hpe2
    have hne : k0 ≠ k := by
      simp only [List.mem_map] at hk0
      obtain ⟨f, hf, hf1⟩ := hk0
      exact hf1 ▸ hnd f hf
    rw [ht, getPath_eq_of_getKey_eq k0 t (getKey_cons_ne k0 k (.boolean b) rest hne),
      ← ht]
    exact ih hrest pe hpe2
  | hnull k rest ih =>
    intro h pe hpe
    obtain ⟨hk, hdot, hnd, hrest, _⟩ := keysOkay_cons h
    have hpe2 := (by simpa [pathEntries] using hpe : pe ∈ pathEntries rest)
    obtain ⟨k0, hk0, t, ht⟩ := pathEntries_head rest pe hpe2
    have hne : k0 ≠ k := by
      simp only [List.mem_map] at hk0
      obtain ⟨f, hf, hf1⟩ := hk0
      exact hf1 ▸ hnd f hf
    rw [ht, getPath_eq_of_getKey_eq k0 t (getKey_cons_ne k0 k .null rest hne), ← ht]
    exact ih hrest pe hpe2
  | harr k es rest ih =>
    intro h pe hpe
    obtain ⟨hk, hdot, hnd, hrest, _⟩ := keysOkay_cons h
    have hpe2 := (by simpa [pathEntries] using hpe : pe ∈ pathEntries rest)
    obtain ⟨k0, hk0, t, ht⟩ := pathEntries_head rest pe hpe2
    have hne : k0 ≠ k := by
      simp only [List.mem_map] at hk0
      obtain ⟨f, hf, hf1⟩ := hk0
      exact hf1 ▸ hnd f hf
    rw [ht, getPath_eq_of_getKey_eq k0 t (getKey_cons_ne k0 k (.arr es) rest hne), ← ht]
    exact ih hrest pe hpe2

theorem pathEntries_segments (fields : List (Str × Json)) :
    keysOkay fields = true →
      ∀ pe ∈ pathEntries fields, ∀ s ∈ pe.1, s ≠ [] ∧ '.' ∉ s := by
  induction fields using fieldsRec with
  | h0 => intro _ pe hpe; simp [pathEntries] at hpe
  | hstr k s rest ih =>
    intro h pe hpe
    obtain ⟨hk, hdot, hnd, hrest, _⟩ := keysOkay_cons h
    simp only [pathEntries, List.mem_append, List.mem_singleton] at hpe
    rcases hpe with hpe | hpe
    · subst hpe
      intro t ht
      simp only [List.mem_singleton] at ht
      subst ht
      exact ⟨hk, hdot⟩
    · exact ih hrest pe hpe
  | hobj k sub rest ihsub ih =>
    intro h pe hpe
    obtain ⟨hk, hdot, hnd, hrest, hsub⟩ := keysOkay_cons h
    simp only [pathEntries, List.mem_append, List.mem_map] at hpe
    rcases hpe with ⟨q, hq, hqe⟩ | hpe
    · subst hqe
      intro t ht
      simp only [List.mem_cons] at ht
      rcases ht with ht | ht
      · subst ht; exact ⟨hk, hdot⟩
      · exact ihsub (hsub sub rfl) q hq t ht
    · exact ih hrest pe hpe
  | hnum k n rest ih =>
    intro h pe hpe
    obtain ⟨_, _, _, hrest, _⟩ := keysOkay_cons h
    exact ih hrest pe (by simpa [pathEntries] using hpe)
  | hbool k b rest ih =>
    intro h pe hpe
    obtain ⟨_, _, _, hrest, _⟩ := keysOkay_cons h
    exact ih hrest pe (by simpa [pathEntries] using hpe)
  | hnull k rest ih =>
    intro h pe hpe
    obtain ⟨_, _, _, hrest, _⟩ := keysOkay_cons h
    exact ih hrest pe (by simpa [pathEntries] using hpe)
  | harr k es rest ih =>
    intro h pe hpe
    obtain ⟨_, _, _, hrest, _⟩ := keysOkay_cons h
    exact ih hrest pe (by simpa [pathEntries] using hpe)

theorem pathEntries_paths_nodup (fields : List (Str × Json)) :
    keysOkay fields = true → ((pathEntries fields).map Prod.fst).Nodup := by
  induction fields using fieldsRec with
  | h0 => intro _; simp [pathEntries]
  | hstr k s rest ih =>
    intro h
    obtain ⟨hk, hdot, hnd, hrest, _⟩ := keysOkay_cons h
    simp only [pathEntries, List.map_append, List.map_cons, List.map_nil]
    refine List.Nodup.append (by simp) (ih hrest) ?_
    intro p hp hp2
    simp only [List.mem_singleton] at hp
    subst hp
    obtain ⟨pe, hpe, hpe1⟩ := List.mem_map.mp hp2
    obtain ⟨k0, hk0, t, ht⟩ := pathEntries_head rest pe hpe
    rw [ht] at hpe1
    obtain ⟨f, hf, hf1⟩ := List.mem_map.mp hk0
    have : k0 = k := by
      have := hpe1
      simp only [List.cons.injEq] at this
      exact this.1
    exact hnd f hf (hf1.trans this)
  | hobj k sub rest ihsub ih =>
    intro h
    obtain ⟨hk, hdot, hnd, hrest, hsub⟩ := keysOkay_cons h
    simp only [pathEntries, List.map_append, List.map_map]
    refine List.Nodup.append ?_ (ih hrest) ?_
    · have : ((pathEntries sub).map (fun pe => k :: pe.1)).Nodup := by
        have h1 := ihsub (hsub sub rfl)
        have h2 : (pathEntries sub).map (fun pe => k :: pe.1) =
            ((pathEntries sub).map Prod.fst).map (fun p => k :: p) := by
          simp [List.map_map]
        rw [h2]
        exact h1.map (fun a b hab => by simpa using hab)
      simpa using this
    · intro p hp hp2
      simp only [List.mem_map, Function.comp_apply] at hp
      obtain ⟨q, hq, hq1⟩ := hp
      obtain ⟨pe, hpe, hpe1⟩ := List.mem_map.mp hp2
      obtain ⟨k0, hk0, t, ht⟩ := pathEntries_head rest pe hpe
      rw [ht] at hpe1
      obtain ⟨f, hf, hf1⟩ := List.mem_map.mp hk0
      have : k0 = k := by
        rw [← hq1] at hpe1
        simp only [List.cons.injEq] at hpe1
        exact hpe1.1
      exact hnd f hf (hf1.trans this)
  | hnum k n rest ih =>
    intro h
    obtain ⟨_, _, _, hrest, _⟩ := keysOkay_cons h
    simpa [pathEntries] using ih hrest
  | hbool k b rest ih =>
    intro h
    obtain ⟨_, _, _, hrest, _⟩ := keysOkay_cons h
    simpa [pathEntries] using ih hrest
  | hnull k rest ih =>
    intro h
    obtain ⟨_, _, _, hrest, _⟩ := keysOkay_cons h
    simpa [pathEntries] using ih hrest
  | harr k es rest ih =>
    intro h
    obtain ⟨_, _, _, hrest, _⟩ := keysOkay_cons h
    simpa [pathEntries] using ih hrest

/-- Destructured form of `leavesOkay` at a cons cell. -/
theorem leavesOkay_cons {k : Str} {v : Json} {rest : List (Str × Json)}
    (h : leavesOkay ((k, v) :: rest) = true) :
    leavesOkay rest = true ∧
    (∀ sub, v = .obj sub → sub ≠ [] ∧ leavesOkay sub = true) ∧
    (∀ n, v ≠ .num n) ∧ (∀ b, v ≠ .boolean b) ∧ v ≠ .null ∧ (∀ es, v ≠ .arr es) := by
  cases v with
  | str s =>
    simp only [leavesOkay, Bool.true_and] at h
    exact ⟨h, fun sub hs => Json.noConfusion hs, fun n hn => Json.noConfusion hn,
      fun b hb => Json.noConfusion hb, fun hn => Json.noConfusion hn,
      fun es he => Json.noConfusion he⟩
  | obj sub =>
    simp only [leavesOkay, Bool.and_eq_true] at h
    obtain ⟨⟨h1, h2⟩, h3⟩ := h
    refine ⟨h3, ?_, fun n hn => Json.noConfusion hn, fun b hb => Json.noConfusion hb,
      fun hn => Json.noConfusion hn, fun es he => Json.noConfusion he⟩
    intro s hs
    cases hs
    exact ⟨by simpa using h1, h2⟩
  | num n => simp [leavesOkay] at h
  | boolean b => simp [leavesOkay] at h
  | null => simp [leavesOkay] at h
  | arr es => simp [leavesOkay] at h

theorem pathEntries_ne_nil (fields : List (Str × Json)) :
    leavesOkay fields = true → fields ≠ [] → pathEntries fields ≠ [] := by
  induction fields using fieldsRec with
  | h0 => intro _ hne; exact absurd rfl hne
  | hstr k s rest ih => intro _ _; simp [pathEntries]
  | hobj k sub rest ihsub ih =>
    intro h _
    obtain ⟨hrest, hsub, _⟩ := leavesOkay_cons h
    obtain ⟨hne, hlo⟩ := hsub sub rfl
    have := ihsub hlo hne
    simp only [pathEntries]
    intro hcontra
    rcases List.append_eq_nil.mp hcontra with ⟨h1, _⟩
    exact this (List.map_eq_nil_iff.mp h1)
  | hnum k n rest ih => intro h; exact absurd h (by simp [leavesOkay])
  | hbool k b rest ih => intro h; exact absurd h (by simp [leavesOkay])
  | hnull k rest ih => intro h; exact absurd h (by simp [leavesOkay])
  | harr k es rest ih => intro h; exact absurd h (by simp [leavesOkay])

/-! ### The `unflattenJson` insertion loop rebuilds the document -/

theorem insertPath_single (acc : List (Str × Json)) (k : Str) (v : Str) :
    insertPath acc [k] v = setKey acc k (.str v) := rfl

theorem insertPath_cons (acc : List (Str × Json)) (k q : Str) (t : List Str)
    (v : Str) (c : List (Str × Json)) (h : getKey acc k = some (.obj c)) :
    insertPath acc (k :: q :: t) v = setKey acc k (.obj (insertPath c (q :: t) v)) := by
  simp [insertPath, h]

theorem insertPath_cons_new (acc : List (Str × Json)) (k q : Str) (t : List Str)
    (v : Str) (h : getKey acc k = none) :
    insertPath acc (k :: q :: t) v = setKey acc k (.obj (insertPath [] (q :: t) v)) := by
  simp [insertPath, h]

theorem insertAll_append (acc : List (Str × Json)) (a b : List (List Str × Str)) :
    insertAll acc (a ++ b) = insertAll (insertAll acc a) b := by
  simp [insertAll, List.foldl_append]

theorem insertAll_under_key_present (k : Str) :
    ∀ (pes : List (List Str × Str)) (acc c : List (Str × Json)),
      getKey acc k = some (.obj c) → (∀ pe ∈ pes, pe.1 ≠ []) →
      insertAll acc (pes.map (fun pe => (k :: pe.1, pe.2))) =
        setKey acc k (.obj (insertAll c pes))
  | [], acc, c, h, _ => by
    simp [insertAll, setKey_present acc k (.obj c) h]
  | pe :: rest, acc, c, h, hpaths => by
    obtain ⟨q, t, hpe1⟩ : ∃ q t, pe.1 = q :: t := by
      cases hq : pe.1 with
      | nil => exact absurd hq (hpaths pe (by simp))
      | cons q t => exact ⟨q, t, rfl⟩
    have lhs1 : insertAll acc ((pe :: rest).map (fun x => (k :: x.1, x.2))) =
        insertAll (insertPath acc (k :: pe.1) pe.2)
          (rest.map (fun x => (k :: x.1, x.2))) := rfl
    rw [lhs1, hpe1, insertPath_cons acc k q t pe.2 c h,
      insertAll_under_key_present k rest
        (setKey acc k (.obj (insertPath c (q :: t) pe.2)))
        (insertPath c (q :: t) pe.2) (getKey_setKey_self acc k _)
        (fun x hx => hpaths x (List.mem_cons_of_mem pe hx)),
      setKey_setKey]
    have rhs1 : insertAll c (pe :: rest) = insertAll (insertPath c pe.1 pe.2) rest := rfl
    rw [rhs1, hpe1]

theorem insertAll_under_key_new (k : Str) (pes : List (List Str × Str))
    (acc : List (Str × Json)) (h : getKey acc k = none) (hne : pes ≠ [])
    (hpaths : ∀ pe ∈ pes, pe.1 ≠ []) :
    insertAll acc (pes.map (fun pe => (k :: pe.1, pe.2))) =
      acc ++ [(k, .obj (insertAll [] pes))] := by
  cases pes with
  | nil => exact absurd rfl hne
  | cons pe rest =>
    obtain ⟨q, t, hpe1⟩ : ∃ q t, pe.1 = q :: t := by
      cases hq : pe.1 with
      | nil => exact absurd hq (hpaths pe (by simp))
      | cons q t => exact ⟨q, t, rfl⟩
    have lhs1 : insertAll acc ((pe :: rest).map (fun x => (k :: x.1, x.2))) =
        insertAll (insertPath acc (k :: pe.1) pe.2)
          (rest.map (fun x => (k :: x.1, x.2))) := rfl
    rw [lhs1, hpe1, insertPath_cons_new acc k q t pe.2 h,
      insertAll_under_key_present k rest
        (setKey acc k (.obj (insertPath [] (q :: t) pe.2)))
        (insertPath [] (q :: t) pe.2) (getKey_setKey_self acc k _)
        (fun x hx => hpaths x (List.mem_cons_of_mem pe hx)),
      setKey_setKey, setKey_absent acc k _ h]
    have rhs1 : insertAll ([] : List (Str × Json)) (pe :: rest) =
        insertAll (insertPath [] pe.1 pe.2) rest := rfl
    rw [rhs1, hpe1]

theorem insertAll_pathEntries (fields : List (Str × Json)) :
    keysOkay fields = true → leavesOkay fields = true →
    ∀ acc : List (Str × Json), (∀ f ∈ fields, getKey acc f.1 = none) →
    insertAll acc (pathEntries fields) = acc ++ fields := by
  induction fields using fieldsRec with
  | h0 => intro _ _ acc _; simp [pathEntries, insertAll]
  | hstr k s rest ih =>
    intro hk hl acc hdisj
    obtain ⟨hk1, hdot, hnd, hkrest, _⟩ := keysOkay_cons hk
    obtain ⟨hlrest, _⟩ := leavesOkay_cons hl
    have e1 : pathEntries ((k, Json.str s) :: rest) = ([k], s) :: pathEntries rest := by
      simp [pathEntries]
    have e2 : insertAll acc (([k], s) :: pathEntries rest) =
        insertAll (setKey acc k (.str s)) (pathEntries rest) := rfl
    have hdisj2 : ∀ f ∈ rest, getKey (setKey acc k (.str s)) f.1 = none := by
      intro f hf
      rw [getKey_setKey_ne acc k f.1 _ (hnd f hf)]
      exact hdisj f (List.mem_cons_of_mem _ hf)
    rw [e1, e2, ih hkrest hlrest _ hdisj2,
      setKey_absent acc k _ (hdisj (k, .str s) (by simp))]
    simp
  | hobj k sub rest ihsub ih =>
    intro hk hl acc hdisj
    obtain ⟨hk1, hdot, hnd, hkrest, hksub⟩ := keysOkay_cons hk
    obtain ⟨hlrest, hsub2, _⟩ := leavesOkay_cons hl
    obtain ⟨hsubne, hlsub⟩ := hsub2 sub rfl
    have e1 : pathEntries ((k, Json.obj sub) :: rest) =
        (pathEntries sub).map (fun pe => (k :: pe.1, pe.2)) ++ pathEntries rest := by
      simp [pathEntries]
    have hdisj2 : ∀ f ∈ rest, getKey (setKey acc k (.obj sub)) f.1 = none := by
      intro f hf
      rw [getKey_setKey_ne acc k f.1 _ (hnd f hf)]
      exact hdisj f (List.mem_cons_of_mem _ hf)
    rw [e1, insertAll_append,
      insertAll_under_key_new k (pathEntries sub) acc
        (hdisj (k, .obj sub) (by simp))
        (pathEntries_ne_nil sub hlsub hsubne) (pathEntries_path_ne_nil sub),
      ihsub (hksub sub rfl) hlsub [] (fun f _ => rfl)]
    have hacc : acc ++ [(k, Json.obj (([] : List (Str × Json)) ++ sub))] =
        setKey acc k (.obj sub) := by
      rw [List.nil_append, setKey_absent acc k _ (hdisj (k, .obj sub) (by simp))]
    rw [hacc, ih hkrest hlrest _ hdisj2,
      setKey_absent acc k _ (hdisj (k, .obj sub) (by simp))]
    simp
  | hnum k n rest ih => intro _ hl; simp [leavesOkay] at hl
  | hbool k b rest ih => intro _ hl; simp [leavesOkay] at hl
  | hnull k rest ih => intro _ hl; simp [leavesOkay] at hl
  | harr k es rest ih => intro _ hl; simp [leavesOkay] at hl

/-- Splitting the dotted keys back into paths undoes `joinDots`. -/
theorem unflatten_map_join (pes : List (List Str × Str))
    (h : ∀ pe ∈ pes, ∀ s ∈ pe.1, '.' ∉ s) (hne : ∀ pe ∈ pes, pe.1 ≠ []) :
    unflattenJson (pes.map (fun pe => ⟨joinDots pe.1, pe.2⟩)) = insertAll [] pes := by
  unfold unflattenJson insertAll
  rw [List.foldl_map]
  refine List.foldl_ext _ _ _ ?_
  intro acc pe hpe
  show insertPath acc (splitDots (joinDots pe.1)) pe.2 = insertPath acc pe.1 pe.2
  rw [splitDots_joinDots pe.1 (hne pe hpe) (h pe hpe)]

/-- C3 (counterexample): the round-trip fails on a string-leaf document
whose key contains a dot: `{"a.b": "x"}` flattens to key `a.b`, which
`unflattenJson` splits into a nested object. -/
theorem unflatten_flatten_ne :
    unflattenJson (flattenJson [("a.b".toList, Json.str "x".toList)] []) ≠
      [("a.b".toList, Json.str "x".toList)] := by
  have e : flattenJson [("a.b".toList, Json.str "x".toList)] [] =
      [⟨"a.b".toList, "x".toList⟩] := by simp [flattenJson, dottedKey]
  rw [e]
  have e2 : unflattenJson [(⟨"a.b".toList, "x".toList⟩ : FlatEntry)] =
      [("a".toList, Json.obj [("b".toList, Json.str "x".toList)])] := rfl
  rw [e2]
  simp

/-- Helper: the round-trip equality under the key and leaf conditions. -/
theorem unflatten_flatten_eq (fields : List (Str × Json))
    (hk : keysOkay fields = true) (hl : leavesOkay fields = true) :
    unflattenJson (flattenJson fields []) = fields := by
  rw [flatten_pathEntries fields hk []]
  have e : (pathEntries fields).map (fun pe => FlatEntry.mk (prefJoin [] pe.1) pe.2)
      = (pathEntries fields).map (fun pe => FlatEntry.mk (joinDots pe.1) pe.2) := by
    refine List.map_congr_left ?_
    intro pe _
    simp [prefJoin]
  rw [e, unflatten_map_join (pathEntries fields)
      (fun pe hpe s hs => (pathEntries_segments fields hk pe hpe s hs).2)
      (pathEntries_path_ne_nil fields),
    insertAll_pathEntries fields hk hl [] (fun f _ => rfl)]
  simp

/-- C3 (amended): `unflattenJson (flattenJson d)` equals `d` for every
nested string-leaf document whose keys are non-empty, dot-free and unique
within each object, and whose nested maps are non-empty. -/
theorem unflatten_flatten_roundTrip (fields : List (Str × Json))
    (hk : keysOkay fields = true) (hl : leavesOkay fields = true) :
    unflattenJson (flattenJson fields []) = fields :=
  unflatten_flatten_eq fields hk hl

/-- Witness for C3: a concrete two-level document round-trips. -/
theorem unflatten_flatten_roundTrip_witness :
    keysOkay [("nav".toList, Json.obj
        [("home".toList, Json.str "Home".toList),
         ("about".toList, Json.str "About".toList)]),
       ("title".toList, Json.str "Hi".toList)] = true ∧
    leavesOkay [("nav".toList, Json.obj
        [("home".toList, Json.str "Home".toList),
         ("about".toList, Json.str "About".toList)]),
       ("title".toList, Json.str "Hi".toList)] = true ∧
    unflattenJson (flattenJson [("nav".toList, Json.obj
        [("home".toList, Json.str "Home".toList),
         ("about".toList, Json.str "About".toList)]),
       ("title".toList, Json.str "Hi".toList)] []) =
      [("nav".toList, Json.obj
        [("home".toList, Json.str "Home".toList),
         ("about".toList, Json.str "About".toList)]),
       ("title".toList, Json.str "Hi".toList)] :=
  ⟨by simp [keysOkay], by simp [leavesOkay],
    unflatten_flatten_roundTrip _ (by simp [keysOkay]) (by simp [leavesOkay])⟩

/-- C9 (counterexample): emitted dotted keys need not be unique — a document
with sibling keys `"a"` (a map containing `"b"`) and `"a.b"` emits the key
`a.b` twice. -/
theorem flattenJson_keys_dup :
    ¬ ((flattenJson [("a".toList, Json.obj [("b".toList, Json.str "x".toList)]),
        ("a.b".toList, Json.str "y".toList)] []).map FlatEntry.key).Nodup := by
  simp [flattenJson, dottedKey]

/-- C9 (amended): for documents whose keys are non-empty, dot-free and
unique within each object, `flattenJson` emits unique dotted keys, equals
the dotted rendering of the depth-first path-level traversal (which emits
entries in object-key order and only for string leaves), and every emitted
entry corresponds to a string leaf at its path. -/
theorem flattenJson_invariants (fields : List (Str × Json))
    (hk : keysOkay fields = true) :
    ((flattenJson fields []).map FlatEntry.key).Nodup ∧
    flattenJson fields [] =
      (pathEntries fields).map (fun pe => ⟨joinDots pe.1, pe.2⟩) ∧
    ∀ pe ∈ pathEntries fields, getPath fields pe.1 = some (.str pe.2) := by
  have hflat : flattenJson fields [] =
      (pathEntries fields).map (fun pe => FlatEntry.mk (joinDots pe.1) pe.2) := by
    rw [flatten_pathEntries fields hk []]
    refine List.map_congr_left ?_
    intro pe _
    simp [prefJoin]
  refine ⟨?_, hflat, pathEntries_getPath fields hk⟩
  rw [hflat]
  have hmap : ((pathEntries fields).map
      (fun pe => FlatEntry.mk (joinDots pe.1) pe.2)).map FlatEntry.key =
      ((pathEntries fields).map Prod.fst).map joinDots := by
    simp [List.map_map]
  rw [hmap]
  refine List.Nodup.map_on ?_ (pathEntries_paths_nodup fields hk)
  intro p1 hp1 p2 hp2 hj
  obtain ⟨pe1, hpe1, hpe1e⟩ := List.mem_map.mp hp1
  obtain ⟨pe2, hpe2, hpe2e⟩ := List.mem_map.mp hp2
  have h1 : splitDots (joinDots p1) = p1 := by
    refine splitDots_joinDots p1 ?_ ?_
    · rw [← hpe1e]; exact pathEntries_path_ne_nil fields pe1 hpe1
    · intro s hs
      rw [← hpe1e] at hs
      exact (pathEntries_segments fields hk pe1 hpe1 s hs).2
  have h2 : splitDots (joinDots p2) = p2 := by
    refine splitDots_joinDots p2 ?_ ?_
    · rw [← hpe2e]; exact pathEntries_path_ne_nil fields pe2 hpe2
    · intro s hs
      rw [← hpe2e] at hs
      exact (pathEntries_segments fields hk pe2 hpe2 s hs).2
  rw [← h1, ← h2, hj]

/-- Witness for C9: a document with a nested map and a skipped numeric
leaf. -/
theorem flattenJson_invariants_witness :
    keysOkay [("a".toList, Json.obj [("b".toList, Json.str "x".toList)]),
       ("c".toList, Json.num 3)] = true ∧
    (((flattenJson [("a".toList, Json.obj [("b".toList, Json.str "x".toList)]),
        ("c".toList, Json.num 3)] []).map FlatEntry.key).Nodup ∧
     flattenJson [("a".toList, Json.obj [("b".toList, Json.str "x".toList)]),
        ("c".toList, Json.num 3)] [] =
       (pathEntries [("a".toList, Json.obj [("b".toList, Json.str "x".toList)]),
          ("c".toList, Json.num 3)]).map (fun pe => ⟨joinDots pe.1, pe.2⟩) ∧
     ∀ pe ∈ pathEntries [("a".toList, Json.obj [("b".toList, Json.str "x".toList)]),
        ("c".toList, Json.num 3)],
       getPath [("a".toList, Json.obj [("b".toList, Json.str "x".toList)]),
          ("c".toList, Json.num 3)] pe.1 = some (.str pe.2)) :=
  ⟨by simp [keysOkay], flattenJson_invariants _ (by simp [keysOkay])⟩

/-! ### `mergeTranslations` rebuilds the source structure with merged values -/

theorem mapValsDoc_keys (f : Str → Str → Str) (fields : List (Str × Json)) :
    ∀ pref, (mapValsDoc f fields pref).map Prod.fst = fields.map Prod.fst := by
  induction fields using fieldsRec with
  | h0 => intro pref; simp [mapValsDoc]
  | hstr k s rest ih => intro pref; simp [mapValsDoc, ih pref]
  | hobj k sub rest ihsub ih => intro pref; simp [mapValsDoc, ih pref]
  | hnum k n rest ih => intro pref; simp [mapValsDoc, ih pref]
  | hbool k b rest ih => intro pref; simp [mapValsDoc, ih pref]
  | hnull k rest ih => intro pref; simp [mapValsDoc, ih pref]
  | harr k es rest ih => intro pref; simp [mapValsDoc, ih pref]

theorem all_fst (p : Str → Bool) :
    ∀ l : List (Str × Json), l.all (fun g => p g.1) = (l.map Prod.fst).all p
  | [] => rfl
  | g :: rest => by simp [List.all_cons, all_fst p rest]

theorem mapValsDoc_all_keys (f : Str → Str → Str) (fields : List (Str × Json))
    (pref : Str) (p : Str → Bool) :
    (mapValsDoc f fields pref).all (fun g => p g.1) = fields.all (fun g => p g.1) := by
  rw [all_fst, all_fst, mapValsDoc_keys]

theorem flatten_mapValsDoc (f : Str → Str → Str) (fields : List (Str × Json)) :
    ∀ pref, flattenJson (mapValsDoc f fields pref) pref =
      (flattenJson fields pref).map (fun e => FlatEntry.mk e.key (f e.key e.value)) := by
  induction fields using fieldsRec with
  | h0 => intro pref; simp [mapValsDoc, flattenJson]
  | hstr k s rest ih =>
    intro pref
    simp only [mapValsDoc, flattenJson, List.map_append, List.map_cons, List.map_nil,
      ih pref]
  | hobj k sub rest ihsub ih =>
    intro pref
    simp only [mapValsDoc, flattenJson, List.map_append, ih pref,
      ihsub (dottedKey pref k)]
  | hnum k n rest ih =>
    intro pref
    simp only [mapValsDoc, flattenJson, List.map_append, List.map_nil, ih pref]
  | hbool k b rest ih =>
    intro pref
    simp only [mapValsDoc, flattenJson, List.map_append, List.map_nil, ih pref]
  | hnull k rest ih =>
    intro pref
    simp only [mapValsDoc, flattenJson, List.map_append, List.map_nil, ih pref]
  | harr k es rest ih =>
    intro pref
    simp only [mapValsDoc, flattenJson, List.map_append, List.map_nil, ih pref]

theorem keysOkay_mapValsDoc (f : Str → Str → Str) (fields : List (Str × Json)) :
    ∀ pref, keysOkay fields = true → keysOkay (mapValsDoc f fields pref) = true := by
  induction fields using fieldsRec with
  | h0 => intro pref _; simp [mapValsDoc, keysOkay]
  | hstr k s rest ih =>
    intro pref h
    obtain ⟨hk, hdot, hnd, hrest, _⟩ := keysOkay_cons h
    simp only [mapValsDoc, keysOkay, Bool.and_eq_true]
    refine ⟨⟨⟨⟨by simpa using hk, by simpa using hdot⟩, ?_⟩, trivial⟩, ih pref hrest⟩
    rw [mapValsDoc_all_keys f rest pref (fun x => !(x == k)), List.all_eq_true]
    intro g hg
    simpa using hnd g hg
  | hobj k sub rest ihsub ih =>
    intro pref h
    obtain ⟨hk, hdot, hnd, hrest, hsub⟩ := keysOkay_cons h
    simp only [mapValsDoc, keysOkay, Bool.and_eq_true]
    refine ⟨⟨⟨⟨by simpa using hk, by simpa using hdot⟩, ?_⟩,
      ihsub (dottedKey pref k) (hsub sub rfl)⟩, ih pref hrest⟩
    rw [mapValsDoc_all_keys f rest pref (fun x => !(x == k)), List.all_eq_true]
    intro g hg
    simpa using hnd g hg
  | hnum k n rest ih =>
    intro pref h
    obtain ⟨hk, hdot, hnd, hrest, _⟩ := keysOkay_cons h
    simp only [mapValsDoc, keysOkay, Bool.and_eq_true]
    refine ⟨⟨⟨⟨by simpa using hk, by simpa using hdot⟩, ?_⟩, trivial⟩, ih pref hrest⟩
    rw [mapValsDoc_all_keys f rest pref (fun x => !(x == k)), List.all_eq_true]
    intro g hg
    simpa using hnd g hg
  | hbool k b rest ih =>
    intro pref h
    obtain ⟨hk, hdot, hnd, hrest, _⟩ := keysOkay_cons h
    simp only [mapValsDoc, keysOkay, Bool.and_eq_true]
    refine ⟨⟨⟨⟨by simpa using hk, by simpa using hdot⟩, ?_⟩, trivial⟩, ih pref hrest⟩
    rw [mapValsDoc_all_keys f rest pref (fun x => !(x == k)), List.all_eq_true]
    intro g hg
    simpa using hnd g hg
  | hnull k rest ih =>
    intro pref h
    obtain ⟨hk, hdot, hnd, hrest, _⟩ := keysOkay_cons h
    simp only [mapValsDoc, keysOkay, Bool.and_eq_true]
    refine ⟨⟨⟨⟨by simpa using hk, by simpa using hdot⟩, ?_⟩, trivial⟩, ih pref hrest⟩
    rw [mapValsDoc_all_keys f rest pref (fun x => !(x == k)), List.all_eq_true]
    intro g hg
    simpa using hnd g hg
  | harr k es rest ih =>
    intro pref h
    obtain ⟨hk, hdot, hnd, hrest, _⟩ := keysOkay_cons h
    simp only [mapValsDoc, keysOkay, Bool.and_eq_true]
    refine ⟨⟨⟨⟨by simpa using hk, by simpa using hdot⟩, ?_⟩, trivial⟩, ih pref hrest⟩
    rw [mapValsDoc_all_keys f rest pref (fun x => !(x == k)), List.all_eq_true]
    intro g hg
    simpa using hnd g hg

theorem leavesOkay_mapValsDoc (f : Str → Str → Str) (fields : List (Str × Json)) :
    ∀ pref, leavesOkay fields = true → leavesOkay (mapValsDoc f fields pref) = true := by
  induction fields using fieldsRec with
  | h0 => intro pref _; simp [mapValsDoc, leavesOkay]
  | hstr k s rest ih =>
    intro pref h
    obtain ⟨hrest, _⟩ := leavesOkay_cons h
    simp only [mapValsDoc, leavesOkay, Bool.true_and]
    exact ih pref hrest
  | hobj k sub rest ihsub ih =>
    intro pref h
    obtain ⟨hrest, hsub, _⟩ := leavesOkay_cons h
    obtain ⟨hne, hlo⟩ := hsub sub rfl
    simp only [mapValsDoc, leavesOkay, Bool.and_eq_true]
    refine ⟨⟨?_, ihsub (dottedKey pref k) hlo⟩, ih pref hrest⟩
    have hlen : (mapValsDoc f sub (dottedKey pref k)).length = sub.length := by
      have := mapValsDoc_keys f sub (dottedKey pref k)
      have h1 := congrArg List.length this
      simpa using h1
    simp only [Bool.not_eq_true', List.isEmpty_eq_false_iff_exists_mem]
    rcases sub with _ | ⟨s0, sub0⟩
    · exact absurd rfl hne
    · have : (mapValsDoc f (s0 :: sub0) (dottedKey pref k)).length > 0 := by
        rw [hlen]; simp
      obtain ⟨x, hx⟩ := List.exists_mem_of_length_pos this
      exact ⟨x, hx⟩
  | hnum k n rest ih => intro pref h; simp [leavesOkay] at h
  | hbool k b rest ih => intro pref h; simp [leavesOkay] at h
  | hnull k rest ih => intro pref h; simp [leavesOkay] at h
  | harr k es rest ih => intro pref h; simp [leavesOkay] at h

/-- C6 (counterexample): for an arbitrary source entry list the claimed
per-key value description fails — with entries keyed `a` and `a.b` (and no
translations, no existing target) the merged document does not contain the
source entries' values at the source keys. -/
theorem mergeTranslations_ne :
    flattenJson (mergeTranslations
        [⟨"a".toList, "x".toList⟩, ⟨"a.b".toList, "y".toList⟩] [] none) [] ≠
      [⟨"a".toList, "x".toList⟩, ⟨"a.b".toList, "y".toList⟩] := by
  have e1 : mergeTranslations
      [⟨"a".toList, "x".toList⟩, ⟨"a.b".toList, "y".toList⟩] [] none =
      [("a".toList, Json.obj [("b".toList, Json.str "y".toList)])] := rfl
  rw [e1]
  simp [flattenJson, dottedKey]

/-- C6 (amended): for source entries arising from flattening a well-formed
document (non-empty dot-free unique keys, string leaves, non-empty maps),
`mergeTranslations` rebuilds the source document with each leaf value
replaced by the translated value if present, else the existing target's
flattened value if present, else the source value; flattening the result
gives exactly the source keys in source traversal order with those merged
values, independent of the target's prior key order. -/
theorem mergeTranslations_spec (fields : List (Str × Json))
    (translated : List (Str × Str)) (existingTarget : Option (List (Str × Json)))
    (hk : keysOkay fields = true) (hl : leavesOkay fields = true) :
    mergeTranslations (flattenJson fields []) translated existingTarget =
      mapValsDoc (mergeValue translated (existingFlatOf existingTarget)) fields [] ∧
    flattenJson (mergeTranslations (flattenJson fields []) translated existingTarget) []
      = (flattenJson fields []).map (fun e =>
          FlatEntry.mk e.key
            (mergeValue translated (existingFlatOf existingTarget) e.key e.value)) := by
  have h1 : mergeTranslations (flattenJson fields []) translated existingTarget
      = unflattenJson ((flattenJson fields []).map (fun e =>
          FlatEntry.mk e.key
            (mergeValue translated (existingFlatOf existingTarget) e.key e.value))) := rfl
  have h2 : (flattenJson fields []).map (fun e =>
        FlatEntry.mk e.key
          (mergeValue translated (existingFlatOf existingTarget) e.key e.value))
      = flattenJson
          (mapValsDoc (mergeValue translated (existingFlatOf existingTarget)) fields []) [] :=
    (flatten_mapValsDoc _ fields []).symm
  have hkm := keysOkay_mapValsDoc
    (mergeValue translated (existingFlatOf existingTarget)) fields [] hk
  have hlm := leavesOkay_mapValsDoc
    (mergeValue translated (existingFlatOf existingTarget)) fields [] hl
  have hmain : mergeTranslations (flattenJson fields []) translated existingTarget =
      mapValsDoc (mergeValue translated (existingFlatOf existingTarget)) fields [] := by
    rw [h1, h2, unflatten_flatten_eq _ hkm hlm]
  exact ⟨hmain, by rw [hmain, ← h2]⟩

/-- Witness for C6: source keys `a, b, c`; existing target has translated
`a, b`; new translation provides `c` — merged output keeps `a, b` verbatim
and inserts `c`, in source order. -/
theorem mergeTranslations_spec_witness :
    keysOkay [("a".toList, Json.str "Hello".toList),
       ("b".toList, Json.str "World".toList),
       ("c".toList, Json.str "New".toList)] = true ∧
    leavesOkay [("a".toList, Json.str "Hello".toList),
       ("b".toList, Json.str "World".toList),
       ("c".toList, Json.str "New".toList)] = true ∧
    (mergeTranslations
        (flattenJson [("a".toList, Json.str "Hello".toList),
           ("b".toList, Json.str "World".toList),
           ("c".toList, Json.str "New".toList)] [])
        [("c".toList, "Nouveau".toList)]
        (some [("a".toList, Json.str "Bonjour".toList),
           ("b".toList, Json.str "Monde".toList)]) =
      mapValsDoc
        (mergeValue [("c".toList, "Nouveau".toList)]
          (existingFlatOf (some [("a".toList, Json.str "Bonjour".toList),
             ("b".toList, Json.str "Monde".toList)])))
        [("a".toList, Json.str "Hello".toList),
         ("b".toList, Json.str "World".toList),
         ("c".toList, Json.str "New".toList)] [] ∧
     flattenJson (mergeTranslations
        (flattenJson [("a".toList, Json.str "Hello".toList),
           ("b".toList, Json.str "World".toList),
           ("c".toList, Json.str "New".toList)] [])
        [("c".toList, "Nouveau".toList)]
        (some [("a".toList, Json.str "Bonjour".toList),
           ("b".toList, Json.str "Monde".toList)])) []
      = (flattenJson [("a".toList, Json.str "Hello".toList),
           ("b".toList, Json.str "World".toList),
           ("c".toList, Json.str "New".toList)] []).map (fun e =>
          FlatEntry.mk e.key
            (mergeValue [("c".toList, "Nouveau".toList)]
              (existingFlatOf (some [("a".toList, Json.str "Bonjour".toList),
                 ("b".toList, Json.str "Monde".toList)])) e.key e.value))) :=
  ⟨by simp [keysOkay], by simp [leavesOkay],
    mergeTranslations_spec _ _ _ (by simp [keysOkay]) (by simp [leavesOkay])⟩

/-! ## Translation client retry loop (`postWithRetry` in `src/client.ts`) -/

/-- One attempt's observable outcome: `fetch` threw (network failure or
timeout), or an HTTP response with a status, an optional numeric
`retry-after` header (seconds), and a body/message string. -/
inductive FetchOutcome where
  | netFail (msg : Str)
  | httpResp (status : Nat) (retryAfter : Option Nat) (body : Str)
deriving Repr, DecidableEq

/-- `RETRIABLE_STATUS_CODES = {429, 500, 502, 503, 504}` from `client.ts`. -/
def retriableStatus (status : Nat) : Bool :=
  status == 429 || status == 500 || status == 502 || status == 503 || status == 504

/-- The two error shapes thrown by `postWithRetry`. -/
inductive ClientError where
  | requestFailedAfter (attempts : Nat) (msg : Str)
  | apiError (status : Nat) (msg : Str)
  | genericFailure
deriving Repr, DecidableEq

/-- `500 * 2 ** attempt` — the exponential backoff delay. -/
def backoff (attempt : Nat) : Nat := 500 * 2 ^ attempt

/-- Delay before retrying a retriable HTTP status:
`retryAfter ? Math.min(Number(retryAfter) * 1000, 30_000) : 500 * 2 ** attempt`. -/
def statusDelay (retryAfter : Option Nat) (attempt : Nat) : Nat :=
  match retryAfter with
  | some r => min (r * 1000) 30000
  | none => 500 * 2 ^ attempt

/-- Observable result of `postWithRetry`: how many requests were issued,
the sleeps performed between attempts (in order), and the returned body or
thrown error. -/
structure RetryTrace where
  attempts : Nat
  delays : List Nat
  outcome : Except ClientError Str
deriving Repr

/-- The `for (let attempt = 0; attempt <= maxRetries; attempt++)` loop of
`postWithRetry`, driven by the outcome `oc n` of the `n`-th request; `fuel`
is `maxRetries + 1 - attempt`, so the dead fall-through after the loop
(`throw lastError ?? Error("Request failed")`) is the fuel-0 case. -/
def retryLoop (maxRetries : Nat) (oc : Nat → FetchOutcome) :
    Nat → Nat → List Nat → RetryTrace
  | 0, attempt, delays => ⟨attempt, delays, .error .genericFailure⟩
  | fuel + 1, attempt, delays =>
    match oc attempt with
    | .netFail msg =>
      if attempt < maxRetries then
        retryLoop maxRetries oc fuel (attempt + 1) (delays ++ [backoff attempt])
      else
        ⟨attempt + 1, delays, .error (.requestFailedAfter (maxRetries + 1) msg)⟩
    | .httpResp status retryAfter body =>
      if 200 ≤ status ∧ status ≤ 299 then
        ⟨attempt + 1, delays, .ok body⟩
      else if retriableStatus status then
        if attempt < maxRetries then
          retryLoop maxRetries oc fuel (attempt + 1)
            (delays ++ [statusDelay retryAfter attempt])
        else ⟨attempt + 1, delays, .error (.apiError status body)⟩
      else ⟨attempt + 1, delays, .error (.apiError status body)⟩

/-- `postWithRetry` from `src/client.ts` (the client constructs it with
`maxRetries = 2`). -/
def postWithRetry (maxRetries : Nat) (oc : Nat → FetchOutcome) : RetryTrace :=
  retryLoop maxRetries oc (maxRetries + 1) 0 []

/-- Modelled from the spec: the claim's notion of a transient failure —
HTTP 429, any 5xx-class status, or a network-level failure/timeout. -/
def claimTransient : FetchOutcome → Bool
  | .netFail _ => true
  | .httpResp status _ _ => status == 429 || (500 ≤ status && status ≤ 599)

/-- What the code actually retries: a network failure or a status in
`RETRIABLE_STATUS_CODES`. -/
def codeTransient : FetchOutcome → Bool
  | .netFail _ => true
  | .httpResp status _ _ => retriableStatus status

/-- The delay the code sleeps after a failed (transient) attempt. -/
def delayFor : FetchOutcome → Nat → Nat
  | .netFail _, attempt => backoff attempt
  | .httpResp _ retryAfter _, attempt => statusDelay retryAfter attempt

/-- The error thrown once the final attempt fails. -/
def terminalErrorOf (oc : Nat → FetchOutcome) (maxRetries : Nat) : ClientError :=
  match oc maxRetries with
  | .netFail msg => .requestFailedAfter (maxRetries + 1) msg
  | .httpResp status _ body => .apiError status body

theorem retriable_not_ok {status : Nat} (h : retriableStatus status = true) :
    ¬ (200 ≤ status ∧ status ≤ 299) := by
  simp only [retriableStatus, Bool.or_eq_true, beq_iff_eq] at h
  omega

theorem retryLoop_all_transient (maxRetries : Nat) (oc : Nat → FetchOutcome)
    (h : ∀ n, n ≤ maxRetries → codeTransient (oc n) = true) :
    ∀ fuel attempt delays, fuel = maxRetries + 1 - attempt → attempt ≤ maxRetries →
      retryLoop maxRetries oc fuel attempt delays =
        ⟨maxRetries + 1,
         delays ++ (List.range (maxRetries - attempt)).map
           (fun i => delayFor (oc (attempt + i)) (attempt + i)),
         .error (terminalErrorOf oc maxRetries)⟩ := by
  intro fuel
  induction fuel with
  | zero => intro attempt delays hfuel hle; omega
  | succ fuel ih =>
    intro attempt delays hfuel hle
    have htr := h attempt hle
    rcases hoc : oc attempt with msg | ⟨status, retryAfter, body⟩
    · -- network failure
      by_cases hlt : attempt < maxRetries
      · have step : retryLoop maxRetries oc (fuel + 1) attempt delays =
            retryLoop maxRetries oc fuel (attempt + 1)
              (delays ++ [backoff attempt]) := by
          simp [retryLoop, hoc, hlt]
        rw [step, ih (attempt + 1) _ (by omega) (by omega)]
        have hrange : maxRetries - attempt = (maxRetries - (attempt + 1)) + 1 := by omega
        rw [hrange, List.range_succ_eq_map, List.map_cons, List.map_map]
        simp only [Nat.add_zero, List.append_assoc, List.singleton_append]
        have : (fun i => delayFor (oc (attempt + 1 + i)) (attempt + 1 + i)) =
            ((fun i => delayFor (oc (attempt + i)) (attempt + i)) ∘ Nat.succ) := by
          funext i
          simp only [Function.comp_apply, Nat.succ_eq_add_one]
          have hn : attempt + 1 + i = attempt + (i + 1) := by omega
          rw [hn]
        rw [this]
        have hdel : delayFor (oc attempt) attempt = backoff attempt := by
          rw [hoc]; rfl
        rw [hdel]
      · have heq : attempt = maxRetries := by omega
        have step : retryLoop maxRetries oc (fuel + 1) attempt delays =
            ⟨attempt + 1, delays,
             .error (.requestFailedAfter (maxRetries + 1) msg)⟩ := by
          simp [retryLoop, hoc, hlt]
        rw [step]
        subst heq
        have : terminalErrorOf oc attempt = .requestFailedAfter (attempt + 1) msg := by
          simp [terminalErrorOf, hoc]
        rw [this]
        simp
    · -- HTTP response with a retriable status
      have hretr : retriableStatus status = true := by
        have := htr
        rw [hoc] at this
        simpa [codeTransient] using this
      have hnok : ¬ (200 ≤ status ∧ status ≤ 299) := retriable_not_ok hretr
      by_cases hlt : attempt < maxRetries
      · have step : retryLoop maxRetries oc (fuel + 1) attempt delays =
            retryLoop maxRetries oc fuel (attempt + 1)
              (delays ++ [statusDelay retryAfter attempt]) := by
          simp [retryLoop, hoc, hnok, hretr, hlt]
        rw [step, ih (attempt + 1) _ (by omega) (by omega)]
        have hrange : maxRetries - attempt = (maxRetries - (attempt + 1)) + 1 := by omega
        rw [hrange, List.range_succ_eq_map, List.map_cons, List.map_map]
        simp only [Nat.add_zero, List.append_assoc, List.singleton_append]
        have : (fun i => delayFor (oc (attempt + 1 + i)) (attempt + 1 + i)) =
            ((fun i => delayFor (oc (attempt + i)) (attempt + i)) ∘ Nat.succ) := by
          funext i
          simp only [Function.comp_apply, Nat.succ_eq_add_one]
          have hn : attempt + 1 + i = attempt + (i + 1) := by omega
          rw [hn]
        rw [this]
        have hdel : delayFor (oc attempt) attempt = statusDelay retryAfter attempt := by
          rw [hoc]; rfl
        rw [hdel]
      · have heq : attempt = maxRetries := by omega
        have step : retryLoop maxRetries oc (fuel + 1) attempt delays =
            ⟨attempt + 1, delays, .error (.apiError status body)⟩ := by
          simp [retryLoop, hoc, hnok, hretr, hlt]
        rw [step]
        subst heq
        have : terminalErrorOf oc attempt = .apiError status body := by
          simp [terminalErrorOf, hoc]
        rw [this]
        simp

/-- C8 (counterexample): HTTP 501 is 5xx-class — a transient failure in the
claim's sense — yet the code treats it as permanent: with every attempt
returning 501 the client issues exactly 1 request, not `maxRetries + 1 = 3`. -/
theorem postWithRetry_501 :
    (∀ n, n ≤ 2 →
        claimTransient ((fun _ => FetchOutcome.httpResp 501 none "m".toList) n) = true) ∧
    (postWithRetry 2 (fun _ => FetchOutcome.httpResp 501 none "m".toList)).attempts = 1 ∧
    (postWithRetry 2 (fun _ => FetchOutcome.httpResp 501 none "m".toList)).attempts ≠ 2 + 1 := by
  refine ⟨by decide, by decide, by decide⟩

/-- C8 (amended): when every attempt fails with a failure the code classes
as transient (HTTP 429/500/502/503/504 or a network-level failure), the
client makes exactly `maxRetries + 1` attempts; between consecutive attempts
it sleeps `500·2^attempt` ms after a network failure, and for a retriable
HTTP status `min(retryAfter·1000, 30000)` ms when the server sent a
Retry-After hint (else the exponential backoff); it then raises a terminal
error that identifies the number of attempts when the last failure was
network-level, and carries the status and message when it was an HTTP
failure. -/
theorem postWithRetry_exhausts_retries (maxRetries : Nat) (oc : Nat → FetchOutcome)
    (h : ∀ n, n ≤ maxRetries → codeTransient (oc n) = true) :
    (postWithRetry maxRetries oc).attempts = maxRetries + 1 ∧
    (postWithRetry maxRetries oc).delays =
      (List.range maxRetries).map (fun i => delayFor (oc i) i) ∧
    (postWithRetry maxRetries oc).outcome = .error (terminalErrorOf oc maxRetries) := by
  have := retryLoop_all_transient maxRetries oc h (maxRetries + 1) 0 [] (by omega)
    (by omega)
  unfold postWithRetry
  rw [this]
  refine ⟨rfl, ?_, rfl⟩
  simp

/-- Witness for C8: `maxRetries = 2` with a capped Retry-After hint on the
first attempt, a network timeout on the second and a rate limit on the
last. -/
theorem postWithRetry_exhausts_retries_witness :
    (∀ n, n ≤ 2 → codeTransient
        ((fun n => if n = 0 then FetchOutcome.httpResp 503 (some 60) "e".toList
          else if n = 1 then FetchOutcome.netFail "t".toList
          else FetchOutcome.httpResp 429 none "r".toList) n) = true) ∧
    ((postWithRetry 2 (fun n => if n = 0 then FetchOutcome.httpResp 503 (some 60) "e".toList
          else if n = 1 then FetchOutcome.netFail "t".toList
          else FetchOutcome.httpResp 429 none "r".toList)).attempts = 2 + 1 ∧
     (postWithRetry 2 (fun n => if n = 0 then FetchOutcome.httpResp 503 (some 60) "e".toList
          else if n = 1 then FetchOutcome.netFail "t".toList
          else FetchOutcome.httpResp 429 none "r".toList)).delays =
       (List.range 2).map (fun i => delayFor
         ((fun n => if n = 0 then FetchOutcome.httpResp 503 (some 60) "e".toList
          else if n = 1 then FetchOutcome.netFail "t".toList
          else FetchOutcome.httpResp 429 none "r".toList) i) i) ∧
     (postWithRetry 2 (fun n => if n = 0 then FetchOutcome.httpResp 503 (some 60) "e".toList
          else if n = 1 then FetchOutcome.netFail "t".toList
          else FetchOutcome.httpResp 429 none "r".toList)).outcome =
       .error (terminalErrorOf
         (fun n => if n = 0 then FetchOutcome.httpResp 503 (some 60) "e".toList
          else if n = 1 then FetchOutcome.netFail "t".toList
          else FetchOutcome.httpResp 429 none "r".toList) 2)) :=
  ⟨by decide, postWithRetry_exhausts_retries 2 _ (by decide)⟩

/-! ## Placeholder guard (`src/placeholders.ts`) — restore side

JS `String.prototype.replace` with a *string* pattern replaces only the
first occurrence, and it applies the `GetSubstitution` expansion to the
replacement string even for string patterns: `$$` becomes `$`, `$&` the
matched substring, `$` followed by a backquote the part of the subject
before the match, `$` followed by a quote the part after it; any other
`$` is literal (a string pattern has no capture groups). -/

/-- The backquote character (U+0060). -/
def backquoteChar : Char := Char.ofNat 96

/-- JS `GetSubstitution(matched, str, position, captures, replacement)`
specialised to a string pattern (no capture groups): expand the
`$`-patterns of the replacement; `before`/`after` are the parts of the
subject string around the match. -/
def getSubstitution (matched before after : Str) : Str → Str
  | [] => []
  | '$' :: c :: rest =>
    if c = '$' then '$' :: getSubstitution matched before after rest
    else if c = '&' then matched ++ getSubstitution matched before after rest
    else if c = backquoteChar then before ++ getSubstitution matched before after rest
    else if c = '\'' then after ++ getSubstitution matched before after rest
    else '$' :: getSubstitution matched before after (c :: rest)
  | c :: rest => c :: getSubstitution matched before after rest

/-- A replacement string the `$`-expansion leaves unchanged: no `$`
immediately followed by `$`, `&`, a backquote or a quote. -/
def dollarSafeAux : Str → Bool
  | [] => true
  | '$' :: c :: rest =>
    !(c = '$' || c = '&' || c = backquoteChar || c = '\'') &&
      dollarSafeAux (c :: rest)
  | _ :: rest => dollarSafeAux rest

/-- The scan of `s.replace(pat, repl)`, accumulating the consumed prefix
(in reverse) so the `$`-expansion can see the text before the match. -/
def replaceFirstAux (pat repl : Str) : Str → Str → Str
  | pre, [] =>
    if pat.isPrefixOf [] then getSubstitution pat pre.reverse [] repl else []
  | pre, c :: cs =>
    if pat.isPrefixOf (c :: cs) then
      getSubstitution pat pre.reverse ((c :: cs).drop pat.length) repl ++
        (c :: cs).drop pat.length
    else c :: replaceFirstAux pat repl (c :: pre) cs

/-- JS `s.replace(pat, repl)` with a string pattern: replace the first
occurrence of `pat` by the `$`-expanded replacement, scanning left to
right; no occurrence leaves `s` unchanged. -/
def replaceFirst (pat repl : Str) (s : Str) : Str := replaceFirstAux pat repl [] s

/-- `restorePlaceholders(text, placeholders)` from `src/placeholders.ts`:
fold over the token map in insertion order, replacing each token by its
recorded original. -/
def restorePlaceholders (text : Str) (placeholders : List (Str × Str)) : Str :=
  placeholders.foldl (fun result p => replaceFirst p.1 p.2 result) text

/-- Literal-splice first-occurrence replacement: what `replaceFirst` does
whenever the replacement is `$`-safe. -/
def replaceFirstLit (pat repl : Str) : Str → Str
  | [] => if pat.isPrefixOf [] then repl else []
  | c :: cs =>
    if pat.isPrefixOf (c :: cs) then repl ++ (c :: cs).drop pat.length
    else c :: replaceFirstLit pat repl cs

theorem replaceFirstLit_eq (pat repl : Str) (s : Str) :
    replaceFirstLit pat repl s =
      if pat.isPrefixOf s then repl ++ s.drop pat.length
      else match s with
        | [] => []
        | c :: cs => c :: replaceFirstLit pat repl cs := by
  cases s <;> simp [replaceFirstLit]

theorem dollarSafeAux_cons_ne (c : Char) (h : ¬ c = '$') (s : Str) :
    dollarSafeAux (c :: s) = dollarSafeAux s := by
  rw [dollarSafeAux.eq_def]
  split
  · rename_i heq
    exact absurd heq (by simp)
  · rename_i x xs heq
    have hc : c = '$' := by
      have h2 := congrArg (fun l => l.headD ' ') heq
      simpa using h2
    exact absurd hc h
  · rename_i c2 rest2 hno heq
    simp only [List.cons.injEq] at heq
    rw [heq.2]

theorem dollarSafeAux_dollar (c : Char) (s : Str) :
    dollarSafeAux ('$' :: c :: s) =
      (!(c = '$' || c = '&' || c = backquoteChar || c = '\'') &&
        dollarSafeAux (c :: s)) := rfl

theorem getSubstitution_cons_ne (m b a : Str) (c : Char) (h : ¬ c = '$')
    (s : Str) :
    getSubstitution m b a (c :: s) = c :: getSubstitution m b a s := by
  rw [getSubstitution.eq_def]
  split
  · rename_i heq
    exact absurd heq (by simp)
  · rename_i x xs heq
    have hc : c = '$' := by
      have h2 := congrArg (fun l => l.headD ' ') heq
      simpa using h2
    exact absurd hc h
  · rename_i c2 rest2 hno heq
    simp only [List.cons.injEq] at heq
    rw [heq.1, heq.2]

theorem getSubstitution_dollar (m b a : Str) (c : Char) (s : Str) :
    getSubstitution m b a ('$' :: c :: s) =
      (if c = '$' then '$' :: getSubstitution m b a s
       else if c = '&' then m ++ getSubstitution m b a s
       else if c = backquoteChar then b ++ getSubstitution m b a s
       else if c = '\'' then a ++ getSubstitution m b a s
       else '$' :: getSubstitution m b a (c :: s)) := rfl

theorem dollarSafeAux_chunk (a : Str) (ha : ∀ c ∈ a, ¬ c = '$') (b : Str)
    (hb : dollarSafeAux b = true) : dollarSafeAux (a ++ b) = true := by
  induction a with
  | nil => simpa using hb
  | cons c a2 ih =>
    rw [List.cons_append, dollarSafeAux_cons_ne c (ha c (by simp)) _]
    exact ih (fun d hd => ha d (by simp [hd]))

theorem dollarSafeAux_dollar_cons (c : Char)
    (h : ¬ c = '$' ∧ ¬ c = '&' ∧ ¬ c = backquoteChar ∧ ¬ c = '\'') (s : Str)
    (hs : dollarSafeAux (c :: s) = true) :
    dollarSafeAux ('$' :: c :: s) = true := by
  rw [dollarSafeAux_dollar, Bool.and_eq_true]
  exact ⟨by simp [h.1, h.2.1, h.2.2.1, h.2.2.2], hs⟩

/-- The `$`-expansion is the identity on `$`-safe replacements. -/
theorem getSubstitution_id (m b a : Str) :
    ∀ repl : Str, dollarSafeAux repl = true →
      getSubstitution m b a repl = repl := by
  intro repl
  induction repl with
  | nil => intro _; rfl
  | cons c rest ih =>
    intro h
    by_cases hc : c = '$'
    · subst hc
      cases rest with
      | nil => rfl
      | cons d rest2 =>
        rw [dollarSafeAux_dollar, Bool.and_eq_true] at h
        obtain ⟨hd, hrest⟩ := h
        simp only [Bool.not_eq_true', Bool.or_eq_false_iff,
          decide_eq_false_iff_not] at hd
        rw [getSubstitution_dollar, if_neg hd.1.1.1, if_neg hd.1.1.2,
          if_neg hd.1.2, if_neg hd.2, ih hrest]
    · rw [dollarSafeAux_cons_ne c hc rest] at h
      rw [getSubstitution_cons_ne m b a c hc rest, ih h]

/-- On a `$`-safe replacement, `replaceFirst` splices literally whatever
prefix has been consumed. -/
theorem replaceFirstAux_lit (pat repl : Str) (h : dollarSafeAux repl = true) :
    ∀ (s pre : Str), replaceFirstAux pat repl pre s = replaceFirstLit pat repl s := by
  intro s
  induction s with
  | nil =>
    intro pre
    simp only [replaceFirstAux, replaceFirstLit]
    by_cases hp : pat.isPrefixOf [] = true
    · rw [if_pos hp, if_pos hp, getSubstitution_id _ _ _ repl h]
    · rw [if_neg hp, if_neg hp]
  | cons c cs ih =>
    intro pre
    simp only [replaceFirstAux, replaceFirstLit]
    by_cases hp : pat.isPrefixOf (c :: cs) = true
    · rw [if_pos hp, if_pos hp, getSubstitution_id _ _ _ repl h]
    · rw [if_neg hp, if_neg hp, ih (c :: pre)]

theorem replaceFirst_lit_of_safe (pat repl : Str)
    (h : dollarSafeAux repl = true) (s : Str) :
    replaceFirst pat repl s = replaceFirstLit pat repl s :=
  replaceFirstAux_lit pat repl h s []

theorem replaceFirstAux_no_occurrence (tok orig : Str) :
    ∀ s : Str, (∀ i, i ≤ s.length → ¬ tok.isPrefixOf (s.drop i) = true) →
      ∀ pre, replaceFirstAux tok orig pre s = s := by
  intro s
  induction s with
  | nil =>
    intro h pre
    have h0 := h 0 (by simp)
    simp only [List.drop_nil] at h0
    simp [replaceFirstAux, h0]
  | cons c cs ih =>
    intro h pre
    have h0 := h 0 (by simp)
    simp only [List.drop_zero] at h0
    have hrest : ∀ i, i ≤ cs.length → ¬ tok.isPrefixOf (cs.drop i) = true := by
      intro i hi
      have := h (i + 1) (by simp; omega)
      simpa using this
    simp only [replaceFirstAux]
    rw [if_neg h0, ih hrest (c :: pre)]

theorem replaceFirst_not_occurring (tok orig : Str) :
    ∀ s : Str, (∀ i, i ≤ s.length → ¬ tok.isPrefixOf (s.drop i) = true) →
      replaceFirst tok orig s = s :=
  fun s h => replaceFirstAux_no_occurrence tok orig s h []

theorem replaceFirstAux_first (tok orig : Str) :
    ∀ (a b pre : Str),
      (∀ i, i < a.length → ¬ tok.isPrefixOf ((a ++ (tok ++ b)).drop i) = true) →
      replaceFirstAux tok orig pre (a ++ (tok ++ b)) =
        a ++ (getSubstitution tok (pre.reverse ++ a) b orig ++ b) := by
  intro a
  induction a with
  | nil =>
    intro b pre _
    have hpre : tok.isPrefixOf (tok ++ b) = true := by
      simp [List.isPrefixOf_iff_prefix]
    rw [List.nil_append]
    cases htok : tok ++ b with
    | nil =>
      obtain ⟨h1, h2⟩ := List.append_eq_nil.mp htok
      simp only [replaceFirstAux]
      rw [if_pos (by rw [h1]; rfl)]
      subst h1
      subst h2
      simp
    | cons x xs =>
      rw [← htok]
      have hsh : replaceFirstAux tok orig pre (tok ++ b) =
          if tok.isPrefixOf (tok ++ b) then
            getSubstitution tok pre.reverse ((tok ++ b).drop tok.length) orig ++
              (tok ++ b).drop tok.length
          else
            match tok ++ b with
            | [] => []
            | c :: cs => c :: replaceFirstAux tok orig (c :: pre) cs := by
        rw [htok]
        simp [replaceFirstAux]
      rw [hsh, if_pos hpre, List.drop_left]
      simp
  | cons c a2 ih =>
    intro b pre h
    have h0 := h 0 (by simp)
    simp only [List.drop_zero, List.cons_append] at h0
    have hrest : ∀ i, i < a2.length →
        ¬ tok.isPrefixOf ((a2 ++ (tok ++ b)).drop i) = true := by
      intro i hi
      have := h (i + 1) (by simp; omega)
      simpa using this
    rw [List.cons_append]
    simp only [replaceFirstAux]
    rw [if_neg h0, ih b (c :: pre) hrest]
    have hbefore : (c :: pre).reverse ++ a2 = pre.reverse ++ (c :: a2) := by
      simp
    rw [hbefore]
    simp

theorem replaceFirst_first_occurrence (tok orig : Str) :
    ∀ a b : Str,
      (∀ i, i < a.length → ¬ tok.isPrefixOf ((a ++ (tok ++ b)).drop i) = true) →
      replaceFirst tok orig (a ++ (tok ++ b)) =
        a ++ (getSubstitution tok a b orig ++ b) := by
  intro a b h
  have := replaceFirstAux_first tok orig a b [] h
  simpa using this

/-- C7 (counterexample): a token duplicated by the translation is restored
only at its first occurrence — `restorePlaceholders` does not replace every
occurrence. -/
theorem restorePlaceholders_duplicate_ne :
    restorePlaceholders "__PH0__ __PH0__".toList
        [("__PH0__".toList, "{a}".toList)] ≠ "{a} {a}".toList ∧
    restorePlaceholders "__PH0__ __PH0__".toList
        [("__PH0__".toList, "{a}".toList)] = "{a} __PH0__".toList :=
  ⟨by decide, by decide⟩

/-- C7 (amended): `restorePlaceholders` processes every token of the map in
insertion order, replacing for each token only the first occurrence in the
current text (duplicated occurrences beyond the first are left in place),
splicing in the `$`-expanded recorded original — JS `replace` applies the
`GetSubstitution` expansion (`$$`, `$&`, `$`-backquote, `$`-quote) even to
a string pattern's replacement, and splices it verbatim exactly when the
original is `$`-safe; a token that does not occur in the text causes no
change and no error. -/
theorem restorePlaceholders_spec (placeholders : List (Str × Str)) (text : Str) :
    restorePlaceholders text placeholders =
      placeholders.foldl (fun result p => replaceFirst p.1 p.2 result) text ∧
    (∀ tok orig s, (∀ i, i ≤ s.length → ¬ tok.isPrefixOf (s.drop i) = true) →
        replaceFirst tok orig s = s) ∧
    (∀ tok orig a b,
        (∀ i, i < a.length → ¬ tok.isPrefixOf ((a ++ (tok ++ b)).drop i) = true) →
        replaceFirst tok orig (a ++ (tok ++ b)) =
          a ++ (getSubstitution tok a b orig ++ b)) ∧
    (∀ tok orig s, dollarSafeAux orig = true →
        replaceFirst tok orig s = replaceFirstLit tok orig s) :=
  ⟨rfl, fun tok orig s h => replaceFirst_not_occurring tok orig s h,
    fun tok orig a b h => replaceFirst_first_occurrence tok orig a b h,
    fun tok orig s h => replaceFirst_lit_of_safe tok orig h s⟩

/-- Witness for C7: restoring a token at its (unique) occurrence inside
surrounding text, with an original containing `$&` — the expansion
reinserts the matched token into the replacement. -/
theorem restorePlaceholders_spec_witness :
    (∀ i, i < ("x ".toList : Str).length →
        ¬ ("__PH0__".toList : Str).isPrefixOf
            (("x ".toList ++ ("__PH0__".toList ++ " y".toList)).drop i) = true) ∧
    replaceFirst "__PH0__".toList "($&)".toList
        ("x ".toList ++ ("__PH0__".toList ++ " y".toList)) =
      "x ".toList ++ (getSubstitution "__PH0__".toList "x ".toList " y".toList
        "($&)".toList ++ " y".toList) :=
  ⟨by decide,
    (restorePlaceholders_spec [] []).2.2.1 "__PH0__".toList "($&)".toList
      "x ".toList " y".toList (by decide)⟩


/-! ## Placeholder guard (`src/placeholders.ts`) — protect side

Each regex in `PLACEHOLDER_PATTERNS` is modelled as an anchored matcher
returning the match length at the head of the string. All six regexes are
deterministic under greedy repetition: every repeated class is disjoint
from the character that must follow, so no backtracking can occur and
maximal munch is faithful. -/

/-- JS `\w` (ASCII word character). -/
def isWordChar (c : Char) : Bool := c.isAlphanum || c = '_'

/-- `[a-zA-Z_]` — the leading character of a placeholder name. -/
def isNameStart (c : Char) : Bool := c.isAlpha || c = '_'

/-- `[sdfu@]` — printf-style conversion characters. -/
def isFormatChar (c : Char) : Bool :=
  c = 's' || c = 'd' || c = 'f' || c = 'u' || c = '@'

/-- `/\{\{[a-zA-Z_]\w*\}\}/` — `{{name}}`. -/
def matchDoubleBrace : Str → Option Nat
  | '{' :: '{' :: c :: rest =>
    if isNameStart c then
      let n := (rest.takeWhile isWordChar).length
      match rest.drop n with
      | '}' :: '}' :: _ => some (5 + n)
      | _ => none
    else none
  | _ => none

/-- `/\{[a-zA-Z_]\w*\}/` — `{name}`. -/
def matchSingleBrace : Str → Option Nat
  | '{' :: c :: rest =>
    if isNameStart c then
      let n := (rest.takeWhile isWordChar).length
      match rest.drop n with
      | '}' :: _ => some (3 + n)
      | _ => none
    else none
  | _ => none

/-- `/%\d+\$[sdfu@]/` — `%1$s`. -/
def matchPositional : Str → Option Nat
  | '%' :: c :: rest =>
    if c.isDigit then
      let n := (rest.takeWhile Char.isDigit).length
      match rest.drop n with
      | '$' :: f :: _ => if isFormatChar f then some (4 + n) else none
      | _ => none
    else none
  | _ => none

/-- `/%[sdfu@]/` — `%s`. -/
def matchPrintf : Str → Option Nat
  | '%' :: f :: _ => if isFormatChar f then some 2 else none
  | _ => none

/-- `/\$\{[a-zA-Z_]\w*\}/` — `${name}`. -/
def matchTemplate : Str → Option Nat
  | '$' :: '{' :: c :: rest =>
    if isNameStart c then
      let n := (rest.takeWhile isWordChar).length
      match rest.drop n with
      | '}' :: _ => some (4 + n)
      | _ => none
    else none
  | _ => none

/-- `/\$t\([^)]+\)/` — `$t(key)`. -/
def matchNested : Str → Option Nat
  | '$' :: 't' :: '(' :: rest =>
    let n := (rest.takeWhile (fun c => !(c = ')'))).length
    if n = 0 then none
    else
      match rest.drop n with
      | ')' :: _ => some (4 + n)
      | _ => none
  | _ => none

/-- Decimal digit string of a natural number (models JS number-to-string in
the template literal `__PH${idx}__`); fuel-structured so it evaluates. -/
def natDigitsAux : Nat → Nat → Str
  | 0, _ => []
  | fuel + 1, n =>
    if n < 10 then [Nat.digitChar n]
    else natDigitsAux fuel (n / 10) ++ [Nat.digitChar (n % 10)]

/-- Decimal digits of `n`. -/
def natDigits (n : Nat) : Str := natDigitsAux (n + 1) n

/-- The unique token `__PH${idx}__` inserted for the `idx`-th match. -/
def token (idx : Nat) : Str :=
  '_' :: '_' :: 'P' :: 'H' :: natDigits idx ++ ['_', '_']

/-- One global-replace pass (`result.replace(pattern, match => token)`):
scan left to right over the original string, replacing each anchored match
with a fresh token; `fuel` bounds the number of scan steps (each step
consumes at least one character, so `s.length` suffices). -/
def scanPatAux (m : Str → Option Nat) : Nat → Nat → Str → Str × List (Str × Str) × Nat
  | _, idx, [] => ([], [], idx)
  | 0, idx, s => (s, [], idx)
  | fuel + 1, idx, c :: cs =>
    match m (c :: cs) with
    | some (len + 1) =>
      let next := scanPatAux m fuel (idx + 1) ((c :: cs).drop (len + 1))
      (token idx ++ next.1, (token idx, (c :: cs).take (len + 1)) :: next.2.1, next.2.2)
    | _ =>
      let next := scanPatAux m fuel idx cs
      (c :: next.1, next.2.1, next.2.2)

/-- One pattern pass over a whole string. -/
def scanPat (m : Str → Option Nat) (idx : Nat) (s : Str) :
    Str × List (Str × Str) × Nat :=
  scanPatAux m s.length idx s

/-- The ordered pattern list `PLACEHOLDER_PATTERNS`. -/
def PLACEHOLDER_PATTERNS : List (Str → Option Nat) :=
  [matchDoubleBrace, matchSingleBrace, matchPositional, matchPrintf,
   matchTemplate, matchNested]

/-- `ProtectedText` from `src/placeholders.ts` (the insertion-ordered `Map`
is an association list). -/
structure ProtectedText where
  text : Str
  placeholders : List (Str × Str)
deriving Repr

/-- `protectPlaceholders(text)` from `src/placeholders.ts`: apply each
pattern pass in order, threading the token counter across patterns and
accumulating the token map in insertion order. -/
def protectPlaceholders (text : Str) : ProtectedText :=
  let st := PLACEHOLDER_PATTERNS.foldl
    (fun (acc : Str × List (Str × Str) × Nat) m =>
      let r := scanPat m acc.2.2 acc.1
      (r.1, acc.2.1 ++ r.2.1, r.2.2))
    (text, [], 0)
  ⟨st.1, st.2.1⟩

/-- All matches `(position, length)` a pattern's global pass finds. -/
def patternMatchesAux (m : Str → Option Nat) : Nat → Nat → Str → List (Nat × Nat)
  | _, _, [] => []
  | 0, _, _ => []
  | fuel + 1, pos, c :: cs =>
    match m (c :: cs) with
    | some (len + 1) =>
      (pos, len + 1) :: patternMatchesAux m fuel (pos + len + 1) ((c :: cs).drop (len + 1))
    | _ => patternMatchesAux m fuel (pos + 1) cs

/-- Matches of all six placeholder grammars in `x`. -/
def allMatches (x : Str) : List (Nat × Nat) :=
  PLACEHOLDER_PATTERNS.flatMap (fun m => patternMatchesAux m x.length 0 x)

/-- The claim's hypothesis: all matches of the six grammars in `x` are
pairwise non-overlapping. -/
def nonOverlappingMatches (x : Str) : Bool :=
  go (allMatches x)
where
  go : List (Nat × Nat) → Bool
    | [] => true
    | (p, l) :: rest =>
      rest.all (fun q => decide (p + l ≤ q.1 ∨ q.1 + q.2 ≤ p)) && go rest

/-! ### Decimal digits -/

theorem digitChar_isDigit {d : Nat} (h : d < 10) : (Nat.digitChar d).isDigit = true := by
  interval_cases d <;> decide

/-- Numeric value of a decimal digit character. -/
def digitVal (c : Char) : Nat := c.toNat - 48

theorem digitVal_digitChar {d : Nat} (h : d < 10) : digitVal (Nat.digitChar d) = d := by
  interval_cases d <;> decide

/-- Parse a digit string back to a number. -/
def digitsToNat (s : Str) : Nat := s.foldl (fun a c => a * 10 + digitVal c) 0

theorem digitsToNat_append_digit (a : Str) (c : Char) :
    digitsToNat (a ++ [c]) = 10 * digitsToNat a + digitVal c := by
  have h : ∀ (z : Nat), (a ++ [c]).foldl (fun a c => a * 10 + digitVal c) z =
      a.foldl (fun a c => a * 10 + digitVal c) z * 10 + digitVal c := by
    intro z
    rw [List.foldl_append]
    rfl
  unfold digitsToNat
  rw [h]
  ring

theorem digitsToNat_natDigitsAux :
    ∀ fuel n, n < 10 ^ fuel → digitsToNat (natDigitsAux fuel n) = n := by
  intro fuel
  induction fuel with
  | zero =>
    intro n h
    simp only [pow_zero, Nat.lt_one_iff] at h
    subst h
    rfl
  | succ fuel ih =>
    intro n h
    by_cases h10 : n < 10
    · simp only [natDigitsAux, if_pos h10]
      show digitsToNat [Nat.digitChar n] = n
      unfold digitsToNat
      simp [digitVal_digitChar h10]
    · simp only [natDigitsAux, if_neg h10]
      rw [digitsToNat_append_digit, ih (n / 10) ?_, digitVal_digitChar (by omega)]
      · omega
      · have : 10 ^ (fuel + 1) = 10 ^ fuel * 10 := by ring
        rw [this] at h
        exact Nat.div_lt_of_lt_mul (by omega)

theorem digitsToNat_natDigits (n : Nat) : digitsToNat (natDigits n) = n := by
  unfold natDigits
  refine digitsToNat_natDigitsAux (n + 1) n ?_
  calc n < 10 ^ n := Nat.lt_pow_self (by omega) n
    _ ≤ 10 ^ (n + 1) := Nat.pow_le_pow_right (by omega) (by omega)

theorem natDigits_injective {m n : Nat} (h : natDigits m = natDigits n) : m = n := by
  have := digitsToNat_natDigits m
  rw [h, digitsToNat_natDigits] at this
  omega

theorem natDigitsAux_all_digit :
    ∀ fuel n, ∀ c ∈ natDigitsAux fuel n, c.isDigit = true := by
  intro fuel
  induction fuel with
  | zero => intro n c hc; simp [natDigitsAux] at hc
  | succ fuel ih =>
    intro n c hc
    by_cases h10 : n < 10
    · simp only [natDigitsAux, if_pos h10] at hc
      simp only [List.mem_singleton] at hc
      subst hc
      exact digitChar_isDigit h10
    · simp only [natDigitsAux, if_neg h10, List.mem_append, List.mem_singleton] at hc
      rcases hc with hc | hc
      · exact ih (n / 10) c hc
      · subst hc
        exact digitChar_isDigit (by omega)

theorem natDigits_all_digit (n : Nat) : ∀ c ∈ natDigits n, c.isDigit = true :=
  natDigitsAux_all_digit (n + 1) n

theorem natDigits_ne_nil (n : Nat) : natDigits n ≠ [] := by
  unfold natDigits natDigitsAux
  by_cases h10 : n < 10
  · simp [if_pos h10]
  · simp [if_neg h10]

/-! ### The protected-input grammar (formalizing the claim's hypothesis)

Modelled from the spec: an input "containing zero or more non-overlapping
matches of the recognized grammars" is a sequence of placeholder
occurrences separated by literal characters that cannot start or extend a
match. Literal characters additionally exclude `'_'` and decimal digits so
that the inserted `__PH<n>__` tokens cannot collide with (or bridge
across) surrounding text, and placeholder names/arguments are kept
underscore-free for the same reason. -/

inductive Seg where
  | lit (c : Char)
  | ph1 (name : Str)
  | ph2 (name : Str)
  | ph3 (ds : Str) (f : Char)
  | ph4 (f : Char)
  | ph5 (name : Str)
  | ph6 (arg : Str)
deriving Repr, DecidableEq

/-- Literal characters: inert for every pattern and token-safe. -/
def safeLit (c : Char) : Bool :=
  !(c = '{' || c = '}' || c = '%' || c = '$' || c = '_' || c.isDigit)

/-- Well-formed placeholder name: `[a-zA-Z][a-zA-Z0-9]*` (underscore-free). -/
def nameWF : Str → Bool
  | [] => false
  | c :: rest => c.isAlpha && rest.all Char.isAlphanum

/-- Well-formed `$t(...)` argument: non-empty, excluding `) { } % $ _`. -/
def argChar (c : Char) : Bool :=
  !(c = ')' || c = '{' || c = '}' || c = '%' || c = '$' || c = '_')

def segWF : Seg → Bool
  | .lit c => safeLit c
  | .ph1 name => nameWF name
  | .ph2 name => nameWF name
  | .ph3 ds f => !ds.isEmpty && ds.all Char.isDigit && isFormatChar f
  | .ph4 f => isFormatChar f
  | .ph5 name => nameWF name
  | .ph6 arg => !arg.isEmpty && arg.all argChar

/-- The text of one grammar segment. -/
def renderSeg : Seg → Str
  | .lit c => [c]
  | .ph1 name => '{' :: '{' :: name ++ ['}', '}']
  | .ph2 name => '{' :: name ++ ['}']
  | .ph3 ds f => '%' :: ds ++ ['$', f]
  | .ph4 f => ['%', f]
  | .ph5 name => '$' :: '{' :: name ++ ['}']
  | .ph6 arg => '$' :: 't' :: '(' :: arg ++ [')']

/-- The whole input rendered from its segments. -/
def renderSegs (segs : List Seg) : Str := (segs.map renderSeg).flatten

/-! ### Matcher behaviour on grammar fragments -/

/-- A string none of whose positions starts a match of `m`, whatever
follows. -/
def InertFor (m : Str → Option Nat) (s : Str) : Prop :=
  ∀ q, q < s.length → ∀ suffix, m (List.drop q s ++ suffix) = none

/-- A string that `m` matches exactly and entirely, whatever follows. -/
def HitFor (m : Str → Option Nat) (s : Str) : Prop :=
  s ≠ [] ∧ ∀ suffix, m (s ++ suffix) = some s.length

theorem InertFor_nil (m : Str → Option Nat) : InertFor m [] := by
  intro q hq
  simp at hq

theorem InertFor_cons (m : Str → Option Nat) (c : Char) (s : Str)
    (h0 : ∀ suffix, m (c :: (s ++ suffix)) = none) (h1 : InertFor m s) :
    InertFor m (c :: s) := by
  intro q hq suffix
  cases q with
  | zero => simpa using h0 suffix
  | succ q =>
    simp only [List.drop_succ_cons]
    exact h1 q (by simpa using hq) suffix

theorem InertFor_append (m : Str → Option Nat) (s t : Str)
    (hs : InertFor m s) (ht : InertFor m t) : InertFor m (s ++ t) := by
  intro q hq suffix
  by_cases h : q < s.length
  · rw [List.drop_append_of_le_length (by omega), List.append_assoc]
    exact hs q h (t ++ suffix)
  · rw [List.drop_append_eq_append_drop]
    have : s.drop q = [] := List.drop_eq_nil_of_le (by omega)
    rw [this, List.nil_append]
    refine ht (q - s.length) ?_ suffix
    simp only [List.length_append] at hq
    omega

theorem InertFor_chars (m : Str → Option Nat) (s : Str)
    (h : ∀ c ∈ s, ∀ suffix, m (c :: suffix) = none) : InertFor m s := by
  induction s with
  | nil => exact InertFor_nil m
  | cons c cs ih =>
    refine InertFor_cons m c cs (fun suffix => h c (by simp) _) ?_
    exact ih (fun d hd suffix => h d (by simp [hd]) suffix)

/-! Gate lemmas: each matcher returns `none` unless the head character is
its anchor. -/

theorem matchDoubleBrace_gate (c : Char) (h : ¬ c = '{') (cs : Str) :
    matchDoubleBrace (c :: cs) = none := by
  rw [matchDoubleBrace.eq_def]
  split
  · rename_i heq
    simp only [List.cons.injEq] at heq
    exact absurd heq.1 h
  · rfl

theorem matchSingleBrace_gate (c : Char) (h : ¬ c = '{') (cs : Str) :
    matchSingleBrace (c :: cs) = none := by
  rw [matchSingleBrace.eq_def]
  split
  · rename_i heq
    simp only [List.cons.injEq] at heq
    exact absurd heq.1 h
  · rfl

theorem matchPositional_gate (c : Char) (h : ¬ c = '%') (cs : Str) :
    matchPositional (c :: cs) = none := by
  rw [matchPositional.eq_def]
  split
  · rename_i heq
    simp only [List.cons.injEq] at heq
    exact absurd heq.1 h
  · rfl

theorem matchPrintf_gate (c : Char) (h : ¬ c = '%') (cs : Str) :
    matchPrintf (c :: cs) = none := by
  rw [matchPrintf.eq_def]
  split
  · rename_i heq
    simp only [List.cons.injEq] at heq
    exact absurd heq.1 h
  · rfl

theorem matchTemplate_gate (c : Char) (h : ¬ c = '$') (cs : Str) :
    matchTemplate (c :: cs) = none := by
  rw [matchTemplate.eq_def]
  split
  · rename_i heq
    simp only [List.cons.injEq] at heq
    exact absurd heq.1 h
  · rfl

theorem matchNested_gate (c : Char) (h : ¬ c = '$') (cs : Str) :
    matchNested (c :: cs) = none := by
  rw [matchNested.eq_def]
  split
  · rename_i heq
    simp only [List.cons.injEq] at heq
    exact absurd heq.1 h
  · rfl

theorem matchNested_gate_nil : matchNested [] = none := rfl
theorem matchTemplate_gate_nil : matchTemplate [] = none := rfl

/-! Second-character refusal lemmas. -/

theorem matchDoubleBrace_second (c2 : Char) (h : ¬ c2 = '{') (cs : Str) :
    matchDoubleBrace ('{' :: c2 :: cs) = none := by
  rw [matchDoubleBrace.eq_def]
  split
  · rename_i heq
    simp only [List.cons.injEq] at heq
    exact absurd heq.2.1 h
  · rfl

theorem matchPositional_second (c2 : Char) (h : ¬ c2.isDigit = true) (cs : Str) :
    matchPositional ('%' :: c2 :: cs) = none := by
  rw [matchPositional.eq_def]
  split
  · rename_i c rest heq
    simp only [List.cons.injEq] at heq
    obtain ⟨-, hc, -⟩ := heq
    rw [← hc]
    rw [if_neg h]
  · rfl

theorem matchTemplate_second (c2 : Char) (h : ¬ c2 = '{') (cs : Str) :
    matchTemplate ('$' :: c2 :: cs) = none := by
  rw [matchTemplate.eq_def]
  split
  · rename_i heq
    simp only [List.cons.injEq] at heq
    exact absurd heq.2.1 h
  · rfl

theorem matchNested_second (c2 : Char) (h : ¬ c2 = 't') (cs : Str) :
    matchNested ('$' :: c2 :: cs) = none := by
  rw [matchNested.eq_def]
  split
  · rename_i heq
    simp only [List.cons.injEq] at heq
    exact absurd heq.2.1 h
  · rfl

/-! Character-class facts. -/

theorem alnum_not_special {c : Char} (h : c.isAlphanum = true) :
    ¬ c = '{' ∧ ¬ c = '}' ∧ ¬ c = '%' ∧ ¬ c = '$' ∧ ¬ c = '_' := by
  refine ⟨?_, ?_, ?_, ?_, ?_⟩ <;> (intro heq; subst heq; exact absurd h (by decide))

theorem digit_isAlphanum {c : Char} (h : c.isDigit = true) : c.isAlphanum = true := by
  simp [Char.isAlphanum, h]

theorem alpha_isAlphanum {c : Char} (h : c.isAlpha = true) : c.isAlphanum = true := by
  simp [Char.isAlphanum, h]

theorem formatChar_cases {c : Char} (h : isFormatChar c = true) :
    c = 's' ∨ c = 'd' ∨ c = 'f' ∨ c = 'u' ∨ c = '@' := by
  simp only [isFormatChar, Bool.or_eq_true, decide_eq_true_eq] at h
  tauto

theorem formatChar_not_special {c : Char} (h : isFormatChar c = true) :
    ¬ c = '{' ∧ ¬ c = '}' ∧ ¬ c = '%' ∧ ¬ c = '$' ∧ ¬ c = '_' ∧ ¬ c.isDigit = true := by
  rcases formatChar_cases h with rfl | rfl | rfl | rfl | rfl <;>
    refine ⟨by decide, by decide, by decide, by decide, by decide, by decide⟩

/-! Greedy-run helpers. -/

theorem takeWhile_run (p : Char → Bool) (w : Str) (hw : ∀ c ∈ w, p c = true)
    (d : Char) (hd : p d = false) (rest : Str) :
    (w ++ d :: rest).takeWhile p = w := by
  induction w with
  | nil => simp [List.takeWhile, hd]
  | cons c cs ih =>
    have hc := hw c (by simp)
    simp only [List.cons_append, List.takeWhile_cons, hc, if_true]
    rw [ih (fun x hx => hw x (by simp [hx]))]

/-! Hit lemmas: each placeholder occurrence is matched exactly by its
pattern, independently of what follows. -/

theorem matchDoubleBrace_hit (name : Str) (h : nameWF name = true) :
    HitFor matchDoubleBrace (renderSeg (.ph1 name)) := by
  obtain ⟨c, tail, rfl⟩ : ∃ c t, name = c :: t := by
    cases name with
    | nil => simp [nameWF] at h
    | cons c t => exact ⟨c, t, rfl⟩
  obtain ⟨hca, htail⟩ : c.isAlpha = true ∧ ∀ x ∈ tail, x.isAlphanum = true := by
    simpa [nameWF, List.all_eq_true] using h
  constructor
  · simp [renderSeg]
  · intro suffix
    have e1 : renderSeg (.ph1 (c :: tail)) ++ suffix =
        '{' :: '{' :: c :: (tail ++ '}' :: '}' :: suffix) := by
      simp [renderSeg]
    rw [e1]
    have hrun : (tail ++ '}' :: '}' :: suffix).takeWhile isWordChar = tail :=
      takeWhile_run _ tail
        (fun x hx => by simp [isWordChar, htail x hx]) '}' (by decide) _
    simp only [matchDoubleBrace, if_pos (show isNameStart c = true by simp [isNameStart, hca]),
      hrun]
    rw [show (tail ++ '}' :: '}' :: suffix).drop tail.length = '}' :: '}' :: suffix from
      List.drop_left tail _]
    simp [renderSeg]
    omega

theorem matchSingleBrace_hit_name (name : Str) (h : nameWF name = true) :
    HitFor matchSingleBrace ('{' :: name ++ ['}']) := by
  obtain ⟨c, tail, rfl⟩ : ∃ c t, name = c :: t := by
    cases name with
    | nil => simp [nameWF] at h
    | cons c t => exact ⟨c, t, rfl⟩
  obtain ⟨hca, htail⟩ : c.isAlpha = true ∧ ∀ x ∈ tail, x.isAlphanum = true := by
    simpa [nameWF, List.all_eq_true] using h
  constructor
  · simp
  · intro suffix
    have e1 : ('{' :: (c :: tail) ++ ['}']) ++ suffix =
        '{' :: c :: (tail ++ '}' :: suffix) := by simp
    rw [e1]
    have hrun : (tail ++ '}' :: suffix).takeWhile isWordChar = tail :=
      takeWhile_run _ tail
        (fun x hx => by simp [isWordChar, htail x hx]) '}' (by decide) _
    simp only [matchSingleBrace, if_pos (show isNameStart c = true by simp [isNameStart, hca]),
      hrun]
    rw [show (tail ++ '}' :: suffix).drop tail.length = '}' :: suffix from
      List.drop_left tail _]
    simp
    omega

theorem matchPositional_hit (ds : Str) (f : Char)
    (h : segWF (.ph3 ds f) = true) :
    HitFor matchPositional (renderSeg (.ph3 ds f)) := by
  obtain ⟨⟨hds, hdig⟩, hf⟩ :
      (¬ds = [] ∧ ∀ x ∈ ds, x.isDigit = true) ∧ isFormatChar f = true := by
    simpa [segWF, List.all_eq_true, List.isEmpty_iff] using h
  obtain ⟨c, tail, rfl⟩ : ∃ c t, ds = c :: t := by
    cases ds with
    | nil => exact absurd rfl hds
    | cons c t => exact ⟨c, t, rfl⟩
  constructor
  · simp [renderSeg]
  · intro suffix
    have e1 : renderSeg (.ph3 (c :: tail) f) ++ suffix =
        '%' :: c :: (tail ++ '$' :: f :: suffix) := by
      simp [renderSeg]
    rw [e1]
    have hrun : (tail ++ '$' :: f :: suffix).takeWhile Char.isDigit = tail :=
      takeWhile_run _ tail (fun x hx => hdig x (by simp [hx])) '$' (by decide) _
    simp only [matchPositional, if_pos (hdig c (by simp)), hrun]
    rw [show (tail ++ '$' :: f :: suffix).drop tail.length = '$' :: f :: suffix from
      List.drop_left tail _]
    simp [hf, renderSeg]
    omega

theorem matchPrintf_hit (f : Char) (h : isFormatChar f = true) :
    HitFor matchPrintf (renderSeg (.ph4 f)) := by
  constructor
  · simp [renderSeg]
  · intro suffix
    show matchPrintf ('%' :: f :: suffix) = some 2
    simp [matchPrintf, h]

theorem matchNested_hit (arg : Str) (h : segWF (.ph6 arg) = true) :
    HitFor matchNested (renderSeg (.ph6 arg)) := by
  obtain ⟨harg, hchars⟩ : ¬arg = [] ∧ ∀ x ∈ arg, argChar x = true := by
    simpa [segWF, Bool.and_eq_true, List.all_eq_true, List.isEmpty_iff] using h
  constructor
  · simp [renderSeg]
  · intro suffix
    have e1 : renderSeg (.ph6 arg) ++ suffix =
        '$' :: 't' :: '(' :: (arg ++ ')' :: suffix) := by
      simp [renderSeg]
    rw [e1]
    have hrun : (arg ++ ')' :: suffix).takeWhile (fun c => !(c = ')')) = arg := by
      refine takeWhile_run _ arg (fun x hx => ?_) ')' (by decide) _
      have hax := hchars x hx
      have hne : ¬ x = ')' := by
        intro hxe
        subst hxe
        exact absurd hax (by decide)
      simpa using hne
    simp only [matchNested, hrun]
    rw [if_neg (by simpa using List.length_pos.mpr harg |>.ne')]
    rw [show (arg ++ ')' :: suffix).drop arg.length = ')' :: suffix from
      List.drop_left arg _]
    simp [renderSeg]
    omega

/-! ### Scan-pass step lemmas -/

theorem scanPatAux_nil (m : Str → Option Nat) (fuel idx : Nat) :
    scanPatAux m fuel idx [] = ([], [], idx) := by
  cases fuel <;> rfl

theorem scanPatAux_cons_miss (m : Str → Option Nat) (fuel idx : Nat)
    (c : Char) (cs : Str) (hm : m (c :: cs) = none) :
    scanPatAux m (fuel + 1) idx (c :: cs) =
      ((c :: (scanPatAux m fuel idx cs).1, (scanPatAux m fuel idx cs).2)) := by
  conv_lhs => rw [scanPatAux]
  rw [hm]

theorem scanPatAux_cons_hit (m : Str → Option Nat) (fuel idx : Nat)
    (c : Char) (cs : Str) (len : Nat) (hm : m (c :: cs) = some (len + 1)) :
    scanPatAux m (fuel + 1) idx (c :: cs) =
      ((token idx ++ (scanPatAux m fuel (idx + 1) ((c :: cs).drop (len + 1))).1,
        (token idx, (c :: cs).take (len + 1)) ::
          (scanPatAux m fuel (idx + 1) ((c :: cs).drop (len + 1))).2.1,
        (scanPatAux m fuel (idx + 1) ((c :: cs).drop (len + 1))).2.2)) := by
  conv_lhs => rw [scanPatAux]
  rw [hm]

/-- Scanning past a chunk none of whose positions matches. -/
theorem scanPatAux_inert_chunk (m : Str → Option Nat) (a : Str)
    (ha : InertFor m a) :
    ∀ fuel idx (b : Str), a.length ≤ fuel →
      scanPatAux m fuel idx (a ++ b) =
        ((a ++ (scanPatAux m (fuel - a.length) idx b).1,
          (scanPatAux m (fuel - a.length) idx b).2)) := by
  induction a with
  | nil => intro fuel idx b _; simp
  | cons c a2 ih =>
    intro fuel idx b hfuel
    obtain ⟨f, rfl⟩ : ∃ f, fuel = f + 1 := by
      cases fuel with
      | zero => simp at hfuel
      | succ f => exact ⟨f, rfl⟩
    have hm : m ((c :: a2) ++ b) = none := by
      have := ha 0 (by simp) b
      simpa using this
    rw [List.cons_append,
      scanPatAux_cons_miss m f idx c (a2 ++ b) (by simpa using hm)]
    have ha2 : InertFor m a2 := by
      intro q hq suffix
      have := ha (q + 1) (by simp; omega) suffix
      simpa using this
    rw [ih ha2 f idx b (by simp at hfuel; omega)]
    simp only [List.length_cons]
    have : f + 1 - (a2.length + 1) = f - a2.length := by omega
    rw [this]
    simp

/-- Scanning a match: the matched text is replaced by a fresh token and
recorded, and the scan resumes after it. -/
theorem scanPatAux_hit_chunk (m : Str → Option Nat) (a : Str)
    (ha : HitFor m a) (fuel idx : Nat) (b : Str) :
    scanPatAux m (fuel + 1) idx (a ++ b) =
      ((token idx ++ (scanPatAux m fuel (idx + 1) b).1,
        (token idx, a) :: (scanPatAux m fuel (idx + 1) b).2.1,
        (scanPatAux m fuel (idx + 1) b).2.2)) := by
  obtain ⟨hne, hall⟩ := ha
  obtain ⟨c, a2, rfl⟩ : ∃ c a2, a = c :: a2 := by
    cases a with
    | nil => exact absurd rfl hne
    | cons c a2 => exact ⟨c, a2, rfl⟩
  have hm : m ((c :: a2) ++ b) = some (a2.length + 1) := by
    have := hall b
    simpa using this
  rw [List.cons_append,
    scanPatAux_cons_hit m fuel idx c (a2 ++ b) a2.length (by simpa using hm)]
  have hdrop : (c :: (a2 ++ b)).drop (a2.length + 1) = b := by
    simp [List.drop_left]
  have htake : (c :: (a2 ++ b)).take (a2.length + 1) = c :: a2 := by
    simp [List.take_left]
  rw [hdrop, htake]

/-! ### Unit-level model of the six protect passes

The text between passes is a concatenation of units: literal characters,
minted tokens, a `$`-prefixed token (what is left of `${name}` once pass 2
has taken its `{name}` part), and still-unprocessed placeholder segments. -/

inductive TUnit where
  | ulit (c : Char)
  | utok (i : Nat)
  | udtok (i : Nat)
  | uraw (s : Seg)
deriving Repr

def renderUnit : TUnit → Str
  | .ulit c => [c]
  | .utok i => token i
  | .udtok i => '$' :: token i
  | .uraw s => renderSeg s

def renderUnits (us : List TUnit) : Str := (us.map renderUnit).flatten

theorem renderUnits_nil : renderUnits [] = [] := rfl

theorem renderUnits_cons (u : TUnit) (us : List TUnit) :
    renderUnits (u :: us) = renderUnit u ++ renderUnits us := by
  simp [renderUnits]

/-- Which pattern pass (1–6) consumes a segment; 0 = none (literals).
`${name}` is consumed by pass 2 (`{name}`), not pass 5: by the time the
`${name}` pattern runs, pass 2 has already replaced its brace part. -/
def classOf : Seg → Nat
  | .lit _ => 0
  | .ph1 _ => 1
  | .ph2 _ => 2
  | .ph3 _ _ => 3
  | .ph4 _ => 4
  | .ph5 _ => 2
  | .ph6 _ => 6

/-- The exact text the consuming pass matches (for `${name}` only the
`{name}` part). -/
def hitText : Seg → Str
  | .ph5 name => '{' :: name ++ ['}']
  | s => renderSeg s

/-- Initial unit decomposition of a rendered segment list. -/
def initUnit : Seg → TUnit
  | .lit c => .ulit c
  | s => .uraw s

def initUnits (segs : List Seg) : List TUnit := segs.map initUnit

/-- Effect of pass `p` on a unit list: replace each raw segment of class
`p` by a token (keeping the `$` of `${name}`), record the pair, thread the
counter. -/
def passUnits (p : Nat) : List TUnit → Nat → List TUnit × List (Str × Str) × Nat
  | [], idx => ([], [], idx)
  | .uraw s :: rest, idx =>
    if classOf s = p then
      let next := passUnits p rest (idx + 1)
      ((match s with
        | .ph5 _ => TUnit.udtok idx
        | _ => TUnit.utok idx) :: next.1,
       (token idx, hitText s) :: next.2.1, next.2.2)
    else
      let next := passUnits p rest idx
      (TUnit.uraw s :: next.1, next.2)
  | u :: rest, idx =>
    let next := passUnits p rest idx
    (u :: next.1, next.2)

/-- Invariant before pass `p`: literal units are safe characters and raw
units are well-formed segments not yet consumed. -/
def UnitsOK (p : Nat) (us : List TUnit) : Prop :=
  ∀ u ∈ us, (∀ c, u = .ulit c → safeLit c = true) ∧
            (∀ s, u = .uraw s → segWF s = true ∧ p ≤ classOf s ∧ 1 ≤ classOf s)

theorem UnitsOK_cons {p : Nat} {u : TUnit} {us : List TUnit}
    (h : UnitsOK p (u :: us)) :
    ((∀ c, u = .ulit c → safeLit c = true) ∧
     (∀ s, u = .uraw s → segWF s = true ∧ p ≤ classOf s ∧ 1 ≤ classOf s)) ∧
    UnitsOK p us :=
  ⟨h u (by simp), fun v hv => h v (by simp [hv])⟩

theorem safeLit_facts {c : Char} (h : safeLit c = true) :
    ¬ c = '{' ∧ ¬ c = '}' ∧ ¬ c = '%' ∧ ¬ c = '$' ∧ ¬ c = '_' ∧
    ¬ c.isDigit = true := by
  simp only [safeLit, Bool.not_eq_true', Bool.or_eq_false_iff,
    decide_eq_false_iff_not] at h
  exact ⟨h.1.1.1.1.1, h.1.1.1.1.2, h.1.1.1.2, h.1.1.2, h.1.2,
    by simp [h.2]⟩

theorem token_chars (i : Nat) :
    ∀ c ∈ token i, c = '_' ∨ c = 'P' ∨ c = 'H' ∨ c.isDigit = true := by
  intro c hc
  simp only [token, List.mem_cons, List.mem_append, List.cons_append] at hc
  rcases hc with rfl | rfl | rfl | rfl | hc
  · exact Or.inl rfl
  · exact Or.inl rfl
  · exact Or.inr (Or.inl rfl)
  · exact Or.inr (Or.inr (Or.inl rfl))
  rcases hc with hc | hc
  · exact Or.inr (Or.inr (Or.inr (natDigits_all_digit i c hc)))
  · simp only [List.mem_cons, List.not_mem_nil, or_false] at hc
    rcases hc with rfl | rfl
    · exact Or.inl rfl
    · exact Or.inl rfl

/-- A token's characters never carry the anchor of any placeholder
pattern. -/
theorem token_char_not_anchor (i : Nat) :
    ∀ c ∈ token i, ¬ c = '{' ∧ ¬ c = '%' ∧ ¬ c = '$' := by
  intro c hc
  rcases token_chars i c hc with rfl | rfl | rfl | hd
  · exact ⟨by decide, by decide, by decide⟩
  · exact ⟨by decide, by decide, by decide⟩
  · exact ⟨by decide, by decide, by decide⟩
  · have h := alnum_not_special (digit_isAlphanum hd)
    exact ⟨h.1, h.2.2.1, h.2.2.2.1⟩

theorem token_ne_nil (i : Nat) : ¬ token i = [] := by
  simp [token]

/-! ### Unfolding lemmas for `passUnits` -/

theorem passUnits_nil (p idx : Nat) : passUnits p [] idx = ([], [], idx) := rfl

theorem passUnits_cons_other (p : Nat) (u : TUnit) (rest : List TUnit) (idx : Nat)
    (h : ∀ s, ¬ u = .uraw s) :
    passUnits p (u :: rest) idx =
      ((u :: (passUnits p rest idx).1, (passUnits p rest idx).2)) := by
  cases u with
  | ulit c => rfl
  | utok i => rfl
  | udtok i => rfl
  | uraw s => exact absurd rfl (h s)

theorem passUnits_raw_miss (p : Nat) (s : Seg) (rest : List TUnit) (idx : Nat)
    (h : ¬ classOf s = p) :
    passUnits p (.uraw s :: rest) idx =
      ((TUnit.uraw s :: (passUnits p rest idx).1, (passUnits p rest idx).2)) := by
  simp [passUnits, h]

theorem passUnits_raw_hit (p : Nat) (s : Seg) (rest : List TUnit) (idx : Nat)
    (h : classOf s = p) (h5 : ∀ n, ¬ s = .ph5 n) :
    passUnits p (.uraw s :: rest) idx =
      ((TUnit.utok idx :: (passUnits p rest (idx + 1)).1,
        (token idx, hitText s) :: (passUnits p rest (idx + 1)).2.1,
        (passUnits p rest (idx + 1)).2.2)) := by
  cases s with
  | lit c => simp [passUnits, h]
  | ph1 n => simp [passUnits, h]
  | ph2 n => simp [passUnits, h]
  | ph3 d f => simp [passUnits, h]
  | ph4 f => simp [passUnits, h]
  | ph5 n => exact absurd rfl (h5 n)
  | ph6 a => simp [passUnits, h]

theorem passUnits_raw_hit5 (p : Nat) (n : Str) (rest : List TUnit) (idx : Nat)
    (h : classOf (.ph5 n) = p) :
    passUnits p (.uraw (.ph5 n) :: rest) idx =
      ((TUnit.udtok idx :: (passUnits p rest (idx + 1)).1,
        (token idx, hitText (.ph5 n)) :: (passUnits p rest (idx + 1)).2.1,
        (passUnits p rest (idx + 1)).2.2)) := by
  simp [passUnits, h]

theorem renderSeg_ne_nil (s : Seg) : ¬ renderSeg s = [] := by
  cases s <;> simp [renderSeg]

theorem hitText_eq_renderSeg (s : Seg) (h5 : ∀ n, ¬ s = .ph5 n) :
    hitText s = renderSeg s := by
  cases s with
  | ph5 n => exact absurd rfl (h5 n)
  | lit c => rfl
  | ph1 n => rfl
  | ph2 n => rfl
  | ph3 d f => rfl
  | ph4 f => rfl
  | ph6 a => rfl

/-- Generic one-pass theorem: if pass `p`'s matcher is inert on every unit
it must not consume and hits exactly the class-`p` segments, then the
scan pass acts unit-wise as `passUnits`. -/
theorem scanPatAux_units (m : Str → Option Nat) (p : Nat)
    (hLit : ∀ c, safeLit c = true → ∀ suffix, m (c :: suffix) = none)
    (hTok : ∀ i, InertFor m (token i))
    (hDtok : ∀ i, InertFor m ('$' :: token i))
    (hRawMiss : ∀ s, segWF s = true → 1 ≤ classOf s → p ≤ classOf s →
        ¬ classOf s = p → InertFor m (renderSeg s))
    (hHit : ∀ s, segWF s = true → classOf s = p → HitFor m (hitText s))
    (hDollar : p = 2 → ∀ suffix, m ('$' :: suffix) = none) :
    ∀ (us : List TUnit) (fuel idx : Nat), UnitsOK p us →
      (renderUnits us).length ≤ fuel →
      scanPatAux m fuel idx (renderUnits us) =
        ((renderUnits (passUnits p us idx).1, (passUnits p us idx).2)) := by
  intro us
  induction us with
  | nil =>
    intro fuel idx _ _
    simp [renderUnits_nil, passUnits_nil, scanPatAux_nil]
  | cons u rest ih =>
    intro fuel idx hOK hfuel
    obtain ⟨hu, hrest⟩ := UnitsOK_cons hOK
    rw [renderUnits_cons] at hfuel ⊢
    have hstep_inert : ∀ a : Str, renderUnit u = a → InertFor m a →
        passUnits p (u :: rest) idx =
          ((u :: (passUnits p rest idx).1, (passUnits p rest idx).2)) →
        scanPatAux m fuel idx (renderUnit u ++ renderUnits rest) =
          ((renderUnits (passUnits p (u :: rest) idx).1,
            (passUnits p (u :: rest) idx).2)) := by
      intro a ha hIa hpu
      rw [ha] at hfuel ⊢
      rw [scanPatAux_inert_chunk m a hIa fuel idx _ (by simp at hfuel; omega)]
      rw [ih (fuel - a.length) idx hrest (by simp at hfuel; omega)]
      rw [hpu, renderUnits_cons, ha]
    cases u with
    | ulit c =>
      refine hstep_inert [c] rfl ?_ (passUnits_cons_other p _ rest idx (by simp))
      refine InertFor_chars m [c] (fun d hd suffix => ?_)
      simp only [List.mem_singleton] at hd
      rw [hd]
      exact hLit c (hu.1 c rfl) suffix
    | utok i =>
      exact hstep_inert (token i) rfl (hTok i)
        (passUnits_cons_other p _ rest idx (by simp))
    | udtok i =>
      exact hstep_inert ('$' :: token i) rfl (hDtok i)
        (passUnits_cons_other p _ rest idx (by simp))
    | uraw s =>
      obtain ⟨hWF, hple, h1le⟩ := hu.2 s rfl
      by_cases hcp : classOf s = p
      · -- this pass consumes the segment
        cases s with
        | lit c => simp [classOf] at h1le
        | ph5 n =>
          have hp2 : p = 2 := by simp [classOf] at hcp; omega
          have hHit5 : HitFor m (hitText (.ph5 n)) := hHit _ hWF hcp
          have hrend : renderUnit (.uraw (.ph5 n)) = '$' :: hitText (.ph5 n) := by
            simp [renderUnit, renderSeg, hitText]
          rw [hrend] at hfuel ⊢
          have hl : 1 ≤ (hitText (Seg.ph5 n)).length := by
            cases hx : hitText (Seg.ph5 n) with
            | nil => exact absurd hx hHit5.1
            | cons y ys => simp
          simp only [List.length_append, List.length_cons] at hfuel
          obtain ⟨f, rfl⟩ : ∃ f, fuel = f + 2 := ⟨fuel - 2, by omega⟩
          rw [show (('$' :: hitText (Seg.ph5 n)) ++ renderUnits rest) =
            '$' :: (hitText (Seg.ph5 n) ++ renderUnits rest) by simp]
          rw [show f + 2 = (f + 1) + 1 by ring]
          rw [scanPatAux_cons_miss m (f + 1) idx '$' _ (hDollar hp2 _)]
          rw [scanPatAux_hit_chunk m _ hHit5 f idx _]
          rw [ih f (idx + 1) hrest (by omega)]
          rw [passUnits_raw_hit5 p n rest idx hcp, renderUnits_cons]
          simp [renderUnit]
        | ph1 n =>
          have h5 : ∀ k, ¬ Seg.ph1 n = Seg.ph5 k := fun k h => Seg.noConfusion h
          have hHitS : HitFor m (hitText (Seg.ph1 n)) := hHit _ hWF hcp
          have hrend : renderUnit (.uraw (.ph1 n)) = hitText (.ph1 n) := by
            rw [hitText_eq_renderSeg _ h5]; rfl
          rw [hrend] at hfuel ⊢
          have hl : 1 ≤ (hitText (Seg.ph1 n)).length := by
            cases hx : hitText (Seg.ph1 n) with
            | nil => exact absurd hx hHitS.1
            | cons y ys => simp
          simp only [List.length_append] at hfuel
          obtain ⟨f, rfl⟩ : ∃ f, fuel = f + 1 := ⟨fuel - 1, by omega⟩
          rw [scanPatAux_hit_chunk m _ hHitS f idx _]
          rw [ih f (idx + 1) hrest (by omega)]
          rw [passUnits_raw_hit p _ rest idx hcp h5, renderUnits_cons]
          simp [renderUnit]
        | ph2 n =>
          have h5 : ∀ k, ¬ Seg.ph2 n = Seg.ph5 k := fun k h => Seg.noConfusion h
          have hHitS : HitFor m (hitText (Seg.ph2 n)) := hHit _ hWF hcp
          have hrend : renderUnit (.uraw (.ph2 n)) = hitText (.ph2 n) := by
            rw [hitText_eq_renderSeg _ h5]; rfl
          rw [hrend] at hfuel ⊢
          have hl : 1 ≤ (hitText (Seg.ph2 n)).length := by
            cases hx : hitText (Seg.ph2 n) with
            | nil => exact absurd hx hHitS.1
            | cons y ys => simp
          simp only [List.length_append] at hfuel
          obtain ⟨f, rfl⟩ : ∃ f, fuel = f + 1 := ⟨fuel - 1, by omega⟩
          rw [scanPatAux_hit_chunk m _ hHitS f idx _]
          rw [ih f (idx + 1) hrest (by omega)]
          rw [passUnits_raw_hit p _ rest idx hcp h5, renderUnits_cons]
          simp [renderUnit]
        | ph3 d fc =>
          have h5 : ∀ k, ¬ Seg.ph3 d fc = Seg.ph5 k := fun k h => Seg.noConfusion h
          have hHitS : HitFor m (hitText (Seg.ph3 d fc)) := hHit _ hWF hcp
          have hrend : renderUnit (.uraw (.ph3 d fc)) = hitText (.ph3 d fc) := by
            rw [hitText_eq_renderSeg _ h5]; rfl
          rw [hrend] at hfuel ⊢
          have hl : 1 ≤ (hitText (Seg.ph3 d fc)).length := by
            cases hx : hitText (Seg.ph3 d fc) with
            | nil => exact absurd hx hHitS.1
            | cons y ys => simp
          simp only [List.length_append] at hfuel
          obtain ⟨f, rfl⟩ : ∃ f, fuel = f + 1 := ⟨fuel - 1, by omega⟩
          rw [scanPatAux_hit_chunk m _ hHitS f idx _]
          rw [ih f (idx + 1) hrest (by omega)]
          rw [passUnits_raw_hit p _ rest idx hcp h5, renderUnits_cons]
          simp [renderUnit]
        | ph4 fc =>
          have h5 : ∀ k, ¬ Seg.ph4 fc = Seg.ph5 k := fun k h => Seg.noConfusion h
          have hHitS : HitFor m (hitText (Seg.ph4 fc)) := hHit _ hWF hcp
          have hrend : renderUnit (.uraw (.ph4 fc)) = hitText (.ph4 fc) := by
            rw [hitText_eq_renderSeg _ h5]; rfl
          rw [hrend] at hfuel ⊢
          have hl : 1 ≤ (hitText (Seg.ph4 fc)).length := by
            cases hx : hitText (Seg.ph4 fc) with
            | nil => exact absurd hx hHitS.1
            | cons y ys => simp
          simp only [List.length_append] at hfuel
          obtain ⟨f, rfl⟩ : ∃ f, fuel = f + 1 := ⟨fuel - 1, by omega⟩
          rw [scanPatAux_hit_chunk m _ hHitS f idx _]
          rw [ih f (idx + 1) hrest (by omega)]
          rw [passUnits_raw_hit p _ rest idx hcp h5, renderUnits_cons]
          simp [renderUnit]
        | ph6 a =>
          have h5 : ∀ k, ¬ Seg.ph6 a = Seg.ph5 k := fun k h => Seg.noConfusion h
          have hHitS : HitFor m (hitText (Seg.ph6 a)) := hHit _ hWF hcp
          have hrend : renderUnit (.uraw (.ph6 a)) = hitText (.ph6 a) := by
            rw [hitText_eq_renderSeg _ h5]; rfl
          rw [hrend] at hfuel ⊢
          have hl : 1 ≤ (hitText (Seg.ph6 a)).length := by
            cases hx : hitText (Seg.ph6 a) with
            | nil => exact absurd hx hHitS.1
            | cons y ys => simp
          simp only [List.length_append] at hfuel
          obtain ⟨f, rfl⟩ : ∃ f, fuel = f + 1 := ⟨fuel - 1, by omega⟩
          rw [scanPatAux_hit_chunk m _ hHitS f idx _]
          rw [ih f (idx + 1) hrest (by omega)]
          rw [passUnits_raw_hit p _ rest idx hcp h5, renderUnits_cons]
          simp [renderUnit]
      · -- the segment survives this pass untouched
        exact hstep_inert (renderSeg s) rfl (hRawMiss s hWF h1le hple hcp)
          (passUnits_raw_miss p s rest idx hcp)


/-! ### Inert ingredients for each pass -/

theorem argChar_facts {c : Char} (h : argChar c = true) :
    ¬ c = ')' ∧ ¬ c = '{' ∧ ¬ c = '}' ∧ ¬ c = '%' ∧ ¬ c = '$' ∧ ¬ c = '_' := by
  simp only [argChar, Bool.not_eq_true', Bool.or_eq_false_iff,
    decide_eq_false_iff_not] at h
  exact ⟨h.1.1.1.1.1, h.1.1.1.1.2, h.1.1.1.2, h.1.1.2, h.1.2, h.2⟩

theorem ph3_chars {ds : Str} {f : Char} (h : segWF (.ph3 ds f) = true) :
    ∀ c ∈ renderSeg (.ph3 ds f),
      c = '%' ∨ c.isDigit = true ∨ c = '$' ∨ isFormatChar c = true := by
  obtain ⟨⟨-, hdig⟩, hf⟩ :
      (¬ds = [] ∧ ∀ x ∈ ds, x.isDigit = true) ∧ isFormatChar f = true := by
    simpa [segWF, List.all_eq_true, List.isEmpty_iff] using h
  intro c hc
  simp only [renderSeg, List.append_eq, List.mem_cons, List.mem_append,
    List.not_mem_nil, or_false] at hc
  rcases hc with hc | hc
  · rcases hc with rfl | hc
    · exact Or.inl rfl
    · exact Or.inr (Or.inl (hdig c hc))
  · rcases hc with rfl | rfl
    · exact Or.inr (Or.inr (Or.inl rfl))
    · exact Or.inr (Or.inr (Or.inr hf))

theorem ph6_chars {arg : Str} (h : segWF (.ph6 arg) = true) :
    ∀ c ∈ renderSeg (.ph6 arg),
      c = '$' ∨ c = 't' ∨ c = '(' ∨ c = ')' ∨ argChar c = true := by
  obtain ⟨-, hchars⟩ : ¬arg = [] ∧ ∀ x ∈ arg, argChar x = true := by
    simpa [segWF, Bool.and_eq_true, List.all_eq_true, List.isEmpty_iff] using h
  intro c hc
  simp only [renderSeg, List.append_eq, List.mem_cons, List.mem_append,
    List.not_mem_nil, or_false] at hc
  rcases hc with hc | rfl
  · rcases hc with rfl | rfl | rfl | hc
    · exact Or.inl rfl
    · exact Or.inr (Or.inl rfl)
    · exact Or.inr (Or.inr (Or.inl rfl))
    · exact Or.inr (Or.inr (Or.inr (Or.inr (hchars c hc))))
  · exact Or.inr (Or.inr (Or.inr (Or.inl rfl)))

theorem token_inert_m1 (i : Nat) : InertFor matchDoubleBrace (token i) :=
  InertFor_chars _ _ (fun c hc suffix =>
    matchDoubleBrace_gate c (token_char_not_anchor i c hc).1 suffix)

theorem token_inert_m2 (i : Nat) : InertFor matchSingleBrace (token i) :=
  InertFor_chars _ _ (fun c hc suffix =>
    matchSingleBrace_gate c (token_char_not_anchor i c hc).1 suffix)

theorem token_inert_m3 (i : Nat) : InertFor matchPositional (token i) :=
  InertFor_chars _ _ (fun c hc suffix =>
    matchPositional_gate c (token_char_not_anchor i c hc).2.1 suffix)

theorem token_inert_m4 (i : Nat) : InertFor matchPrintf (token i) :=
  InertFor_chars _ _ (fun c hc suffix =>
    matchPrintf_gate c (token_char_not_anchor i c hc).2.1 suffix)

theorem token_inert_m5 (i : Nat) : InertFor matchTemplate (token i) :=
  InertFor_chars _ _ (fun c hc suffix =>
    matchTemplate_gate c (token_char_not_anchor i c hc).2.2 suffix)

theorem token_inert_m6 (i : Nat) : InertFor matchNested (token i) :=
  InertFor_chars _ _ (fun c hc suffix =>
    matchNested_gate c (token_char_not_anchor i c hc).2.2 suffix)

theorem dtok_inert_m1 (i : Nat) : InertFor matchDoubleBrace ('$' :: token i) :=
  InertFor_cons _ _ _
    (fun suffix => matchDoubleBrace_gate '$' (by decide) _) (token_inert_m1 i)

theorem dtok_inert_m2 (i : Nat) : InertFor matchSingleBrace ('$' :: token i) :=
  InertFor_cons _ _ _
    (fun suffix => matchSingleBrace_gate '$' (by decide) _) (token_inert_m2 i)

theorem dtok_inert_m3 (i : Nat) : InertFor matchPositional ('$' :: token i) :=
  InertFor_cons _ _ _
    (fun suffix => matchPositional_gate '$' (by decide) _) (token_inert_m3 i)

theorem dtok_inert_m4 (i : Nat) : InertFor matchPrintf ('$' :: token i) :=
  InertFor_cons _ _ _
    (fun suffix => matchPrintf_gate '$' (by decide) _) (token_inert_m4 i)

theorem dtok_inert_m5 (i : Nat) : InertFor matchTemplate ('$' :: token i) := by
  refine InertFor_cons _ _ _ (fun suffix => ?_) (token_inert_m5 i)
  simp only [token, List.cons_append, List.append_assoc]
  exact matchTemplate_second '_' (by decide) _

theorem dtok_inert_m6 (i : Nat) : InertFor matchNested ('$' :: token i) := by
  refine InertFor_cons _ _ _ (fun suffix => ?_) (token_inert_m6 i)
  simp only [token, List.cons_append, List.append_assoc]
  exact matchNested_second '_' (by decide) _

/-- The `{name}` shape never matches `{{name}}`'s pattern: the double-brace
matcher needs a second `{`, and none of the remaining characters is `{`. -/
theorem braces_inert_m1 (name : Str) (h : nameWF name = true) :
    InertFor matchDoubleBrace ('{' :: name ++ ['}']) := by
  obtain ⟨nh, nt, rfl⟩ : ∃ c t, name = c :: t := by
    cases name with
    | nil => simp [nameWF] at h
    | cons c t => exact ⟨c, t, rfl⟩
  obtain ⟨hna, hnt⟩ : nh.isAlpha = true ∧ ∀ x ∈ nt, x.isAlphanum = true := by
    simpa [nameWF, List.all_eq_true] using h
  refine InertFor_cons _ _ _ (fun suffix => ?_) ?_
  · simp only [List.append_eq]
    rw [show ((nh :: nt) ++ ['}']) ++ suffix = nh :: (nt ++ '}' :: suffix) by simp]
    exact matchDoubleBrace_second nh (alnum_not_special (alpha_isAlphanum hna)).1 _
  · refine InertFor_chars _ _ (fun c hc suffix => matchDoubleBrace_gate c ?_ _)
    simp only [List.append_eq, List.mem_append, List.mem_cons,
      List.not_mem_nil, or_false] at hc
    rcases hc with (rfl | hc) | rfl
    · exact (alnum_not_special (alpha_isAlphanum hna)).1
    · exact (alnum_not_special (hnt c hc)).1
    · decide

/-! ### The six passes on unit lists -/

theorem pass1_eq (us : List TUnit) (idx : Nat) (h : UnitsOK 1 us) :
    scanPat matchDoubleBrace idx (renderUnits us) =
      ((renderUnits (passUnits 1 us idx).1, (passUnits 1 us idx).2)) := by
  refine scanPatAux_units matchDoubleBrace 1
    (fun c hc suffix => matchDoubleBrace_gate c (safeLit_facts hc).1 suffix)
    token_inert_m1 dtok_inert_m1 ?_ ?_ (fun h2 => absurd h2 (by decide))
    us (renderUnits us).length idx h (le_refl _)
  · intro s hWF h1 hp hne
    cases s with
    | lit c => simp [classOf] at h1
    | ph1 n => simp [classOf] at hne
    | ph2 n =>
      have hn : nameWF n = true := by simpa [segWF] using hWF
      exact braces_inert_m1 n hn
    | ph3 d f =>
      refine InertFor_chars _ _ (fun c hc suffix => matchDoubleBrace_gate c ?_ _)
      rcases ph3_chars hWF c hc with rfl | hd | rfl | hf
      · decide
      · exact (alnum_not_special (digit_isAlphanum hd)).1
      · decide
      · exact (formatChar_not_special hf).1
    | ph4 f =>
      have hf : isFormatChar f = true := by simpa [segWF] using hWF
      refine InertFor_chars _ _ (fun c hc suffix => matchDoubleBrace_gate c ?_ _)
      simp only [renderSeg, List.mem_cons, List.not_mem_nil, or_false] at hc
      rcases hc with rfl | rfl
      · decide
      · exact (formatChar_not_special hf).1
    | ph5 n =>
      have hn : nameWF n = true := by simpa [segWF] using hWF
      exact InertFor_cons _ _ _
        (fun suffix => matchDoubleBrace_gate '$' (by decide) _)
        (braces_inert_m1 n hn)
    | ph6 a =>
      refine InertFor_chars _ _ (fun c hc suffix => matchDoubleBrace_gate c ?_ _)
      rcases ph6_chars hWF c hc with rfl | rfl | rfl | rfl | ha
      · decide
      · decide
      · decide
      · decide
      · exact (argChar_facts ha).2.1
  · intro s hWF hcp
    cases s with
    | lit c => simp [classOf] at hcp
    | ph1 n =>
      have hn : nameWF n = true := by simpa [segWF] using hWF
      exact matchDoubleBrace_hit n hn
    | ph2 n => simp [classOf] at hcp
    | ph3 d f => simp [classOf] at hcp
    | ph4 f => simp [classOf] at hcp
    | ph5 n => simp [classOf] at hcp
    | ph6 a => simp [classOf] at hcp

theorem pass2_eq (us : List TUnit) (idx : Nat) (h : UnitsOK 2 us) :
    scanPat matchSingleBrace idx (renderUnits us) =
      ((renderUnits (passUnits 2 us idx).1, (passUnits 2 us idx).2)) := by
  refine scanPatAux_units matchSingleBrace 2
    (fun c hc suffix => matchSingleBrace_gate c (safeLit_facts hc).1 suffix)
    token_inert_m2 dtok_inert_m2 ?_ ?_
    (fun _ suffix => matchSingleBrace_gate '$' (by decide) suffix)
    us (renderUnits us).length idx h (le_refl _)
  · intro s hWF h1 hp hne
    cases s with
    | lit c => simp [classOf] at h1
    | ph1 n => simp [classOf] at hp
    | ph2 n => simp [classOf] at hne
    | ph3 d f =>
      refine InertFor_chars _ _ (fun c hc suffix => matchSingleBrace_gate c ?_ _)
      rcases ph3_chars hWF c hc with rfl | hd | rfl | hf
      · decide
      · exact (alnum_not_special (digit_isAlphanum hd)).1
      · decide
      · exact (formatChar_not_special hf).1
    | ph4 f =>
      have hf : isFormatChar f = true := by simpa [segWF] using hWF
      refine InertFor_chars _ _ (fun c hc suffix => matchSingleBrace_gate c ?_ _)
      simp only [renderSeg, List.mem_cons, List.not_mem_nil, or_false] at hc
      rcases hc with rfl | rfl
      · decide
      · exact (formatChar_not_special hf).1
    | ph5 n => simp [classOf] at hne
    | ph6 a =>
      refine InertFor_chars _ _ (fun c hc suffix => matchSingleBrace_gate c ?_ _)
      rcases ph6_chars hWF c hc with rfl | rfl | rfl | rfl | ha
      · decide
      · decide
      · decide
      · decide
      · exact (argChar_facts ha).2.1
  · intro s hWF hcp
    cases s with
    | lit c => simp [classOf] at hcp
    | ph1 n => simp [classOf] at hcp
    | ph2 n =>
      have hn : nameWF n = true := by simpa [segWF] using hWF
      exact matchSingleBrace_hit_name n hn
    | ph3 d f => simp [classOf] at hcp
    | ph4 f => simp [classOf] at hcp
    | ph5 n =>
      have hn : nameWF n = true := by simpa [segWF] using hWF
      exact matchSingleBrace_hit_name n hn
    | ph6 a => simp [classOf] at hcp

theorem pass3_eq (us : List TUnit) (idx : Nat) (h : UnitsOK 3 us) :
    scanPat matchPositional idx (renderUnits us) =
      ((renderUnits (passUnits 3 us idx).1, (passUnits 3 us idx).2)) := by
  refine scanPatAux_units matchPositional 3
    (fun c hc suffix => matchPositional_gate c (safeLit_facts hc).2.2.1 suffix)
    token_inert_m3 dtok_inert_m3 ?_ ?_ (fun h2 => absurd h2 (by decide))
    us (renderUnits us).length idx h (le_refl _)
  · intro s hWF h1 hp hne
    cases s with
    | lit c => simp [classOf] at h1
    | ph1 n => simp [classOf] at hp
    | ph2 n => simp [classOf] at hp
    | ph3 d f => simp [classOf] at hne
    | ph4 f =>
      have hf : isFormatChar f = true := by simpa [segWF] using hWF
      refine InertFor_cons _ _ _ (fun suffix => ?_) ?_
      · exact matchPositional_second f (formatChar_not_special hf).2.2.2.2.2 _
      · refine InertFor_chars _ _ (fun c hc suffix => matchPositional_gate c ?_ _)
        simp only [List.mem_singleton] at hc
        subst hc
        exact (formatChar_not_special hf).2.2.1
    | ph5 n => simp [classOf] at hp
    | ph6 a =>
      refine InertFor_chars _ _ (fun c hc suffix => matchPositional_gate c ?_ _)
      rcases ph6_chars hWF c hc with rfl | rfl | rfl | rfl | ha
      · decide
      · decide
      · decide
      · decide
      · exact (argChar_facts ha).2.2.2.1
  · intro s hWF hcp
    cases s with
    | lit c => simp [classOf] at hcp
    | ph1 n => simp [classOf] at hcp
    | ph2 n => simp [classOf] at hcp
    | ph3 d f => exact matchPositional_hit d f hWF
    | ph4 f => simp [classOf] at hcp
    | ph5 n => simp [classOf] at hcp
    | ph6 a => simp [classOf] at hcp

theorem pass4_eq (us : List TUnit) (idx : Nat) (h : UnitsOK 4 us) :
    scanPat matchPrintf idx (renderUnits us) =
      ((renderUnits (passUnits 4 us idx).1, (passUnits 4 us idx).2)) := by
  refine scanPatAux_units matchPrintf 4
    (fun c hc suffix => matchPrintf_gate c (safeLit_facts hc).2.2.1 suffix)
    token_inert_m4 dtok_inert_m4 ?_ ?_ (fun h2 => absurd h2 (by decide))
    us (renderUnits us).length idx h (le_refl _)
  · intro s hWF h1 hp hne
    cases s with
    | lit c => simp [classOf] at h1
    | ph1 n => simp [classOf] at hp
    | ph2 n => simp [classOf] at hp
    | ph3 d f => simp [classOf] at hp
    | ph4 f => simp [classOf] at hne
    | ph5 n => simp [classOf] at hp
    | ph6 a =>
      refine InertFor_chars _ _ (fun c hc suffix => matchPrintf_gate c ?_ _)
      rcases ph6_chars hWF c hc with rfl | rfl | rfl | rfl | ha
      · decide
      · decide
      · decide
      · decide
      · exact (argChar_facts ha).2.2.2.1
  · intro s hWF hcp
    cases s with
    | lit c => simp [classOf] at hcp
    | ph1 n => simp [classOf] at hcp
    | ph2 n => simp [classOf] at hcp
    | ph3 d f => simp [classOf] at hcp
    | ph4 f =>
      have hf : isFormatChar f = true := by simpa [segWF] using hWF
      exact matchPrintf_hit f hf
    | ph5 n => simp [classOf] at hcp
    | ph6 a => simp [classOf] at hcp

theorem pass5_eq (us : List TUnit) (idx : Nat) (h : UnitsOK 5 us) :
    scanPat matchTemplate idx (renderUnits us) =
      ((renderUnits (passUnits 5 us idx).1, (passUnits 5 us idx).2)) := by
  refine scanPatAux_units matchTemplate 5
    (fun c hc suffix => matchTemplate_gate c (safeLit_facts hc).2.2.2.1 suffix)
    token_inert_m5 dtok_inert_m5 ?_ ?_ (fun h2 => absurd h2 (by decide))
    us (renderUnits us).length idx h (le_refl _)
  · intro s hWF h1 hp hne
    cases s with
    | lit c => simp [classOf] at h1
    | ph1 n => simp [classOf] at hp
    | ph2 n => simp [classOf] at hp
    | ph3 d f => simp [classOf] at hp
    | ph4 f => simp [classOf] at hp
    | ph5 n => simp [classOf] at hp
    | ph6 a =>
      obtain ⟨-, hchars⟩ : ¬a = [] ∧ ∀ x ∈ a, argChar x = true := by
        simpa [segWF, Bool.and_eq_true, List.all_eq_true, List.isEmpty_iff]
          using hWF
      refine InertFor_cons _ _ _ (fun suffix => ?_) ?_
      · have he : (('t' :: '(' :: a).append [')'] ++ suffix) =
            't' :: ('(' :: (a ++ ')' :: suffix)) := by simp
        rw [he]
        exact matchTemplate_second 't' (by decide) _
      · refine InertFor_chars _ _ (fun c hc suffix => matchTemplate_gate c ?_ _)
        simp only [List.append_eq, List.mem_append, List.mem_cons,
          List.not_mem_nil, or_false] at hc
        rcases hc with (rfl | rfl | hc) | rfl
        · decide
        · decide
        · exact (argChar_facts (hchars c hc)).2.2.2.2.1
        · decide
  · intro s hWF hcp
    cases s with
    | lit c => simp [classOf] at hcp
    | ph1 n => simp [classOf] at hcp
    | ph2 n => simp [classOf] at hcp
    | ph3 d f => simp [classOf] at hcp
    | ph4 f => simp [classOf] at hcp
    | ph5 n => simp [classOf] at hcp
    | ph6 a => simp [classOf] at hcp

theorem pass6_eq (us : List TUnit) (idx : Nat) (h : UnitsOK 6 us) :
    scanPat matchNested idx (renderUnits us) =
      ((renderUnits (passUnits 6 us idx).1, (passUnits 6 us idx).2)) := by
  refine scanPatAux_units matchNested 6
    (fun c hc suffix => matchNested_gate c (safeLit_facts hc).2.2.2.1 suffix)
    token_inert_m6 dtok_inert_m6 ?_ ?_ (fun h2 => absurd h2 (by decide))
    us (renderUnits us).length idx h (le_refl _)
  · intro s hWF h1 hp hne
    cases s with
    | lit c => simp [classOf] at h1
    | ph1 n => simp [classOf] at hp
    | ph2 n => simp [classOf] at hp
    | ph3 d f => simp [classOf] at hp
    | ph4 f => simp [classOf] at hp
    | ph5 n => simp [classOf] at hp
    | ph6 a => simp [classOf] at hne
  · intro s hWF hcp
    cases s with
    | lit c => simp [classOf] at hcp
    | ph1 n => simp [classOf] at hcp
    | ph2 n => simp [classOf] at hcp
    | ph3 d f => simp [classOf] at hcp
    | ph4 f => simp [classOf] at hcp
    | ph5 n => simp [classOf] at hcp
    | ph6 a => exact matchNested_hit a hWF

/-! ### Composite protect pipeline over units -/

theorem renderUnits_initUnits (segs : List Seg) :
    renderUnits (initUnits segs) = renderSegs segs := by
  induction segs with
  | nil => rfl
  | cons s rest ih =>
    rw [show initUnits (s :: rest) = initUnit s :: initUnits rest from rfl,
      renderUnits_cons, ih]
    rw [show renderSegs (s :: rest) = renderSeg s ++ renderSegs rest by
      simp [renderSegs]]
    cases s <;> rfl

theorem UnitsOK_init (segs : List Seg) (h : ∀ s ∈ segs, segWF s = true) :
    UnitsOK 1 (initUnits segs) := by
  intro u hu
  simp only [initUnits, List.mem_map] at hu
  obtain ⟨s, hs, rfl⟩ := hu
  constructor
  · intro c hc
    cases s with
    | lit d =>
      simp only [initUnit] at hc
      cases hc
      simpa [segWF] using h _ hs
    | ph1 n => exact absurd hc (by simp [initUnit])
    | ph2 n => exact absurd hc (by simp [initUnit])
    | ph3 d f => exact absurd hc (by simp [initUnit])
    | ph4 f => exact absurd hc (by simp [initUnit])
    | ph5 n => exact absurd hc (by simp [initUnit])
    | ph6 a => exact absurd hc (by simp [initUnit])
  · intro s2 hs2
    cases s with
    | lit d => exact absurd hs2 (by simp [initUnit])
    | ph1 n => cases hs2; exact ⟨h _ hs, by simp [classOf], by simp [classOf]⟩
    | ph2 n => cases hs2; exact ⟨h _ hs, by simp [classOf], by simp [classOf]⟩
    | ph3 d f => cases hs2; exact ⟨h _ hs, by simp [classOf], by simp [classOf]⟩
    | ph4 f => cases hs2; exact ⟨h _ hs, by simp [classOf], by simp [classOf]⟩
    | ph5 n => cases hs2; exact ⟨h _ hs, by simp [classOf], by simp [classOf]⟩
    | ph6 a => cases hs2; exact ⟨h _ hs, by simp [classOf], by simp [classOf]⟩

/-- Raw segments surviving pass `p` have strictly larger class. -/
theorem UnitsOK_step (p : Nat) (us : List TUnit) (idx : Nat)
    (h : UnitsOK p us) : UnitsOK (p + 1) (passUnits p us idx).1 := by
  induction us generalizing idx with
  | nil => intro u hu; simp [passUnits_nil] at hu
  | cons u rest ih =>
    obtain ⟨hu, hrest⟩ := UnitsOK_cons h
    cases u with
    | ulit c =>
      rw [passUnits_cons_other p _ rest idx (by simp)]
      intro v hv
      rcases List.mem_cons.mp hv with rfl | hv
      · exact ⟨(fun d hd => by cases hd; exact hu.1 _ rfl), (fun s hs => by cases hs)⟩
      · exact ih idx hrest v hv
    | utok i =>
      rw [passUnits_cons_other p _ rest idx (by simp)]
      intro v hv
      rcases List.mem_cons.mp hv with rfl | hv
      · exact ⟨(fun d hd => by cases hd), (fun s hs => by cases hs)⟩
      · exact ih idx hrest v hv
    | udtok i =>
      rw [passUnits_cons_other p _ rest idx (by simp)]
      intro v hv
      rcases List.mem_cons.mp hv with rfl | hv
      · exact ⟨(fun d hd => by cases hd), (fun s hs => by cases hs)⟩
      · exact ih idx hrest v hv
    | uraw s =>
      obtain ⟨hWF, hple, h1le⟩ := hu.2 s rfl
      by_cases hcp : classOf s = p
      · cases s with
        | lit c => simp [classOf] at h1le
        | ph5 n =>
          rw [passUnits_raw_hit5 p n rest idx hcp]
          intro v hv
          rcases List.mem_cons.mp hv with rfl | hv
          · exact ⟨(fun d hd => by cases hd), (fun s2 hs2 => by cases hs2)⟩
          · exact ih (idx + 1) hrest v hv
        | ph1 n =>
          rw [passUnits_raw_hit p _ rest idx hcp (fun k h2 => Seg.noConfusion h2)]
          intro v hv
          rcases List.mem_cons.mp hv with rfl | hv
          · exact ⟨(fun d hd => by cases hd), (fun s2 hs2 => by cases hs2)⟩
          · exact ih (idx + 1) hrest v hv
        | ph2 n =>
          rw [passUnits_raw_hit p _ rest idx hcp (fun k h2 => Seg.noConfusion h2)]
          intro v hv
          rcases List.mem_cons.mp hv with rfl | hv
          · exact ⟨(fun d hd => by cases hd), (fun s2 hs2 => by cases hs2)⟩
          · exact ih (idx + 1) hrest v hv
        | ph3 d f =>
          rw [passUnits_raw_hit p _ rest idx hcp (fun k h2 => Seg.noConfusion h2)]
          intro v hv
          rcases List.mem_cons.mp hv with rfl | hv
          · exact ⟨(fun d2 hd => by cases hd), (fun s2 hs2 => by cases hs2)⟩
          · exact ih (idx + 1) hrest v hv
        | ph4 f =>
          rw [passUnits_raw_hit p _ rest idx hcp (fun k h2 => Seg.noConfusion h2)]
          intro v hv
          rcases List.mem_cons.mp hv with rfl | hv
          · exact ⟨(fun d hd => by cases hd), (fun s2 hs2 => by cases hs2)⟩
          · exact ih (idx + 1) hrest v hv
        | ph6 a =>
          rw [passUnits_raw_hit p _ rest idx hcp (fun k h2 => Seg.noConfusion h2)]
          intro v hv
          rcases List.mem_cons.mp hv with rfl | hv
          · exact ⟨(fun d hd => by cases hd), (fun s2 hs2 => by cases hs2)⟩
          · exact ih (idx + 1) hrest v hv
      · rw [passUnits_raw_miss p s rest idx hcp]
        intro v hv
        rcases List.mem_cons.mp hv with rfl | hv
        · refine ⟨(fun d hd => by cases hd), (fun s2 hs2 => ?_)⟩
          cases hs2
          exact ⟨hWF, by omega, h1le⟩
        · exact ih idx hrest v hv

/-- The protect pipeline at the unit level: six passes in pattern order,
threading the counter and concatenating the pair lists. -/
def protUnits (segs : List Seg) : List TUnit × List (Str × Str) × Nat :=
  let r1 := passUnits 1 (initUnits segs) 0
  let r2 := passUnits 2 r1.1 r1.2.2
  let r3 := passUnits 3 r2.1 r2.2.2
  let r4 := passUnits 4 r3.1 r3.2.2
  let r5 := passUnits 5 r4.1 r4.2.2
  let r6 := passUnits 6 r5.1 r5.2.2
  (r6.1,
   r1.2.1 ++ (r2.2.1 ++ (r3.2.1 ++ (r4.2.1 ++ (r5.2.1 ++ r6.2.1)))),
   r6.2.2)

/-- `protectPlaceholders` on a rendered segment list acts unit-wise. -/
theorem protect_on_segs (segs : List Seg) (hWF : ∀ s ∈ segs, segWF s = true) :
    protectPlaceholders (renderSegs segs) =
      ⟨renderUnits (protUnits segs).1, (protUnits segs).2.1⟩ := by
  have h1 : UnitsOK 1 (initUnits segs) := UnitsOK_init segs hWF
  have h2 : UnitsOK 2 (passUnits 1 (initUnits segs) (0)).1 :=
    UnitsOK_step 1 _ _ h1
  have h3 : UnitsOK 3 (passUnits 2 ((passUnits 1 (initUnits segs) (0)).1) ((passUnits 1 (initUnits segs) (0)).2.2)).1 :=
    UnitsOK_step 2 _ _ h2
  have h4 : UnitsOK 4 (passUnits 3 ((passUnits 2 ((passUnits 1 (initUnits segs) (0)).1) ((passUnits 1 (initUnits segs) (0)).2.2)).1) ((passUnits 2 ((passUnits 1 (initUnits segs) (0)).1) ((passUnits 1 (initUnits segs) (0)).2.2)).2.2)).1 :=
    UnitsOK_step 3 _ _ h3
  have h5 : UnitsOK 5 (passUnits 4 ((passUnits 3 ((passUnits 2 ((passUnits 1 (initUnits segs) (0)).1) ((passUnits 1 (initUnits segs) (0)).2.2)).1) ((passUnits 2 ((passUnits 1 (initUnits segs) (0)).1) ((passUnits 1 (initUnits segs) (0)).2.2)).2.2)).1) ((passUnits 3 ((passUnits 2 ((passUnits 1 (initUnits segs) (0)).1) ((passUnits 1 (initUnits segs) (0)).2.2)).1) ((passUnits 2 ((passUnits 1 (initUnits segs) (0)).1) ((passUnits 1 (initUnits segs) (0)).2.2)).2.2)).2.2)).1 :=
    UnitsOK_step 4 _ _ h4
  have h6 : UnitsOK 6 (passUnits 5 ((passUnits 4 ((passUnits 3 ((passUnits 2 ((passUnits 1 (initUnits segs) (0)).1) ((passUnits 1 (initUnits segs) (0)).2.2)).1) ((passUnits 2 ((passUnits 1 (initUnits segs) (0)).1) ((passUnits 1 (initUnits segs) (0)).2.2)).2.2)).1) ((passUnits 3 ((passUnits 2 ((passUnits 1 (initUnits segs) (0)).1) ((passUnits 1 (initUnits segs) (0)).2.2)).1) ((passUnits 2 ((passUnits 1 (initUnits segs) (0)).1) ((passUnits 1 (initUnits segs) (0)).2.2)).2.2)).2.2)).1) ((passUnits 4 ((passUnits 3 ((passUnits 2 ((passUnits 1 (initUnits segs) (0)).1) ((passUnits 1 (initUnits segs) (0)).2.2)).1) ((passUnits 2 ((passUnits 1 (initUnits segs) (0)).1) ((passUnits 1 (initUnits segs) (0)).2.2)).2.2)).1) ((passUnits 3 ((passUnits 2 ((passUnits 1 (initUnits segs) (0)).1) ((passUnits 1 (initUnits segs) (0)).2.2)).1) ((passUnits 2 ((passUnits 1 (initUnits segs) (0)).1) ((passUnits 1 (initUnits segs) (0)).2.2)).2.2)).2.2)).2.2)).1 :=
    UnitsOK_step 5 _ _ h5
  simp only [protectPlaceholders, PLACEHOLDER_PATTERNS, List.foldl_cons,
    List.foldl_nil]
  rw [← renderUnits_initUnits segs]
  rw [pass1_eq _ 0 h1]
  rw [pass2_eq _ _ h2]
  rw [pass3_eq _ _ h3]
  rw [pass4_eq _ _ h4]
  rw [pass5_eq _ _ h5]
  rw [pass6_eq _ _ h6]
  simp only [protUnits, ProtectedText.mk.injEq, List.nil_append,
    List.append_assoc]

/-! ### Unit-level model of the restore fold

During restoration each position of the protected text is a literal
character, a still-pending token (bare or `$`-prefixed), or an
already-restored original. -/

inductive RUnit where
  | rlit (c : Char)
  | rtok (i : Nat)
  | rdtok (i : Nat)
  | rorig (s : Str)
  | rdorig (s : Str)
deriving Repr

def renderRUnit : RUnit → Str
  | .rlit c => [c]
  | .rtok i => token i
  | .rdtok i => '$' :: token i
  | .rorig s => s
  | .rdorig s => '$' :: s

def renderRUnits (vs : List RUnit) : Str := (vs.map renderRUnit).flatten

theorem renderRUnits_cons (v : RUnit) (vs : List RUnit) :
    renderRUnits (v :: vs) = renderRUnit v ++ renderRUnits vs := by
  simp [renderRUnits]

/-- The unit-level effect of restoring token `k` with original `o`. -/
def ruSub (k : Nat) (o : Str) : RUnit → RUnit
  | .rtok i => if i = k then .rorig o else .rtok i
  | .rdtok i => if i = k then .rdorig o else .rdtok i
  | v => v

/-- A restored original is non-empty, starts with a placeholder opener and
contains no underscore, so it can never fabricate a token occurrence. -/
def OrigSafe (s : Str) : Prop :=
  (∃ c t, s = c :: t ∧ (c = '{' ∨ c = '%' ∨ c = '$')) ∧
  (∀ c ∈ s, ¬ c = '_') ∧ dollarSafeAux s = true

def RUnitsOK (vs : List RUnit) : Prop :=
  ∀ v ∈ vs, (∀ c, v = .rlit c → safeLit c = true) ∧
            (∀ s, v = .rorig s → OrigSafe s) ∧
            (∀ s, v = .rdorig s → OrigSafe s)

/-- Indices of the still-pending tokens, in text order. -/
def rIndices : List RUnit → List Nat
  | [] => []
  | .rtok i :: r => i :: rIndices r
  | .rdtok i :: r => i :: rIndices r
  | _ :: r => rIndices r

/-- The protect output's units, reread as restore-stage units. -/
def toR : TUnit → RUnit
  | .ulit c => .rlit c
  | .utok i => .rtok i
  | .udtok i => .rdtok i
  | .uraw _ => .rlit ' '

/-! ### Rigidity of token occurrences -/

theorem token_cons_shape (k : Nat) :
    token k = '_' :: '_' :: 'P' :: 'H' :: (natDigits k ++ ['_', '_']) := by
  simp [token]

/-- Two distinct maximal digit runs closed by `_` never align, whatever
follows. -/
theorem digitsRun_never_starts (dk : Str) :
    ∀ (dj : Str), (∀ c ∈ dk, c.isDigit = true) → (∀ c ∈ dj, c.isDigit = true) →
      ¬ dk = dj → ∀ B : Str, ¬ (dk ++ ['_', '_']) <+: ((dj ++ ['_', '_']) ++ B) := by
  induction dk with
  | nil =>
    intro dj _ hj hne B hp
    cases dj with
    | nil => exact hne rfl
    | cons d dj2 =>
      have hshape : ((d :: dj2) ++ ['_', '_']) ++ B =
          d :: ((dj2 ++ ['_', '_']) ++ B) := by simp
      rw [hshape, List.nil_append] at hp
      have h1 := (List.cons_prefix_cons.mp hp).1
      have hd := hj d (by simp)
      rw [← h1] at hd
      exact absurd hd (by decide)
  | cons c dk2 ih =>
    intro dj hk hj hne B hp
    cases dj with
    | nil =>
      have hshape : (([] : Str) ++ ['_', '_']) ++ B = '_' :: ('_' :: B) := by simp
      rw [hshape, show ((c :: dk2) ++ ['_', '_']) = c :: (dk2 ++ ['_', '_']) by
        simp] at hp
      have h1 := (List.cons_prefix_cons.mp hp).1
      have hc := hk c (by simp)
      rw [h1] at hc
      exact absurd hc (by decide)
    | cons d dj2 =>
      rw [show ((c :: dk2) ++ ['_', '_']) = c :: (dk2 ++ ['_', '_']) by simp,
        show ((d :: dj2) ++ ['_', '_']) ++ B = d :: ((dj2 ++ ['_', '_']) ++ B) by
          simp] at hp
      obtain ⟨hcd, hp2⟩ := List.cons_prefix_cons.mp hp
      by_cases he : c = d
      · subst he
        exact ih dj2 (fun x hx => hk x (by simp [hx]))
          (fun x hx => hj x (by simp [hx]))
          (fun h2 => hne (by rw [h2])) B hp2
      · exact he hcd

theorem token_never_starts {j k : Nat} (hjk : ¬ j = k) (B : Str) :
    ¬ (token k) <+: (token j ++ B) := by
  intro hp
  rw [token_cons_shape k, token_cons_shape j] at hp
  rw [show ('_' :: '_' :: 'P' :: 'H' :: (natDigits j ++ ['_', '_'])) ++ B =
    '_' :: '_' :: 'P' :: 'H' :: ((natDigits j ++ ['_', '_']) ++ B) by simp] at hp
  have hp2 := (List.cons_prefix_cons.mp hp).2
  have hp3 := (List.cons_prefix_cons.mp hp2).2
  have hp4 := (List.cons_prefix_cons.mp hp3).2
  have hp5 := (List.cons_prefix_cons.mp hp4).2
  exact digitsRun_never_starts (natDigits k) (natDigits j)
    (natDigits_all_digit k) (natDigits_all_digit j)
    (fun h2 => hjk (natDigits_injective h2).symm) B hp5

theorem RUnitsOK_cons {v : RUnit} {vs : List RUnit} (h : RUnitsOK (v :: vs)) :
    ((∀ c, v = .rlit c → safeLit c = true) ∧
     (∀ s, v = .rorig s → OrigSafe s) ∧
     (∀ s, v = .rdorig s → OrigSafe s)) ∧ RUnitsOK vs :=
  ⟨h v (by simp), fun w hw => h w (by simp [hw])⟩

/-- No digit run can start at a unit boundary. -/
theorem no_digit_start (ds : Str) (hne : ¬ ds = [])
    (hdig : ∀ c ∈ ds, c.isDigit = true) (tail : Str) :
    ∀ vs : List RUnit, RUnitsOK vs → ¬ (ds ++ tail) <+: renderRUnits vs := by
  obtain ⟨d, ds2, rfl⟩ : ∃ d t, ds = d :: t := by
    cases ds with
    | nil => exact absurd rfl hne
    | cons d t => exact ⟨d, t, rfl⟩
  have hd : d.isDigit = true := hdig d (by simp)
  intro vs hOK hp
  rw [show ((d :: ds2) ++ tail) = d :: (ds2 ++ tail) by simp] at hp
  -- the first character of the rendered units exists and is not a digit
  have hhead : ∃ c t2, renderRUnits vs = c :: t2 ∧ ¬ c.isDigit = true := by
    cases vs with
    | nil =>
      exfalso
      have := List.IsPrefix.length_le hp
      simp [renderRUnits] at this
    | cons v rest =>
      obtain ⟨hv, -⟩ := RUnitsOK_cons hOK
      rw [renderRUnits_cons]
      cases v with
      | rlit c =>
        exact ⟨c, renderRUnits rest, by simp [renderRUnit],
          (safeLit_facts (hv.1 c rfl)).2.2.2.2.2⟩
      | rtok i =>
        refine ⟨'_', ('_' :: 'P' :: 'H' :: (natDigits i ++ ['_', '_'])) ++
          renderRUnits rest, ?_, by decide⟩
        rw [show renderRUnit (RUnit.rtok i) = token i from rfl,
          token_cons_shape i]
        simp
      | rdtok i =>
        exact ⟨'$', token i ++ renderRUnits rest, by simp [renderRUnit],
          by decide⟩
      | rorig s =>
        obtain ⟨⟨c, t, rfl, hc⟩, -⟩ := hv.2.1 s rfl
        refine ⟨c, t ++ renderRUnits rest, by simp [renderRUnit], ?_⟩
        rcases hc with rfl | rfl | rfl <;> decide
      | rdorig s =>
        exact ⟨'$', s ++ renderRUnits rest, by simp [renderRUnit], by decide⟩
  obtain ⟨c, t2, he, hc⟩ := hhead
  rw [he] at hp
  have h1 := (List.cons_prefix_cons.mp hp).1
  rw [h1] at hd
  exact hc hd

/-- `H<digits>__` never starts at a unit boundary. -/
theorem no_H_start (ds : Str) (hne : ¬ ds = [])
    (hdig : ∀ c ∈ ds, c.isDigit = true) (tail : Str) :
    ∀ vs : List RUnit, RUnitsOK vs → ¬ (('H' :: ds) ++ tail) <+: renderRUnits vs := by
  intro vs hOK hp
  rw [show (('H' :: ds) ++ tail) = 'H' :: (ds ++ tail) by simp] at hp
  cases vs with
  | nil =>
    have := List.IsPrefix.length_le hp
    simp [renderRUnits] at this
  | cons v rest =>
    obtain ⟨hv, hrest⟩ := RUnitsOK_cons hOK
    rw [renderRUnits_cons] at hp
    cases v with
    | rlit c =>
      rw [show renderRUnit (RUnit.rlit c) ++ renderRUnits rest =
        c :: renderRUnits rest from rfl] at hp
      obtain ⟨h1, h2⟩ := List.cons_prefix_cons.mp hp
      exact no_digit_start ds hne hdig tail rest hrest h2
    | rtok i =>
      rw [show renderRUnit (RUnit.rtok i) = token i from rfl,
        token_cons_shape i] at hp
      simp only [List.cons_append] at hp
      exact absurd (List.cons_prefix_cons.mp hp).1 (by decide)
    | rdtok i =>
      rw [show renderRUnit (RUnit.rdtok i) ++ renderRUnits rest =
        '$' :: (token i ++ renderRUnits rest) from rfl] at hp
      exact absurd (List.cons_prefix_cons.mp hp).1 (by decide)
    | rorig s =>
      obtain ⟨⟨c, t, rfl, hc⟩, -⟩ := hv.2.1 s rfl
      rw [show renderRUnit (RUnit.rorig (c :: t)) ++ renderRUnits rest =
        c :: (t ++ renderRUnits rest) by simp [renderRUnit]] at hp
      have h1 := (List.cons_prefix_cons.mp hp).1
      rcases hc with rfl | rfl | rfl <;> simp at h1
    | rdorig s =>
      rw [show renderRUnit (RUnit.rdorig s) ++ renderRUnits rest =
        '$' :: (s ++ renderRUnits rest) by simp [renderRUnit]] at hp
      exact absurd (List.cons_prefix_cons.mp hp).1 (by decide)

/-- `PH<digits>__` never starts at a unit boundary. -/
theorem no_PH_start (ds : Str) (hne : ¬ ds = [])
    (hdig : ∀ c ∈ ds, c.isDigit = true) (tail : Str) :
    ∀ vs : List RUnit, RUnitsOK vs →
      ¬ (('P' :: 'H' :: ds) ++ tail) <+: renderRUnits vs := by
  intro vs hOK hp
  rw [show (('P' :: 'H' :: ds) ++ tail) = 'P' :: (('H' :: ds) ++ tail) by simp] at hp
  cases vs with
  | nil =>
    have := List.IsPrefix.length_le hp
    simp [renderRUnits] at this
  | cons v rest =>
    obtain ⟨hv, hrest⟩ := RUnitsOK_cons hOK
    rw [renderRUnits_cons] at hp
    cases v with
    | rlit c =>
      rw [show renderRUnit (RUnit.rlit c) ++ renderRUnits rest =
        c :: renderRUnits rest from rfl] at hp
      obtain ⟨h1, h2⟩ := List.cons_prefix_cons.mp hp
      exact no_H_start ds hne hdig tail rest hrest h2
    | rtok i =>
      rw [show renderRUnit (RUnit.rtok i) = token i from rfl,
        token_cons_shape i] at hp
      simp only [List.cons_append] at hp
      exact absurd (List.cons_prefix_cons.mp hp).1 (by decide)
    | rdtok i =>
      rw [show renderRUnit (RUnit.rdtok i) ++ renderRUnits rest =
        '$' :: (token i ++ renderRUnits rest) from rfl] at hp
      exact absurd (List.cons_prefix_cons.mp hp).1 (by decide)
    | rorig s =>
      obtain ⟨⟨c, t, rfl, hc⟩, -⟩ := hv.2.1 s rfl
      rw [show renderRUnit (RUnit.rorig (c :: t)) ++ renderRUnits rest =
        c :: (t ++ renderRUnits rest) by simp [renderRUnit]] at hp
      have h1 := (List.cons_prefix_cons.mp hp).1
      rcases hc with rfl | rfl | rfl <;> simp at h1
    | rdorig s =>
      rw [show renderRUnit (RUnit.rdorig s) ++ renderRUnits rest =
        '$' :: (s ++ renderRUnits rest) by simp [renderRUnit]] at hp
      exact absurd (List.cons_prefix_cons.mp hp).1 (by decide)

/-- `_PH<digits>__` never starts at a unit boundary: only a token starts
with `_`, and its second character is `_`, not `P`. -/
theorem no_UPH_start (ds : Str) (tail : Str) :
    ∀ vs : List RUnit, RUnitsOK vs →
      ¬ (('_' :: 'P' :: 'H' :: ds) ++ tail) <+: renderRUnits vs := by
  intro vs hOK hp
  rw [show (('_' :: 'P' :: 'H' :: ds) ++ tail) =
    '_' :: ('P' :: (('H' :: ds) ++ tail)) by simp] at hp
  cases vs with
  | nil =>
    have := List.IsPrefix.length_le hp
    simp [renderRUnits] at this
  | cons v rest =>
    obtain ⟨hv, hrest⟩ := RUnitsOK_cons hOK
    rw [renderRUnits_cons] at hp
    cases v with
    | rlit c =>
      rw [show renderRUnit (RUnit.rlit c) ++ renderRUnits rest =
        c :: renderRUnits rest from rfl] at hp
      have h1 := (List.cons_prefix_cons.mp hp).1
      exact (safeLit_facts (hv.1 c rfl)).2.2.2.2.1 h1.symm
    | rtok i =>
      rw [show renderRUnit (RUnit.rtok i) = token i from rfl,
        token_cons_shape i] at hp
      simp only [List.cons_append] at hp
      have h2 := (List.cons_prefix_cons.mp hp).2
      exact absurd (List.cons_prefix_cons.mp h2).1 (by decide)
    | rdtok i =>
      rw [show renderRUnit (RUnit.rdtok i) ++ renderRUnits rest =
        '$' :: (token i ++ renderRUnits rest) from rfl] at hp
      exact absurd (List.cons_prefix_cons.mp hp).1 (by decide)
    | rorig s =>
      obtain ⟨⟨c, t, rfl, hc⟩, -⟩ := hv.2.1 s rfl
      rw [show renderRUnit (RUnit.rorig (c :: t)) ++ renderRUnits rest =
        c :: (t ++ renderRUnits rest) by simp [renderRUnit]] at hp
      have h1 := (List.cons_prefix_cons.mp hp).1
      rcases hc with rfl | rfl | rfl <;> simp at h1
    | rdorig s =>
      rw [show renderRUnit (RUnit.rdorig s) ++ renderRUnits rest =
        '$' :: (s ++ renderRUnits rest) by simp [renderRUnit]] at hp
      exact absurd (List.cons_prefix_cons.mp hp).1 (by decide)

/-! ### Stepping `replaceFirstLit` through the protected text -/

theorem digit_not_underscore {c : Char} (h : c.isDigit = true) : ¬ c = '_' := by
  intro heq
  subst heq
  exact absurd h (by decide)

theorem replaceFirstLit_cons_step (pat repl : Str) (c : Char) (cs : Str)
    (h : ¬ pat.isPrefixOf (c :: cs) = true) :
    replaceFirstLit pat repl (c :: cs) = c :: replaceFirstLit pat repl cs := by
  simp only [replaceFirstLit]
  rw [if_neg h]

/-- `replaceFirstLit` walks over an underscore-free chunk unchanged: every
token starts with `_`. -/
theorem replaceFirstLit_skip_chunk (k : Nat) (o : Str) (a : Str)
    (ha : ∀ c ∈ a, ¬ c = '_') (B : Str) :
    replaceFirstLit (token k) o (a ++ B) = a ++ replaceFirstLit (token k) o B := by
  induction a with
  | nil => simp
  | cons c a2 ih =>
    have hc : ¬ c = '_' := ha c (by simp)
    have hpre : ¬ (token k).isPrefixOf (c :: (a2 ++ B)) = true := by
      intro hpr
      rw [List.isPrefixOf_iff_prefix, token_cons_shape k] at hpr
      exact hc (List.cons_prefix_cons.mp hpr).1.symm
    rw [List.cons_append, replaceFirstLit_cons_step _ _ _ _ hpre,
      ih (fun d hd => ha d (by simp [hd]))]
    simp

theorem replaceFirstLit_hit (k : Nat) (o : Str) (B : Str) :
    replaceFirstLit (token k) o (token k ++ B) = o ++ B := by
  rw [replaceFirstLit_eq, if_pos (by
    rw [List.isPrefixOf_iff_prefix]
    exact List.prefix_append _ _), List.drop_left]

theorem replaceFirstLit_dollar (k : Nat) (o : Str) (B : Str) :
    replaceFirstLit (token k) o ('$' :: B) = '$' :: replaceFirstLit (token k) o B := by
  have hpre : ¬ (token k).isPrefixOf ('$' :: B) = true := by
    intro hpr
    rw [List.isPrefixOf_iff_prefix, token_cons_shape k] at hpr
    exact absurd (List.cons_prefix_cons.mp hpr).1 (by decide)
  rw [replaceFirstLit_eq, if_neg hpre]

/-- `replaceFirstLit` for token `k` walks over a different token `j`
untouched, provided the text after `j` cannot complete a spurious
occurrence of `k`'s token across the boundary. -/
theorem replaceFirstLit_skip_token (j k : Nat) (hjk : ¬ j = k) (o : Str) (B : Str)
    (hB1 : ¬ (('P' :: 'H' :: natDigits k) ++ ['_', '_']) <+: B)
    (hB2 : ¬ (('_' :: 'P' :: 'H' :: natDigits k) ++ ['_', '_']) <+: B) :
    replaceFirstLit (token k) o (token j ++ B) =
      token j ++ replaceFirstLit (token k) o B := by
  have heq : token j ++ B =
      '_' :: '_' :: 'P' :: 'H' :: ((natDigits j ++ ['_', '_']) ++ B) := by
    rw [token_cons_shape j]
    simp
  have hpre0 : ¬ (token k).isPrefixOf
      ('_' :: '_' :: 'P' :: 'H' :: ((natDigits j ++ ['_', '_']) ++ B)) = true := by
    intro hpr
    rw [List.isPrefixOf_iff_prefix, ← heq] at hpr
    exact token_never_starts hjk B hpr
  have hpre1 : ¬ (token k).isPrefixOf
      ('_' :: 'P' :: 'H' :: ((natDigits j ++ ['_', '_']) ++ B)) = true := by
    intro hpr
    rw [List.isPrefixOf_iff_prefix, token_cons_shape k] at hpr
    have h2 := (List.cons_prefix_cons.mp hpr).2
    exact absurd (List.cons_prefix_cons.mp h2).1 (by decide)
  have hpre4 : ¬ (token k).isPrefixOf ('_' :: '_' :: B) = true := by
    intro hpr
    rw [List.isPrefixOf_iff_prefix, token_cons_shape k] at hpr
    have h2 := (List.cons_prefix_cons.mp hpr).2
    have h3 := (List.cons_prefix_cons.mp h2).2
    refine hB1 ?_
    rw [show (('P' :: 'H' :: natDigits k) ++ ['_', '_']) =
      'P' :: 'H' :: (natDigits k ++ ['_', '_']) by simp]
    exact h3
  have hpre5 : ¬ (token k).isPrefixOf ('_' :: B) = true := by
    intro hpr
    rw [List.isPrefixOf_iff_prefix, token_cons_shape k] at hpr
    have h2 := (List.cons_prefix_cons.mp hpr).2
    refine hB2 ?_
    rw [show (('_' :: 'P' :: 'H' :: natDigits k) ++ ['_', '_']) =
      '_' :: 'P' :: 'H' :: (natDigits k ++ ['_', '_']) by simp]
    exact h2
  rw [heq, replaceFirstLit_cons_step _ _ _ _ hpre0,
    replaceFirstLit_cons_step _ _ _ _ hpre1]
  rw [show ('P' :: 'H' :: ((natDigits j ++ ['_', '_']) ++ B)) =
    ('P' :: 'H' :: natDigits j) ++ ('_' :: '_' :: B) by simp]
  rw [replaceFirstLit_skip_chunk k o ('P' :: 'H' :: natDigits j) ?hfree ('_' :: '_' :: B)]
  case hfree =>
    intro c hc
    rcases List.mem_cons.mp hc with rfl | hc
    · decide
    rcases List.mem_cons.mp hc with rfl | hc
    · decide
    · exact digit_not_underscore (natDigits_all_digit j c hc)
  rw [replaceFirstLit_cons_step _ _ _ _ hpre4, replaceFirstLit_cons_step _ _ _ _ hpre5]
  rw [token_cons_shape j]
  simp

theorem rIndices_rlit (c : Char) (r : List RUnit) :
    rIndices (.rlit c :: r) = rIndices r := rfl
theorem rIndices_rtok (i : Nat) (r : List RUnit) :
    rIndices (.rtok i :: r) = i :: rIndices r := rfl
theorem rIndices_rdtok (i : Nat) (r : List RUnit) :
    rIndices (.rdtok i :: r) = i :: rIndices r := rfl
theorem rIndices_rorig (s : Str) (r : List RUnit) :
    rIndices (.rorig s :: r) = rIndices r := rfl
theorem rIndices_rdorig (s : Str) (r : List RUnit) :
    rIndices (.rdorig s :: r) = rIndices r := rfl

theorem replaceUnits_not_mem (k : Nat) (o : Str) :
    ∀ vs : List RUnit, ¬ k ∈ rIndices vs → vs.map (ruSub k o) = vs := by
  intro vs
  induction vs with
  | nil => intro _; rfl
  | cons v rest ih =>
    intro hmem
    cases v with
    | rlit c => rw [List.map_cons, ih (by simpa [rIndices_rlit] using hmem)]; rfl
    | rtok i =>
      rw [rIndices_rtok] at hmem
      rw [List.map_cons, ih (fun h2 => hmem (by simp [h2]))]
      have hik : ¬ i = k := fun h2 => hmem (by simp [h2])
      simp [ruSub, hik]
    | rdtok i =>
      rw [rIndices_rdtok] at hmem
      rw [List.map_cons, ih (fun h2 => hmem (by simp [h2]))]
      have hik : ¬ i = k := fun h2 => hmem (by simp [h2])
      simp [ruSub, hik]
    | rorig s => rw [List.map_cons, ih (by simpa [rIndices_rorig] using hmem)]; rfl
    | rdorig s => rw [List.map_cons, ih (by simpa [rIndices_rdorig] using hmem)]; rfl

/-- The heart of the restore proof: one `replaceFirstLit` call for token `k`
replaces exactly that token's (unique) unit and nothing else. -/
theorem replaceFirstLit_units (k : Nat) (o : Str) :
    ∀ vs : List RUnit, RUnitsOK vs → (rIndices vs).count k = 1 →
      replaceFirstLit (token k) o (renderRUnits vs) =
        renderRUnits (vs.map (ruSub k o)) := by
  intro vs
  induction vs with
  | nil =>
    intro _ hcount
    simp [rIndices] at hcount
  | cons v rest ih =>
    intro hOK hcount
    obtain ⟨hv, hrest⟩ := RUnitsOK_cons hOK
    rw [renderRUnits_cons, List.map_cons, renderRUnits_cons]
    cases v with
    | rlit c =>
      have hc := safeLit_facts (hv.1 c rfl)
      rw [show renderRUnit (RUnit.rlit c) = [c] from rfl,
        replaceFirstLit_skip_chunk k o [c]
          (fun d hd => by rw [List.mem_singleton.mp hd]; exact hc.2.2.2.2.1) _,
        ih hrest (by simpa [rIndices_rlit] using hcount)]
      rfl
    | rtok i =>
      rw [rIndices_rtok, List.count_cons] at hcount
      by_cases hik : i = k
      · subst hik
        have hzero : (rIndices rest).count i = 0 := by simpa using hcount
        have hnm : ¬ i ∈ rIndices rest := List.count_eq_zero.mp hzero
        rw [show renderRUnit (RUnit.rtok i) = token i from rfl,
          replaceFirstLit_hit i o _, replaceUnits_not_mem i o rest hnm]
        simp [ruSub, renderRUnit]
      · have hcount2 : (rIndices rest).count k = 1 := by
          simpa [hik] using hcount
        rw [show renderRUnit (RUnit.rtok i) = token i from rfl,
          replaceFirstLit_skip_token i k hik o _
            (no_PH_start (natDigits k) (natDigits_ne_nil k)
              (natDigits_all_digit k) ['_', '_'] rest hrest)
            (no_UPH_start (natDigits k) ['_', '_'] rest hrest),
          ih hrest hcount2]
        simp [ruSub, renderRUnit, hik]
    | rdtok i =>
      rw [rIndices_rdtok, List.count_cons] at hcount
      rw [show renderRUnit (RUnit.rdtok i) ++ renderRUnits rest =
        '$' :: (token i ++ renderRUnits rest) from rfl,
        replaceFirstLit_dollar k o _]
      by_cases hik : i = k
      · subst hik
        have hzero : (rIndices rest).count i = 0 := by simpa using hcount
        have hnm : ¬ i ∈ rIndices rest := List.count_eq_zero.mp hzero
        rw [replaceFirstLit_hit i o _, replaceUnits_not_mem i o rest hnm]
        simp [ruSub, renderRUnit]
      · have hcount2 : (rIndices rest).count k = 1 := by
          simpa [hik] using hcount
        rw [replaceFirstLit_skip_token i k hik o _
            (no_PH_start (natDigits k) (natDigits_ne_nil k)
              (natDigits_all_digit k) ['_', '_'] rest hrest)
            (no_UPH_start (natDigits k) ['_', '_'] rest hrest),
          ih hrest hcount2]
        simp [ruSub, hik, renderRUnit]
    | rorig s =>
      obtain ⟨-, hfree, -⟩ := hv.2.1 s rfl
      rw [show renderRUnit (RUnit.rorig s) = s from rfl,
        replaceFirstLit_skip_chunk k o s hfree _,
        ih hrest (by simpa [rIndices_rorig] using hcount)]
      rfl
    | rdorig s =>
      obtain ⟨-, hfree, -⟩ := hv.2.2 s rfl
      rw [show renderRUnit (RUnit.rdorig s) ++ renderRUnits rest =
        '$' :: (s ++ renderRUnits rest) from rfl,
        replaceFirstLit_dollar k o _,
        replaceFirstLit_skip_chunk k o s hfree _,
        ih hrest (by simpa [rIndices_rdorig] using hcount)]
      rfl

theorem rIndices_map_ruSub (k : Nat) (o : Str) :
    ∀ vs : List RUnit, rIndices (vs.map (ruSub k o)) =
      (rIndices vs).filter (fun i => !(i == k)) := by
  intro vs
  induction vs with
  | nil => rfl
  | cons v rest ih =>
    cases v with
    | rlit c =>
      rw [List.map_cons, show ruSub k o (RUnit.rlit c) = RUnit.rlit c from rfl,
        rIndices_rlit, rIndices_rlit, ih]
    | rtok i =>
      by_cases hik : i = k
      · subst hik
        rw [List.map_cons, show ruSub i o (RUnit.rtok i) = RUnit.rorig o by
          simp [ruSub], rIndices_rorig, rIndices_rtok, ih]
        simp
      · rw [List.map_cons, show ruSub k o (RUnit.rtok i) = RUnit.rtok i by
          simp [ruSub, hik], rIndices_rtok, rIndices_rtok, ih]
        simp [hik]
    | rdtok i =>
      by_cases hik : i = k
      · subst hik
        rw [List.map_cons, show ruSub i o (RUnit.rdtok i) = RUnit.rdorig o by
          simp [ruSub], rIndices_rdorig, rIndices_rdtok, ih]
        simp
      · rw [List.map_cons, show ruSub k o (RUnit.rdtok i) = RUnit.rdtok i by
          simp [ruSub, hik], rIndices_rdtok, rIndices_rdtok, ih]
        simp [hik]
    | rorig s =>
      rw [List.map_cons, show ruSub k o (RUnit.rorig s) = RUnit.rorig s from rfl,
        rIndices_rorig, rIndices_rorig, ih]
    | rdorig s =>
      rw [List.map_cons, show ruSub k o (RUnit.rdorig s) = RUnit.rdorig s from rfl,
        rIndices_rdorig, rIndices_rdorig, ih]

theorem count_filter_ne (k q : Nat) (hqk : ¬ q = k) :
    ∀ l : List Nat, (l.filter (fun i => !(i == k))).count q = l.count q := by
  intro l
  induction l with
  | nil => rfl
  | cons a l ih =>
    by_cases hak : a = k
    · subst hak
      have haq : ¬ a = q := fun h2 => hqk h2.symm
      rw [List.filter_cons, if_neg (by simp), ih]
      simp [List.count_cons, haq, hqk]
    · rw [List.filter_cons, if_pos (by simp [hak]), List.count_cons,
        List.count_cons, ih]

theorem RUnitsOK_map_ruSub (k : Nat) (o : Str) (ho : OrigSafe o)
    (vs : List RUnit) (h : RUnitsOK vs) : RUnitsOK (vs.map (ruSub k o)) := by
  intro v hv
  rw [List.mem_map] at hv
  obtain ⟨w, hw, rfl⟩ := hv
  obtain ⟨hw1, hw2, hw3⟩ := h w hw
  cases w with
  | rlit c =>
    exact ⟨(fun d hd => by cases hd; exact hw1 _ rfl),
      (fun s hs => by cases hs), (fun s hs => by cases hs)⟩
  | rtok i =>
    by_cases hik : i = k
    · subst hik
      refine ⟨(fun d hd => by simp [ruSub] at hd),
        (fun s hs => ?_), (fun s hs => by simp [ruSub] at hs)⟩
      have hs2 : o = s := by simpa [ruSub] using hs
      rw [← hs2]
      exact ho
    · exact ⟨(fun d hd => by simp [ruSub, hik] at hd),
        (fun s hs => by simp [ruSub, hik] at hs),
        (fun s hs => by simp [ruSub, hik] at hs)⟩
  | rdtok i =>
    by_cases hik : i = k
    · subst hik
      refine ⟨(fun d hd => by simp [ruSub] at hd),
        (fun s hs => by simp [ruSub] at hs), (fun s hs => ?_)⟩
      have hs2 : o = s := by simpa [ruSub] using hs
      rw [← hs2]
      exact ho
    · exact ⟨(fun d hd => by simp [ruSub, hik] at hd),
        (fun s hs => by simp [ruSub, hik] at hs),
        (fun s hs => by simp [ruSub, hik] at hs)⟩
  | rorig s =>
    exact ⟨(fun d hd => by cases hd), (fun s2 hs => by cases hs; exact hw2 _ rfl),
      (fun s2 hs => by cases hs)⟩
  | rdorig s =>
    exact ⟨(fun d hd => by cases hd), (fun s2 hs => by cases hs),
      (fun s2 hs => by cases hs; exact hw3 _ rfl)⟩

/-- The full restore fold acts unit-wise when each pending pair's token
occurs exactly once and the pair indices are distinct. -/
theorem restore_fold (pairs : List (Nat × Str)) :
    ∀ vs : List RUnit, RUnitsOK vs →
      (∀ p ∈ pairs, OrigSafe p.2) →
      (∀ p ∈ pairs, (rIndices vs).count p.1 = 1) →
      (pairs.map Prod.fst).Nodup →
      restorePlaceholders (renderRUnits vs)
          (pairs.map (fun p => (token p.1, p.2))) =
        renderRUnits (pairs.foldl (fun acc p => acc.map (ruSub p.1 p.2)) vs) := by
  induction pairs with
  | nil => intro vs _ _ _ _; rfl
  | cons p ps ih =>
    intro vs hOK hsafe hcount hnodup
    rw [List.map_cons] at hnodup
    obtain ⟨hp1, hps⟩ := List.nodup_cons.mp hnodup
    have hstep : restorePlaceholders (renderRUnits vs)
        (((p :: ps).map (fun q => (token q.1, q.2)))) =
        restorePlaceholders (replaceFirst (token p.1) p.2 (renderRUnits vs))
          (ps.map (fun q => (token q.1, q.2))) := by
      simp [restorePlaceholders]
    have hbridge : replaceFirst (token p.1) p.2 (renderRUnits vs) =
        replaceFirstLit (token p.1) p.2 (renderRUnits vs) :=
      replaceFirst_lit_of_safe _ _ (hsafe p (by simp)).2.2 _
    rw [hstep, hbridge,
      replaceFirstLit_units p.1 p.2 vs hOK (hcount p (by simp)),
      List.foldl_cons]
    refine ih (vs.map (ruSub p.1 p.2))
      (RUnitsOK_map_ruSub p.1 p.2 (hsafe p (by simp)) vs hOK)
      (fun q hq => hsafe q (by simp [hq]))
      (fun q hq => ?_)
      hps
    rw [rIndices_map_ruSub p.1 p.2 vs]
    have hqp : ¬ q.1 = p.1 := by
      intro h2
      exact hp1 (by rw [← h2]; exact List.mem_map.mpr ⟨q, hq, rfl⟩)
    rw [count_filter_ne p.1 q.1 hqp]
    exact hcount q (by simp [hq])

/-! ### Shape of the minted pairs -/

/-- The pass-`p` pairs with their numeric indices kept. -/
def passPairsN (p : Nat) : List TUnit → Nat → List (Nat × Str)
  | [], _ => []
  | .uraw s :: rest, idx =>
    if classOf s = p then (idx, hitText s) :: passPairsN p rest (idx + 1)
    else passPairsN p rest idx
  | _ :: rest, idx => passPairsN p rest idx

theorem passPairsN_cons_other (p : Nat) (u : TUnit) (rest : List TUnit)
    (idx : Nat) (h : ∀ s, ¬ u = .uraw s) :
    passPairsN p (u :: rest) idx = passPairsN p rest idx := by
  cases u with
  | ulit c => rfl
  | utok i => rfl
  | udtok i => rfl
  | uraw s => exact absurd rfl (h s)

theorem passPairsN_raw (p : Nat) (s : Seg) (rest : List TUnit) (idx : Nat) :
    passPairsN p (.uraw s :: rest) idx =
      if classOf s = p then (idx, hitText s) :: passPairsN p rest (idx + 1)
      else passPairsN p rest idx := rfl

/-- The recorded pair list is the numeric pair list with tokens rendered. -/
theorem passUnits_pairs_eq (p : Nat) :
    ∀ (us : List TUnit) (idx : Nat),
      (passUnits p us idx).2.1 =
        (passPairsN p us idx).map (fun q => (token q.1, q.2)) := by
  intro us
  induction us with
  | nil => intro idx; rfl
  | cons u rest ih =>
    intro idx
    cases u with
    | ulit c =>
      rw [passUnits_cons_other p _ rest idx (by simp),
        passPairsN_cons_other p _ rest idx (by simp)]
      exact ih idx
    | utok i =>
      rw [passUnits_cons_other p _ rest idx (by simp),
        passPairsN_cons_other p _ rest idx (by simp)]
      exact ih idx
    | udtok i =>
      rw [passUnits_cons_other p _ rest idx (by simp),
        passPairsN_cons_other p _ rest idx (by simp)]
      exact ih idx
    | uraw s =>
      by_cases hcp : classOf s = p
      · rw [passPairsN_raw, if_pos hcp]
        cases s with
        | lit c =>
          rw [passUnits_raw_hit p _ rest idx hcp (fun k h2 => Seg.noConfusion h2)]
          rw [List.map_cons, ih (idx + 1)]
        | ph1 n =>
          rw [passUnits_raw_hit p _ rest idx hcp (fun k h2 => Seg.noConfusion h2)]
          rw [List.map_cons, ih (idx + 1)]
        | ph2 n =>
          rw [passUnits_raw_hit p _ rest idx hcp (fun k h2 => Seg.noConfusion h2)]
          rw [List.map_cons, ih (idx + 1)]
        | ph3 d f =>
          rw [passUnits_raw_hit p _ rest idx hcp (fun k h2 => Seg.noConfusion h2)]
          rw [List.map_cons, ih (idx + 1)]
        | ph4 f =>
          rw [passUnits_raw_hit p _ rest idx hcp (fun k h2 => Seg.noConfusion h2)]
          rw [List.map_cons, ih (idx + 1)]
        | ph5 n =>
          rw [passUnits_raw_hit5 p _ rest idx hcp]
          rw [List.map_cons, ih (idx + 1)]
        | ph6 a =>
          rw [passUnits_raw_hit p _ rest idx hcp (fun k h2 => Seg.noConfusion h2)]
          rw [List.map_cons, ih (idx + 1)]
      · rw [passUnits_raw_miss p s rest idx hcp, passPairsN_raw, if_neg hcp]
        exact ih idx

/-- Pass-`p` pair keys are consecutive from the starting counter, and the
final counter is the start plus the number of pairs. -/
theorem passPairsN_keys (p : Nat) :
    ∀ (us : List TUnit) (idx : Nat),
      (passPairsN p us idx).map Prod.fst =
        List.range' idx (passPairsN p us idx).length ∧
      (passUnits p us idx).2.2 = idx + (passPairsN p us idx).length := by
  intro us
  induction us with
  | nil => intro idx; exact ⟨rfl, rfl⟩
  | cons u rest ih =>
    intro idx
    cases u with
    | ulit c =>
      rw [passUnits_cons_other p _ rest idx (by simp),
        passPairsN_cons_other p _ rest idx (by simp)]
      exact ih idx
    | utok i =>
      rw [passUnits_cons_other p _ rest idx (by simp),
        passPairsN_cons_other p _ rest idx (by simp)]
      exact ih idx
    | udtok i =>
      rw [passUnits_cons_other p _ rest idx (by simp),
        passPairsN_cons_other p _ rest idx (by simp)]
      exact ih idx
    | uraw s =>
      by_cases hcp : classOf s = p
      · have hpu : (passUnits p (.uraw s :: rest) idx).2.2 =
            (passUnits p rest (idx + 1)).2.2 := by
          cases s with
          | lit c =>
            rw [passUnits_raw_hit p _ rest idx hcp
              (fun k h2 => Seg.noConfusion h2)]
          | ph1 n =>
            rw [passUnits_raw_hit p _ rest idx hcp
              (fun k h2 => Seg.noConfusion h2)]
          | ph2 n =>
            rw [passUnits_raw_hit p _ rest idx hcp
              (fun k h2 => Seg.noConfusion h2)]
          | ph3 d f =>
            rw [passUnits_raw_hit p _ rest idx hcp
              (fun k h2 => Seg.noConfusion h2)]
          | ph4 f =>
            rw [passUnits_raw_hit p _ rest idx hcp
              (fun k h2 => Seg.noConfusion h2)]
          | ph5 n => rw [passUnits_raw_hit5 p _ rest idx hcp]
          | ph6 a =>
            rw [passUnits_raw_hit p _ rest idx hcp
              (fun k h2 => Seg.noConfusion h2)]
        rw [passPairsN_raw, if_pos hcp, hpu]
        obtain ⟨ihk, ihc⟩ := ih (idx + 1)
        refine ⟨?_, ?_⟩
        · rw [List.map_cons, ihk, List.length_cons, List.range'_succ]
        · rw [ihc, List.length_cons]
          omega
      · have hpu : (passUnits p (.uraw s :: rest) idx).2.2 =
            (passUnits p rest idx).2.2 := by
          rw [passUnits_raw_miss p s rest idx hcp]
        rw [passPairsN_raw, if_neg hcp, hpu]
        exact ih idx

/-- Token indices sitting in a unit list, in text order. -/
def tIndices : List TUnit → List Nat
  | [] => []
  | .utok i :: r => i :: tIndices r
  | .udtok i :: r => i :: tIndices r
  | _ :: r => tIndices r

theorem tIndices_toR : ∀ us : List TUnit, rIndices (us.map toR) = tIndices us := by
  intro us
  induction us with
  | nil => rfl
  | cons u rest ih =>
    cases u with
    | ulit c => rw [List.map_cons]; exact ih
    | utok i =>
      rw [List.map_cons, show toR (TUnit.utok i) = RUnit.rtok i from rfl,
        rIndices_rtok, show tIndices (TUnit.utok i :: rest) = i :: tIndices rest
          from rfl, ih]
    | udtok i =>
      rw [List.map_cons, show toR (TUnit.udtok i) = RUnit.rdtok i from rfl,
        rIndices_rdtok, show tIndices (TUnit.udtok i :: rest) = i :: tIndices rest
          from rfl, ih]
    | uraw s => rw [List.map_cons]; exact ih

/-- Each pass adds exactly its minted indices to the unit list. -/
theorem tIndices_passUnits (p : Nat) :
    ∀ (us : List TUnit) (idx j : Nat),
      (tIndices (passUnits p us idx).1).count j =
        (tIndices us).count j +
          ((passPairsN p us idx).map Prod.fst).count j := by
  intro us
  induction us with
  | nil => intro idx j; simp [passUnits_nil, passPairsN, tIndices]
  | cons u rest ih =>
    intro idx j
    cases u with
    | ulit c =>
      rw [passUnits_cons_other p _ rest idx (by simp),
        passPairsN_cons_other p _ rest idx (by simp)]
      rw [show tIndices (TUnit.ulit c :: (passUnits p rest idx).1) =
        tIndices (passUnits p rest idx).1 from rfl]
      exact ih idx j
    | utok i =>
      rw [passUnits_cons_other p _ rest idx (by simp),
        passPairsN_cons_other p _ rest idx (by simp)]
      rw [show tIndices (TUnit.utok i :: (passUnits p rest idx).1) =
        i :: tIndices (passUnits p rest idx).1 from rfl,
        show tIndices (TUnit.utok i :: rest) = i :: tIndices rest from rfl,
        List.count_cons, List.count_cons, ih idx j]
      omega
    | udtok i =>
      rw [passUnits_cons_other p _ rest idx (by simp),
        passPairsN_cons_other p _ rest idx (by simp)]
      rw [show tIndices (TUnit.udtok i :: (passUnits p rest idx).1) =
        i :: tIndices (passUnits p rest idx).1 from rfl,
        show tIndices (TUnit.udtok i :: rest) = i :: tIndices rest from rfl,
        List.count_cons, List.count_cons, ih idx j]
      omega
    | uraw s =>
      by_cases hcp : classOf s = p
      · have hshape : tIndices (passUnits p (.uraw s :: rest) idx).1 =
            idx :: tIndices (passUnits p rest (idx + 1)).1 := by
          cases s with
          | lit c =>
            rw [passUnits_raw_hit p _ rest idx hcp
              (fun k h2 => Seg.noConfusion h2)]
            rfl
          | ph1 n =>
            rw [passUnits_raw_hit p _ rest idx hcp
              (fun k h2 => Seg.noConfusion h2)]
            rfl
          | ph2 n =>
            rw [passUnits_raw_hit p _ rest idx hcp
              (fun k h2 => Seg.noConfusion h2)]
            rfl
          | ph3 d f =>
            rw [passUnits_raw_hit p _ rest idx hcp
              (fun k h2 => Seg.noConfusion h2)]
            rfl
          | ph4 f =>
            rw [passUnits_raw_hit p _ rest idx hcp
              (fun k h2 => Seg.noConfusion h2)]
            rfl
          | ph5 n =>
            rw [passUnits_raw_hit5 p _ rest idx hcp]
            rfl
          | ph6 a =>
            rw [passUnits_raw_hit p _ rest idx hcp
              (fun k h2 => Seg.noConfusion h2)]
            rfl
        rw [hshape, passPairsN_raw, if_pos hcp,
          show tIndices (TUnit.uraw s :: rest) = tIndices rest from rfl,
          List.count_cons, List.map_cons,
          show Prod.fst ((idx, hitText s) : Nat × Str) = idx from rfl,
          List.count_cons, ih (idx + 1) j]
        omega
      · rw [passUnits_raw_miss p s rest idx hcp, passPairsN_raw, if_neg hcp,
          show tIndices (TUnit.uraw s :: (passUnits p rest idx).1) =
            tIndices (passUnits p rest idx).1 from rfl,
          show tIndices (TUnit.uraw s :: rest) = tIndices rest from rfl]
        exact ih idx j

/-- Initially there are no tokens. -/
theorem tIndices_init (segs : List Seg) : tIndices (initUnits segs) = [] := by
  induction segs with
  | nil => rfl
  | cons s rest ih =>
    cases s with
    | lit c => exact ih
    | ph1 n => exact ih
    | ph2 n => exact ih
    | ph3 d f => exact ih
    | ph4 f => exact ih
    | ph5 n => exact ih
    | ph6 a => exact ih

theorem classOf_le_six (s : Seg) : classOf s ≤ 6 := by
  cases s <;> simp [classOf]

theorem braces_chars {n : Str} (h : nameWF n = true) :
    ∀ c ∈ (('{' :: n ++ ['}']) : Str), c = '{' ∨ c = '}' ∨ c.isAlphanum = true := by
  obtain ⟨nh, nt, rfl⟩ : ∃ c t, n = c :: t := by
    cases n with
    | nil => simp [nameWF] at h
    | cons c t => exact ⟨c, t, rfl⟩
  obtain ⟨hna, hnt⟩ : nh.isAlpha = true ∧ ∀ x ∈ nt, x.isAlphanum = true := by
    simpa [nameWF, List.all_eq_true] using h
  intro c hc
  simp only [List.append_eq, List.mem_cons, List.mem_append,
    List.not_mem_nil, or_false] at hc
  rcases hc with (rfl | rfl | hc) | rfl
  · exact Or.inl rfl
  · exact Or.inr (Or.inr (alpha_isAlphanum hna))
  · exact Or.inr (Or.inr (hnt c hc))
  · exact Or.inr (Or.inl rfl)

theorem ph1_chars {n : Str} (h : nameWF n = true) :
    ∀ c ∈ renderSeg (.ph1 n), c = '{' ∨ c = '}' ∨ c.isAlphanum = true := by
  obtain ⟨nh, nt, rfl⟩ : ∃ c t, n = c :: t := by
    cases n with
    | nil => simp [nameWF] at h
    | cons c t => exact ⟨c, t, rfl⟩
  obtain ⟨hna, hnt⟩ : nh.isAlpha = true ∧ ∀ x ∈ nt, x.isAlphanum = true := by
    simpa [nameWF, List.all_eq_true] using h
  intro c hc
  simp only [renderSeg, List.append_eq, List.mem_cons, List.mem_append,
    List.not_mem_nil, or_false] at hc
  rcases hc with (rfl | rfl | rfl | hc) | (rfl | rfl)
  · exact Or.inl rfl
  · exact Or.inl rfl
  · exact Or.inr (Or.inr (alpha_isAlphanum hna))
  · exact Or.inr (Or.inr (hnt c hc))
  · exact Or.inr (Or.inl rfl)
  · exact Or.inr (Or.inl rfl)

/-- A matched original always satisfies the safety conditions the restore
argument needs: it opens with a placeholder character, has no underscore,
and the JS `$`-expansion leaves it unchanged (its `$`s are followed by a
format character or `t`). -/
theorem hitText_OrigSafe (s : Seg) (hWF : segWF s = true)
    (h1 : 1 ≤ classOf s) : OrigSafe (hitText s) := by
  cases s with
  | lit c => simp [classOf] at h1
  | ph1 n =>
    have hn : nameWF n = true := by simpa [segWF] using hWF
    obtain ⟨nh, nt, rfl⟩ : ∃ c t, n = c :: t := by
      cases n with
      | nil => simp [nameWF] at hn
      | cons c t => exact ⟨c, t, rfl⟩
    have hnd : ∀ d ∈ hitText (.ph1 (nh :: nt)), ¬ d = '$' ∧ ¬ d = '_' := by
      intro d hd
      rcases ph1_chars hn d hd with rfl | rfl | ha
      · exact ⟨by decide, by decide⟩
      · exact ⟨by decide, by decide⟩
      · exact ⟨(alnum_not_special ha).2.2.2.1, (alnum_not_special ha).2.2.2.2⟩
    refine ⟨⟨'{', '{' :: nh :: (nt ++ ['}', '}']),
      by simp [hitText, renderSeg], Or.inl rfl⟩,
      (fun d hd => (hnd d hd).2), ?_⟩
    have := dollarSafeAux_chunk (hitText (.ph1 (nh :: nt)))
      (fun d hd => (hnd d hd).1) [] rfl
    simpa using this
  | ph2 n =>
    have hn : nameWF n = true := by simpa [segWF] using hWF
    obtain ⟨nh, nt, rfl⟩ : ∃ c t, n = c :: t := by
      cases n with
      | nil => simp [nameWF] at hn
      | cons c t => exact ⟨c, t, rfl⟩
    have hnd : ∀ d ∈ hitText (.ph2 (nh :: nt)), ¬ d = '$' ∧ ¬ d = '_' := by
      intro d hd
      rcases braces_chars hn d hd with rfl | rfl | ha
      · exact ⟨by decide, by decide⟩
      · exact ⟨by decide, by decide⟩
      · exact ⟨(alnum_not_special ha).2.2.2.1, (alnum_not_special ha).2.2.2.2⟩
    refine ⟨⟨'{', nh :: (nt ++ ['}']), by simp [hitText, renderSeg], Or.inl rfl⟩,
      (fun d hd => (hnd d hd).2), ?_⟩
    have := dollarSafeAux_chunk (hitText (.ph2 (nh :: nt)))
      (fun d hd => (hnd d hd).1) [] rfl
    simpa using this
  | ph3 ds f =>
    obtain ⟨⟨-, hdig⟩, hf⟩ :
        (¬ds = [] ∧ ∀ x ∈ ds, x.isDigit = true) ∧ isFormatChar f = true := by
      simpa [segWF, List.all_eq_true, List.isEmpty_iff] using hWF
    refine ⟨⟨'%', ds ++ ['$', f], by simp [hitText, renderSeg],
      Or.inr (Or.inl rfl)⟩, ?_, ?_⟩
    · intro d hd
      rw [show hitText (.ph3 ds f) = renderSeg (.ph3 ds f) from rfl] at hd
      rcases ph3_chars hWF d hd with rfl | hdd | rfl | hfd
      · decide
      · exact digit_not_underscore hdd
      · decide
      · exact (formatChar_not_special hfd).2.2.2.2.1
    · have hb : dollarSafeAux ['$', f] = true := by
        rcases formatChar_cases hf with rfl | rfl | rfl | rfl | rfl <;> decide
      have ha : ∀ d ∈ ('%' :: ds : Str), ¬ d = '$' := by
        intro d hd
        rcases List.mem_cons.mp hd with rfl | hd
        · decide
        · exact (alnum_not_special (digit_isAlphanum (hdig d hd))).2.2.2.1
      exact dollarSafeAux_chunk ('%' :: ds) ha ['$', f] hb
  | ph4 f =>
    have hf : isFormatChar f = true := by simpa [segWF] using hWF
    refine ⟨⟨'%', [f], by simp [hitText, renderSeg], Or.inr (Or.inl rfl)⟩,
      ?_, ?_⟩
    · intro d hd
      simp only [hitText, renderSeg, List.mem_cons, List.not_mem_nil,
        or_false] at hd
      rcases hd with rfl | rfl
      · decide
      · exact (formatChar_not_special hf).2.2.2.2.1
    · show dollarSafeAux ['%', f] = true
      rcases formatChar_cases hf with rfl | rfl | rfl | rfl | rfl <;> decide
  | ph5 n =>
    have hn : nameWF n = true := by simpa [segWF] using hWF
    obtain ⟨nh, nt, rfl⟩ : ∃ c t, n = c :: t := by
      cases n with
      | nil => simp [nameWF] at hn
      | cons c t => exact ⟨c, t, rfl⟩
    have hnd : ∀ d ∈ hitText (.ph5 (nh :: nt)), ¬ d = '$' ∧ ¬ d = '_' := by
      intro d hd
      rcases braces_chars hn d hd with rfl | rfl | ha
      · exact ⟨by decide, by decide⟩
      · exact ⟨by decide, by decide⟩
      · exact ⟨(alnum_not_special ha).2.2.2.1, (alnum_not_special ha).2.2.2.2⟩
    refine ⟨⟨'{', nh :: (nt ++ ['}']), by simp [hitText], Or.inl rfl⟩,
      (fun d hd => (hnd d hd).2), ?_⟩
    have := dollarSafeAux_chunk (hitText (.ph5 (nh :: nt)))
      (fun d hd => (hnd d hd).1) [] rfl
    simpa using this
  | ph6 a =>
    obtain ⟨-, hchars⟩ : ¬a = [] ∧ ∀ x ∈ a, argChar x = true := by
      simpa [segWF, Bool.and_eq_true, List.all_eq_true, List.isEmpty_iff]
        using hWF
    refine ⟨⟨'$', 't' :: '(' :: (a ++ [')']),
      by simp [hitText, renderSeg], Or.inr (Or.inr rfl)⟩, ?_, ?_⟩
    · intro d hd
      rw [show hitText (.ph6 a) = renderSeg (.ph6 a) from rfl] at hd
      rcases ph6_chars hWF d hd with rfl | rfl | rfl | rfl | ha
      · decide
      · decide
      · decide
      · decide
      · exact (argChar_facts ha).2.2.2.2.2
    · have htail : dollarSafeAux ('t' :: ('(' :: (a ++ [')']))) = true := by
        have ha2 : ∀ d ∈ ('t' :: '(' :: (a ++ [')']) : Str), ¬ d = '$' := by
          intro d hd
          rcases List.mem_cons.mp hd with rfl | hd
          · decide
          rcases List.mem_cons.mp hd with rfl | hd
          · decide
          rcases List.mem_append.mp hd with hd | hd
          · exact (argChar_facts (hchars d hd)).2.2.2.2.1
          · rcases List.mem_singleton.mp hd with rfl
            decide
        have := dollarSafeAux_chunk ('t' :: '(' :: (a ++ [')'])) ha2 [] rfl
        simpa using this
      have := dollarSafeAux_dollar_cons 't'
        ⟨by decide, by decide, by decide, by decide⟩ ('(' :: (a ++ [')'])) htail
      show dollarSafeAux ('$' :: 't' :: ('(' :: (a ++ [')']))) = true
      exact this

/-- Every pair a pass emits carries a safe original. -/
theorem passPairsN_safe (p : Nat) :
    ∀ (us : List TUnit) (idx : Nat), UnitsOK p us →
      ∀ q ∈ passPairsN p us idx, OrigSafe q.2 := by
  intro us
  induction us with
  | nil => intro idx _ q hq; simp [passPairsN] at hq
  | cons u rest ih =>
    intro idx hOK q hq
    obtain ⟨hu, hrest⟩ := UnitsOK_cons hOK
    cases u with
    | ulit c =>
      rw [passPairsN_cons_other p _ rest idx (by simp)] at hq
      exact ih idx hrest q hq
    | utok i =>
      rw [passPairsN_cons_other p _ rest idx (by simp)] at hq
      exact ih idx hrest q hq
    | udtok i =>
      rw [passPairsN_cons_other p _ rest idx (by simp)] at hq
      exact ih idx hrest q hq
    | uraw s =>
      obtain ⟨hWF, hple, h1le⟩ := hu.2 s rfl
      rw [passPairsN_raw] at hq
      by_cases hcp : classOf s = p
      · rw [if_pos hcp] at hq
        rcases List.mem_cons.mp hq with rfl | hq
        · exact hitText_OrigSafe s hWF h1le
        · exact ih (idx + 1) hrest q hq
      · rw [if_neg hcp] at hq
        exact ih idx hrest q hq

/-! ### Positional correspondence between units and source segments -/

/-- A unit still stands for the segment at the same position: literals
and raw segments verbatim, tokens through a lookup in the final pair
list. -/
def UnitMatches (F : List (Nat × Str)) : TUnit → Seg → Prop
  | .ulit c, .lit d => c = d
  | .ulit _, _ => False
  | .uraw s2, s3 => s2 = s3
  | .utok i, s3 =>
      F.lookup i = some (hitText s3) ∧ hitText s3 = renderSeg s3
  | .udtok i, .ph5 n => F.lookup i = some (hitText (.ph5 n))
  | .udtok _, _ => False

theorem initUnits_matches (F : List (Nat × Str)) (segs : List Seg) :
    List.Forall₂ (UnitMatches F) (initUnits segs) segs := by
  induction segs with
  | nil => exact List.Forall₂.nil
  | cons s rest ih =>
    refine List.Forall₂.cons ?_ ih
    cases s with
    | lit c => exact rfl
    | ph1 n => exact rfl
    | ph2 n => exact rfl
    | ph3 d f => exact rfl
    | ph4 f => exact rfl
    | ph5 n => exact rfl
    | ph6 a => exact rfl

/-- One pass preserves the correspondence, provided the final pair list
resolves every index this pass mints to the original it records. -/
theorem passUnits_matches (p : Nat) (F : List (Nat × Str)) :
    ∀ (us : List TUnit) (segs : List Seg) (idx : Nat),
      List.Forall₂ (UnitMatches F) us segs →
      (∀ q ∈ passPairsN p us idx, F.lookup q.1 = some q.2) →
      List.Forall₂ (UnitMatches F) (passUnits p us idx).1 segs := by
  intro us
  induction us with
  | nil =>
    intro segs idx hm _
    cases hm
    exact List.Forall₂.nil
  | cons u rest ih =>
    intro segs idx hm hlook
    cases hm with
    | cons hms hmr =>
      rename_i s segs2
      cases u with
      | ulit c =>
        rw [passUnits_cons_other p _ rest idx (by simp)]
        have hlr : ∀ q ∈ passPairsN p rest idx, F.lookup q.1 = some q.2 := by
          intro q hq
          refine hlook q ?_
          rw [passPairsN_cons_other p _ rest idx (by simp)]
          exact hq
        exact List.Forall₂.cons hms (ih segs2 idx hmr hlr)
      | utok i =>
        rw [passUnits_cons_other p _ rest idx (by simp)]
        have hlr : ∀ q ∈ passPairsN p rest idx, F.lookup q.1 = some q.2 := by
          intro q hq
          refine hlook q ?_
          rw [passPairsN_cons_other p _ rest idx (by simp)]
          exact hq
        exact List.Forall₂.cons hms (ih segs2 idx hmr hlr)
      | udtok i =>
        rw [passUnits_cons_other p _ rest idx (by simp)]
        have hlr : ∀ q ∈ passPairsN p rest idx, F.lookup q.1 = some q.2 := by
          intro q hq
          refine hlook q ?_
          rw [passPairsN_cons_other p _ rest idx (by simp)]
          exact hq
        exact List.Forall₂.cons hms (ih segs2 idx hmr hlr)
      | uraw s2 =>
        have hs23 : s2 = s := hms
        subst hs23
        by_cases hcp : classOf s2 = p
        · have hlook0 : F.lookup idx = some (hitText s2) := by
            have := hlook (idx, hitText s2) (by
              rw [passPairsN_raw, if_pos hcp]
              exact List.mem_cons_self _ _)
            simpa using this
          have hlookrest : ∀ q ∈ passPairsN p rest (idx + 1),
              F.lookup q.1 = some q.2 := by
            intro q hq
            refine hlook q ?_
            rw [passPairsN_raw, if_pos hcp]
            exact List.mem_cons_of_mem _ hq
          cases s2 with
          | lit c =>
            rw [passUnits_raw_hit p _ rest idx hcp
              (fun k h2 => Seg.noConfusion h2)]
            exact List.Forall₂.cons ⟨hlook0, rfl⟩
              (ih segs2 (idx + 1) hmr hlookrest)
          | ph1 n =>
            rw [passUnits_raw_hit p _ rest idx hcp
              (fun k h2 => Seg.noConfusion h2)]
            exact List.Forall₂.cons ⟨hlook0, rfl⟩
              (ih segs2 (idx + 1) hmr hlookrest)
          | ph2 n =>
            rw [passUnits_raw_hit p _ rest idx hcp
              (fun k h2 => Seg.noConfusion h2)]
            exact List.Forall₂.cons ⟨hlook0, rfl⟩
              (ih segs2 (idx + 1) hmr hlookrest)
          | ph3 d f =>
            rw [passUnits_raw_hit p _ rest idx hcp
              (fun k h2 => Seg.noConfusion h2)]
            exact List.Forall₂.cons ⟨hlook0, rfl⟩
              (ih segs2 (idx + 1) hmr hlookrest)
          | ph4 f =>
            rw [passUnits_raw_hit p _ rest idx hcp
              (fun k h2 => Seg.noConfusion h2)]
            exact List.Forall₂.cons ⟨hlook0, rfl⟩
              (ih segs2 (idx + 1) hmr hlookrest)
          | ph5 n =>
            rw [passUnits_raw_hit5 p _ rest idx hcp]
            exact List.Forall₂.cons hlook0 (ih segs2 (idx + 1) hmr hlookrest)
          | ph6 a =>
            rw [passUnits_raw_hit p _ rest idx hcp
              (fun k h2 => Seg.noConfusion h2)]
            exact List.Forall₂.cons ⟨hlook0, rfl⟩
              (ih segs2 (idx + 1) hmr hlookrest)
        · rw [passUnits_raw_miss p s2 rest idx hcp]
          have hlr : ∀ q ∈ passPairsN p rest idx, F.lookup q.1 = some q.2 := by
            intro q hq
            refine hlook q ?_
            rw [passPairsN_raw, if_neg hcp]
            exact hq
          exact List.Forall₂.cons rfl (ih segs2 idx hmr hlr)

/-! ### Lookup and fold evaluation -/

theorem lookup_append_some (l1 l2 : List (Nat × Str)) (a : Nat) (b : Str)
    (h : l1.lookup a = some b) : (l1 ++ l2).lookup a = some b := by
  induction l1 with
  | nil => simp [List.lookup] at h
  | cons p l ih =>
    rw [show ((p :: l) ++ l2) = p :: (l ++ l2) from rfl]
    by_cases hap : (a == p.1) = true
    · simp only [List.lookup, hap] at h ⊢
      exact h
    · have hf : (a == p.1) = false := by simpa using hap
      simp only [List.lookup, hf] at h ⊢
      exact ih h

theorem lookup_of_mem_nodupKeys (F : List (Nat × Str))
    (hnd : (F.map Prod.fst).Nodup) (q : Nat × Str) (hq : q ∈ F) :
    F.lookup q.1 = some q.2 := by
  induction F with
  | nil => simp at hq
  | cons p l ih =>
    rw [List.map_cons, List.nodup_cons] at hnd
    rcases List.mem_cons.mp hq with rfl | hq2
    · simp [List.lookup]
    · have hne : ¬ (q.1 == p.1) = true := by
        simp only [beq_iff_eq]
        intro h2
        exact hnd.1 (h2 ▸ List.mem_map.mpr ⟨q, hq2, rfl⟩)
      have hf : (q.1 == p.1) = false := by simpa using hne
      simp only [List.lookup, hf]
      exact ih hnd.2 hq2

theorem foldl_ruSub_rlit (pairs : List (Nat × Str)) (c : Char) :
    pairs.foldl (fun v p => ruSub p.1 p.2 v) (.rlit c) = .rlit c := by
  induction pairs with
  | nil => rfl
  | cons p ps ih => rw [List.foldl_cons, show ruSub p.1 p.2 (RUnit.rlit c) =
      RUnit.rlit c from rfl]; exact ih

theorem foldl_ruSub_rorig (pairs : List (Nat × Str)) (s : Str) :
    pairs.foldl (fun v p => ruSub p.1 p.2 v) (.rorig s) = .rorig s := by
  induction pairs with
  | nil => rfl
  | cons p ps ih => rw [List.foldl_cons, show ruSub p.1 p.2 (RUnit.rorig s) =
      RUnit.rorig s from rfl]; exact ih

theorem foldl_ruSub_rdorig (pairs : List (Nat × Str)) (s : Str) :
    pairs.foldl (fun v p => ruSub p.1 p.2 v) (.rdorig s) = .rdorig s := by
  induction pairs with
  | nil => rfl
  | cons p ps ih => rw [List.foldl_cons, show ruSub p.1 p.2 (RUnit.rdorig s) =
      RUnit.rdorig s from rfl]; exact ih

theorem foldl_ruSub_rtok (pairs : List (Nat × Str)) :
    ∀ (i : Nat) (o : Str), pairs.lookup i = some o →
      pairs.foldl (fun v p => ruSub p.1 p.2 v) (.rtok i) = .rorig o := by
  induction pairs with
  | nil => intro i o h; simp [List.lookup] at h
  | cons p ps ih =>
    intro i o h
    by_cases hip : (i == p.1) = true
    · have ho : p.2 = o := by
        simp only [List.lookup, hip, Option.some.injEq] at h
        exact h
      subst ho
      rw [List.foldl_cons, show ruSub p.1 p.2 (RUnit.rtok i) =
        RUnit.rorig p.2 by simp [ruSub, beq_iff_eq.mp hip]]
      exact foldl_ruSub_rorig ps p.2
    · have hf : (i == p.1) = false := by simpa using hip
      have h2 : ps.lookup i = some o := by
        simpa only [List.lookup, hf] using h
      have hne : ¬ i = p.1 := by simpa using hip
      rw [List.foldl_cons,
        show ruSub p.1 p.2 (RUnit.rtok i) = RUnit.rtok i by simp [ruSub, hne]]
      exact ih i o h2

theorem foldl_ruSub_rdtok (pairs : List (Nat × Str)) :
    ∀ (i : Nat) (o : Str), pairs.lookup i = some o →
      pairs.foldl (fun v p => ruSub p.1 p.2 v) (.rdtok i) = .rdorig o := by
  induction pairs with
  | nil => intro i o h; simp [List.lookup] at h
  | cons p ps ih =>
    intro i o h
    by_cases hip : (i == p.1) = true
    · have ho : p.2 = o := by
        simp only [List.lookup, hip, Option.some.injEq] at h
        exact h
      subst ho
      rw [List.foldl_cons, show ruSub p.1 p.2 (RUnit.rdtok i) =
        RUnit.rdorig p.2 by simp [ruSub, beq_iff_eq.mp hip]]
      exact foldl_ruSub_rdorig ps p.2
    · have hf : (i == p.1) = false := by simpa using hip
      have h2 : ps.lookup i = some o := by
        simpa only [List.lookup, hf] using h
      have hne : ¬ i = p.1 := by simpa using hip
      rw [List.foldl_cons,
        show ruSub p.1 p.2 (RUnit.rdtok i) = RUnit.rdtok i by simp [ruSub, hne]]
      exact ih i o h2

theorem foldl_map_ruSub (pairs : List (Nat × Str)) :
    ∀ vs : List RUnit,
      pairs.foldl (fun acc p => acc.map (ruSub p.1 p.2)) vs =
        vs.map (fun u => pairs.foldl (fun v p => ruSub p.1 p.2 v) u) := by
  induction pairs with
  | nil => intro vs; simp
  | cons p ps ih =>
    intro vs
    rw [List.foldl_cons, ih (vs.map (ruSub p.1 p.2)), List.map_map]
    rfl

/-- After substituting every looked-up token, the units render back to the
original segments. -/
theorem final_render (F : List (Nat × Str)) :
    ∀ (us : List TUnit) (segs : List Seg),
      List.Forall₂ (UnitMatches F) us segs →
      (∀ s, ¬ TUnit.uraw s ∈ us) →
      renderRUnits ((us.map toR).map
        (fun u => F.foldl (fun v p => ruSub p.1 p.2 v) u)) = renderSegs segs := by
  intro us
  induction us with
  | nil =>
    intro segs hm _
    cases hm
    rfl
  | cons u rest ih =>
    intro segs hm hraw
    cases hm with
    | cons hms hmr =>
      rename_i s segs2
      rw [List.map_cons, List.map_cons, renderRUnits_cons,
        show renderSegs (s :: segs2) = renderSeg s ++ renderSegs segs2 by
          simp [renderSegs]]
      have hrest := ih segs2 hmr (fun s2 h2 => hraw s2 (by simp [h2]))
      cases u with
      | ulit c =>
        cases s with
        | lit d =>
          have hcd : c = d := hms
          subst hcd
          rw [show toR (TUnit.ulit c) = RUnit.rlit c from rfl,
            foldl_ruSub_rlit, hrest]
          rfl
        | ph1 n => exact absurd hms (by simp [UnitMatches])
        | ph2 n => exact absurd hms (by simp [UnitMatches])
        | ph3 d f => exact absurd hms (by simp [UnitMatches])
        | ph4 f => exact absurd hms (by simp [UnitMatches])
        | ph5 n => exact absurd hms (by simp [UnitMatches])
        | ph6 a => exact absurd hms (by simp [UnitMatches])
      | utok i =>
        obtain ⟨hlk, hht⟩ : F.lookup i = some (hitText s) ∧
            hitText s = renderSeg s := hms
        rw [show toR (TUnit.utok i) = RUnit.rtok i from rfl,
          foldl_ruSub_rtok F i (hitText s) hlk, hrest]
        rw [show renderRUnit (RUnit.rorig (hitText s)) = hitText s from rfl, hht]
      | udtok i =>
        cases s with
        | ph5 n =>
          have hlk : F.lookup i = some (hitText (.ph5 n)) := hms
          rw [show toR (TUnit.udtok i) = RUnit.rdtok i from rfl,
            foldl_ruSub_rdtok F i (hitText (.ph5 n)) hlk, hrest]
          rw [show renderRUnit (RUnit.rdorig (hitText (.ph5 n))) =
            '$' :: hitText (.ph5 n) from rfl]
          rw [show renderSeg (.ph5 n) = '$' :: hitText (.ph5 n) from rfl]
        | lit d => exact absurd hms (by simp [UnitMatches])
        | ph1 n => exact absurd hms (by simp [UnitMatches])
        | ph2 n => exact absurd hms (by simp [UnitMatches])
        | ph3 d f => exact absurd hms (by simp [UnitMatches])
        | ph4 f => exact absurd hms (by simp [UnitMatches])
        | ph6 a => exact absurd hms (by simp [UnitMatches])
      | uraw s2 => exact absurd (List.mem_cons_self _ _) (hraw s2)

/-! ### Assembling the round trip -/

def protR1 (segs : List Seg) := passUnits 1 (initUnits segs) 0
def protR2 (segs : List Seg) := passUnits 2 (protR1 segs).1 (protR1 segs).2.2
def protR3 (segs : List Seg) := passUnits 3 (protR2 segs).1 (protR2 segs).2.2
def protR4 (segs : List Seg) := passUnits 4 (protR3 segs).1 (protR3 segs).2.2
def protR5 (segs : List Seg) := passUnits 5 (protR4 segs).1 (protR4 segs).2.2
def protR6 (segs : List Seg) := passUnits 6 (protR5 segs).1 (protR5 segs).2.2

/-- The full pair list with numeric indices, across all six passes. -/
def protPairsN (segs : List Seg) : List (Nat × Str) :=
  passPairsN 1 (initUnits segs) 0 ++
  (passPairsN 2 (protR1 segs).1 (protR1 segs).2.2 ++
  (passPairsN 3 (protR2 segs).1 (protR2 segs).2.2 ++
  (passPairsN 4 (protR3 segs).1 (protR3 segs).2.2 ++
  (passPairsN 5 (protR4 segs).1 (protR4 segs).2.2 ++
  passPairsN 6 (protR5 segs).1 (protR5 segs).2.2))))

theorem protUnits_eq (segs : List Seg) :
    protUnits segs =
      ((protR6 segs).1,
       (protR1 segs).2.1 ++ ((protR2 segs).2.1 ++ ((protR3 segs).2.1 ++
         ((protR4 segs).2.1 ++ ((protR5 segs).2.1 ++ (protR6 segs).2.1)))),
       (protR6 segs).2.2) := rfl

theorem protPairs_eq_map (segs : List Seg) :
    (protUnits segs).2.1 =
      (protPairsN segs).map (fun q => (token q.1, q.2)) := by
  rw [protUnits_eq]
  show (protR1 segs).2.1 ++ ((protR2 segs).2.1 ++ ((protR3 segs).2.1 ++
    ((protR4 segs).2.1 ++ ((protR5 segs).2.1 ++ (protR6 segs).2.1)))) =
    (protPairsN segs).map (fun q => (token q.1, q.2))
  rw [show (protR1 segs).2.1 = (passPairsN 1 (initUnits segs) 0).map
      (fun q => (token q.1, q.2)) from passUnits_pairs_eq 1 _ _,
    show (protR2 segs).2.1 = (passPairsN 2 (protR1 segs).1
      (protR1 segs).2.2).map (fun q => (token q.1, q.2)) from
      passUnits_pairs_eq 2 _ _,
    show (protR3 segs).2.1 = (passPairsN 3 (protR2 segs).1
      (protR2 segs).2.2).map (fun q => (token q.1, q.2)) from
      passUnits_pairs_eq 3 _ _,
    show (protR4 segs).2.1 = (passPairsN 4 (protR3 segs).1
      (protR3 segs).2.2).map (fun q => (token q.1, q.2)) from
      passUnits_pairs_eq 4 _ _,
    show (protR5 segs).2.1 = (passPairsN 5 (protR4 segs).1
      (protR4 segs).2.2).map (fun q => (token q.1, q.2)) from
      passUnits_pairs_eq 5 _ _,
    show (protR6 segs).2.1 = (passPairsN 6 (protR5 segs).1
      (protR5 segs).2.2).map (fun q => (token q.1, q.2)) from
      passUnits_pairs_eq 6 _ _]
  simp [protPairsN]

theorem range'_glue (a : Nat) : ∀ (m n : Nat),
    List.range' a m ++ List.range' (a + m) n = List.range' a (m + n) := by
  intro m
  induction m generalizing a with
  | zero => intro n; simp
  | succ m ih =>
    intro n
    rw [List.range'_succ, List.cons_append]
    rw [show m + 1 + n = (m + n) + 1 by omega, List.range'_succ]
    rw [show a + (m + 1) = (a + 1) + m by omega, ih (a + 1) n]

/-- The collected pair keys are exactly `0, 1, …, N-1` in order. -/
theorem protPairsN_keys (segs : List Seg) :
    (protPairsN segs).map Prod.fst =
      List.range' 0 (protPairsN segs).length := by
  obtain ⟨hk1, hc1⟩ := passPairsN_keys 1 (initUnits segs) 0
  obtain ⟨hk2, hc2⟩ := passPairsN_keys 2 (protR1 segs).1 (protR1 segs).2.2
  obtain ⟨hk3, hc3⟩ := passPairsN_keys 3 (protR2 segs).1 (protR2 segs).2.2
  obtain ⟨hk4, hc4⟩ := passPairsN_keys 4 (protR3 segs).1 (protR3 segs).2.2
  obtain ⟨hk5, hc5⟩ := passPairsN_keys 5 (protR4 segs).1 (protR4 segs).2.2
  obtain ⟨hk6, hc6⟩ := passPairsN_keys 6 (protR5 segs).1 (protR5 segs).2.2
  have e1 : (protR1 segs).2.2 = 0 + (passPairsN 1 (initUnits segs) 0).length := hc1
  have e2 : (protR2 segs).2.2 = (protR1 segs).2.2 +
      (passPairsN 2 (protR1 segs).1 (protR1 segs).2.2).length := hc2
  have e3 : (protR3 segs).2.2 = (protR2 segs).2.2 +
      (passPairsN 3 (protR2 segs).1 (protR2 segs).2.2).length := hc3
  have e4 : (protR4 segs).2.2 = (protR3 segs).2.2 +
      (passPairsN 4 (protR3 segs).1 (protR3 segs).2.2).length := hc4
  have e5 : (protR5 segs).2.2 = (protR4 segs).2.2 +
      (passPairsN 5 (protR4 segs).1 (protR4 segs).2.2).length := hc5
  rw [protPairsN]
  simp only [List.map_append, List.length_append]
  rw [hk1, hk2, hk3, hk4, hk5, hk6]
  -- glue from the innermost append outwards
  rw [e5, range'_glue, ← e5]
  rw [e4, range'_glue, ← e4]
  rw [e3, range'_glue, ← e3]
  rw [e2, range'_glue, ← e2]
  rw [e1, range'_glue]

theorem protOK1 (segs : List Seg) (hWF : ∀ s ∈ segs, segWF s = true) :
    UnitsOK 1 (initUnits segs) := UnitsOK_init segs hWF
theorem protOK2 (segs : List Seg) (hWF : ∀ s ∈ segs, segWF s = true) :
    UnitsOK 2 (protR1 segs).1 := UnitsOK_step 1 _ 0 (protOK1 segs hWF)
theorem protOK3 (segs : List Seg) (hWF : ∀ s ∈ segs, segWF s = true) :
    UnitsOK 3 (protR2 segs).1 :=
  UnitsOK_step 2 _ (protR1 segs).2.2 (protOK2 segs hWF)
theorem protOK4 (segs : List Seg) (hWF : ∀ s ∈ segs, segWF s = true) :
    UnitsOK 4 (protR3 segs).1 :=
  UnitsOK_step 3 _ (protR2 segs).2.2 (protOK3 segs hWF)
theorem protOK5 (segs : List Seg) (hWF : ∀ s ∈ segs, segWF s = true) :
    UnitsOK 5 (protR4 segs).1 :=
  UnitsOK_step 4 _ (protR3 segs).2.2 (protOK4 segs hWF)
theorem protOK6 (segs : List Seg) (hWF : ∀ s ∈ segs, segWF s = true) :
    UnitsOK 6 (protR5 segs).1 :=
  UnitsOK_step 5 _ (protR4 segs).2.2 (protOK5 segs hWF)
theorem protOK7 (segs : List Seg) (hWF : ∀ s ∈ segs, segWF s = true) :
    UnitsOK 7 (protR6 segs).1 :=
  UnitsOK_step 6 _ (protR5 segs).2.2 (protOK6 segs hWF)

theorem protPairsN_keys_nodup (segs : List Seg) :
    ((protPairsN segs).map Prod.fst).Nodup := by
  rw [protPairsN_keys]
  exact List.nodup_range' 0 (protPairsN segs).length

/-- Each minted index occurs exactly once among the final text's tokens. -/
theorem protUnits_count (segs : List Seg) (j : Nat) :
    (tIndices (protUnits segs).1).count j =
      ((protPairsN segs).map Prod.fst).count j := by
  have t1 := tIndices_passUnits 1 (initUnits segs) 0 j
  have t2 := tIndices_passUnits 2 (protR1 segs).1 (protR1 segs).2.2 j
  have t3 := tIndices_passUnits 3 (protR2 segs).1 (protR2 segs).2.2 j
  have t4 := tIndices_passUnits 4 (protR3 segs).1 (protR3 segs).2.2 j
  have t5 := tIndices_passUnits 5 (protR4 segs).1 (protR4 segs).2.2 j
  have t6 := tIndices_passUnits 6 (protR5 segs).1 (protR5 segs).2.2 j
  have t0 : tIndices (initUnits segs) = [] := tIndices_init segs
  rw [t0] at t1
  show (tIndices (protR6 segs).1).count j = _
  rw [protPairsN]
  simp only [List.map_append, List.count_append]
  have e6 : (tIndices (protR6 segs).1).count j =
      (tIndices (protR5 segs).1).count j +
        ((passPairsN 6 (protR5 segs).1 (protR5 segs).2.2).map Prod.fst).count j := t6
  have e5 : (tIndices (protR5 segs).1).count j =
      (tIndices (protR4 segs).1).count j +
        ((passPairsN 5 (protR4 segs).1 (protR4 segs).2.2).map Prod.fst).count j := t5
  have e4 : (tIndices (protR4 segs).1).count j =
      (tIndices (protR3 segs).1).count j +
        ((passPairsN 4 (protR3 segs).1 (protR3 segs).2.2).map Prod.fst).count j := t4
  have e3 : (tIndices (protR3 segs).1).count j =
      (tIndices (protR2 segs).1).count j +
        ((passPairsN 3 (protR2 segs).1 (protR2 segs).2.2).map Prod.fst).count j := t3
  have e2 : (tIndices (protR2 segs).1).count j =
      (tIndices (protR1 segs).1).count j +
        ((passPairsN 2 (protR1 segs).1 (protR1 segs).2.2).map Prod.fst).count j := t2
  have e1 : (tIndices (protR1 segs).1).count j =
      ((passPairsN 1 (initUnits segs) 0).map Prod.fst).count j := by
    have := t1
    simpa using this
  omega

/-- All recorded originals are safe. -/
theorem protPairs_safe (segs : List Seg) (hWF : ∀ s ∈ segs, segWF s = true) :
    ∀ q ∈ protPairsN segs, OrigSafe q.2 := by
  intro q hq
  rw [protPairsN] at hq
  rcases List.mem_append.mp hq with hq | hq
  · exact passPairsN_safe 1 _ 0 (protOK1 segs hWF) q hq
  rcases List.mem_append.mp hq with hq | hq
  · exact passPairsN_safe 2 _ _ (protOK2 segs hWF) q hq
  rcases List.mem_append.mp hq with hq | hq
  · exact passPairsN_safe 3 _ _ (protOK3 segs hWF) q hq
  rcases List.mem_append.mp hq with hq | hq
  · exact passPairsN_safe 4 _ _ (protOK4 segs hWF) q hq
  rcases List.mem_append.mp hq with hq | hq
  · exact passPairsN_safe 5 _ _ (protOK5 segs hWF) q hq
  · exact passPairsN_safe 6 _ _ (protOK6 segs hWF) q hq

/-- The final units still stand for the source segments under the final
pair list. -/
theorem protUnits_matches (segs : List Seg) :
    List.Forall₂ (UnitMatches (protPairsN segs)) (protUnits segs).1 segs := by
  have hnd := protPairsN_keys_nodup segs
  have hlk : ∀ q ∈ protPairsN segs,
      (protPairsN segs).lookup q.1 = some q.2 :=
    fun q hq => lookup_of_mem_nodupKeys _ hnd q hq
  have m0 := initUnits_matches (protPairsN segs) segs
  have m1 := passUnits_matches 1 (protPairsN segs) (initUnits segs) segs 0 m0
    (fun q hq => hlk q (by rw [protPairsN]; exact List.mem_append_left _ hq))
  have m2 := passUnits_matches 2 (protPairsN segs) (protR1 segs).1 segs
    (protR1 segs).2.2 m1
    (fun q hq => hlk q (by
      rw [protPairsN]
      exact List.mem_append_right _ (List.mem_append_left _ hq)))
  have m3 := passUnits_matches 3 (protPairsN segs) (protR2 segs).1 segs
    (protR2 segs).2.2 m2
    (fun q hq => hlk q (by
      rw [protPairsN]
      exact List.mem_append_right _ (List.mem_append_right _
        (List.mem_append_left _ hq))))
  have m4 := passUnits_matches 4 (protPairsN segs) (protR3 segs).1 segs
    (protR3 segs).2.2 m3
    (fun q hq => hlk q (by
      rw [protPairsN]
      exact List.mem_append_right _ (List.mem_append_right _
        (List.mem_append_right _ (List.mem_append_left _ hq)))))
  have m5 := passUnits_matches 5 (protPairsN segs) (protR4 segs).1 segs
    (protR4 segs).2.2 m4
    (fun q hq => hlk q (by
      rw [protPairsN]
      exact List.mem_append_right _ (List.mem_append_right _
        (List.mem_append_right _ (List.mem_append_right _
          (List.mem_append_left _ hq))))))
  have m6 := passUnits_matches 6 (protPairsN segs) (protR5 segs).1 segs
    (protR5 segs).2.2 m5
    (fun q hq => hlk q (by
      rw [protPairsN]
      exact List.mem_append_right _ (List.mem_append_right _
        (List.mem_append_right _ (List.mem_append_right _
          (List.mem_append_right _ hq))))))
  exact m6

theorem protUnits_noraw (segs : List Seg) (hWF : ∀ s ∈ segs, segWF s = true) :
    ∀ s, ¬ TUnit.uraw s ∈ (protUnits segs).1 := by
  intro s hs
  obtain ⟨-, h2⟩ := protOK7 segs hWF _ hs
  obtain ⟨-, hge, -⟩ := h2 s rfl
  have := classOf_le_six s
  omega

theorem renderRUnits_toR :
    ∀ us : List TUnit, (∀ s, ¬ TUnit.uraw s ∈ us) →
      renderRUnits (us.map toR) = renderUnits us := by
  intro us
  induction us with
  | nil => intro _; rfl
  | cons u rest ih =>
    intro hraw
    rw [List.map_cons, renderRUnits_cons, renderUnits_cons,
      ih (fun s h2 => hraw s (by simp [h2]))]
    cases u with
    | ulit c => rfl
    | utok i => rfl
    | udtok i => rfl
    | uraw s => exact absurd (List.mem_cons_self _ _) (hraw s)

theorem RUnitsOK_toR (p : Nat) (us : List TUnit) (h : UnitsOK p us) :
    RUnitsOK (us.map toR) := by
  intro v hv
  rw [List.mem_map] at hv
  obtain ⟨u, hu, rfl⟩ := hv
  obtain ⟨h1, -⟩ := h u hu
  cases u with
  | ulit c =>
    exact ⟨(fun d hd => by cases hd; exact h1 _ rfl),
      (fun s hs => by cases hs), (fun s hs => by cases hs)⟩
  | utok i =>
    exact ⟨(fun d hd => by cases hd), (fun s hs => by cases hs),
      (fun s hs => by cases hs)⟩
  | udtok i =>
    exact ⟨(fun d hd => by cases hd), (fun s hs => by cases hs),
      (fun s hs => by cases hs)⟩
  | uraw s =>
    exact ⟨(fun d hd => by cases hd; exact (by decide)),
      (fun s2 hs => by cases hs), (fun s2 hs => by cases hs)⟩

/-- Round trip: protecting and then restoring a string in the placeholder
grammar is the identity. -/
theorem protect_restore_on_segs (segs : List Seg)
    (hWF : ∀ s ∈ segs, segWF s = true) :
    restorePlaceholders (protectPlaceholders (renderSegs segs)).text
      (protectPlaceholders (renderSegs segs)).placeholders = renderSegs segs := by
  rw [protect_on_segs segs hWF]
  show restorePlaceholders (renderUnits (protUnits segs).1)
    (protUnits segs).2.1 = renderSegs segs
  rw [protPairs_eq_map segs,
    ← renderRUnits_toR (protUnits segs).1 (protUnits_noraw segs hWF)]
  rw [restore_fold (protPairsN segs) ((protUnits segs).1.map toR)
    (RUnitsOK_toR 7 _ (protOK7 segs hWF))
    (protPairs_safe segs hWF)
    (fun q hq => by
      rw [tIndices_toR]
      rw [protUnits_count segs q.1]
      have hmem : q.1 ∈ (protPairsN segs).map Prod.fst :=
        List.mem_map.mpr ⟨q, hq, rfl⟩
      exact List.count_eq_one_of_mem (protPairsN_keys_nodup segs) hmem)
    (protPairsN_keys_nodup segs)]
  rw [foldl_map_ruSub]
  exact final_render (protPairsN segs) (protUnits segs).1 segs
    (protUnits_matches segs) (protUnits_noraw segs hWF)

/-- C1 counterexample: the input `__PH0__ {a}` contains exactly one match
of the six placeholder grammars (the `{a}`), so all matches are trivially
non-overlapping, yet the round trip returns `{a} __PH0__`: the minted
token for `{a}` is `__PH0__`, and the restore step replaces the literal
`__PH0__` at the start of the text instead of the minted one. -/
theorem protect_restore_ne :
    nonOverlappingMatches ("__PH0__ {a}".toList) = true ∧
    ¬ restorePlaceholders (protectPlaceholders ("__PH0__ {a}".toList)).text
        (protectPlaceholders ("__PH0__ {a}".toList)).placeholders
      = "__PH0__ {a}".toList := by
  constructor
  · decide
  · decide

/-- C1 (amended): `restorePlaceholders` inverts `protectPlaceholders` on
every string assembled from the six placeholder grammars (with well-formed
names, positional indices and `$t` arguments) and literal characters that
are not braces, `%`, `$`, `_`, or digits. The claim's original
non-overlap hypothesis is not sufficient: a literal occurrence of a token
such as `__PH0__` breaks the round trip even though it overlaps no
placeholder match. -/
theorem protect_restore_roundTrip (segs : List Seg)
    (hWF : ∀ s ∈ segs, segWF s = true) :
    restorePlaceholders (protectPlaceholders (renderSegs segs)).text
      (protectPlaceholders (renderSegs segs)).placeholders =
      renderSegs segs :=
  protect_restore_on_segs segs hWF

/-- C1 witness: a concrete document exercising all six grammars,
`{{c}} {name} %1$s %s ${v} $t(k)`. -/
theorem protect_restore_roundTrip_witness :
    (∀ s ∈ ([Seg.ph1 ['c'], Seg.lit ' ', Seg.ph2 ['n', 'a', 'm', 'e'],
        Seg.lit ' ', Seg.ph3 ['1'] 's', Seg.lit ' ', Seg.ph4 's',
        Seg.lit ' ', Seg.ph5 ['v'], Seg.lit ' ', Seg.ph6 ['k']] : List Seg),
      segWF s = true) ∧
    restorePlaceholders
        (protectPlaceholders (renderSegs
          [Seg.ph1 ['c'], Seg.lit ' ', Seg.ph2 ['n', 'a', 'm', 'e'],
           Seg.lit ' ', Seg.ph3 ['1'] 's', Seg.lit ' ', Seg.ph4 's',
           Seg.lit ' ', Seg.ph5 ['v'], Seg.lit ' ', Seg.ph6 ['k']])).text
        (protectPlaceholders (renderSegs
          [Seg.ph1 ['c'], Seg.lit ' ', Seg.ph2 ['n', 'a', 'm', 'e'],
           Seg.lit ' ', Seg.ph3 ['1'] 's', Seg.lit ' ', Seg.ph4 's',
           Seg.lit ' ', Seg.ph5 ['v'], Seg.lit ' ', Seg.ph6 ['k']])).placeholders =
      renderSegs
        [Seg.ph1 ['c'], Seg.lit ' ', Seg.ph2 ['n', 'a', 'm', 'e'],
         Seg.lit ' ', Seg.ph3 ['1'] 's', Seg.lit ' ', Seg.ph4 's',
         Seg.lit ' ', Seg.ph5 ['v'], Seg.lit ' ', Seg.ph6 ['k']] :=
  ⟨by decide, protect_restore_roundTrip
    [Seg.ph1 ['c'], Seg.lit ' ', Seg.ph2 ['n', 'a', 'm', 'e'],
     Seg.lit ' ', Seg.ph3 ['1'] 's', Seg.lit ' ', Seg.ph4 's',
     Seg.lit ' ', Seg.ph5 ['v'], Seg.lit ' ', Seg.ph6 ['k']] (by decide)⟩

end Translate
